import Mathlib

/-!
# Red-black tree (`tree.c`, `tree.h`): heap model and verification

The C program stores the tree in heap cells linked by `left`, `right` and
`parent` pointers and mutates them in place.  The model keeps that shape: a
state is a heap (a partial map from addresses to cells), the root handle and
the allocation counter; a pointer is `Option Nat` with `none` for `NULL`.
Every C statement that follows a pointer becomes a read or a write of the heap
which faults on `NULL` (or on a freed cell); every loop and every recursion
runs on fuel taken from the allocation counter.
-/

namespace RBT

/-! ## Constants of `tree.h` -/

/-- Status macro `SUCCESS` of `tree.h`. -/
def SUCCESS : Int := 0
/-- Status macro `FAILURE` of `tree.h`. -/
def FAILURE : Int := -1
/-- Status macro `DUPLICATE` of `tree.h`. -/
def DUPLICATE : Int := -2
/-- Status macro `LIST_EMPTY` of `tree.h`. -/
def LIST_EMPTY : Int := -3
/-- Status macro `DATA_NOT_FOUND` of `tree.h`. -/
def DATA_NOT_FOUND : Int := -4

/-- Color macro `RED` of `tree.h`. -/
def RED : Int := 0
/-- Color macro `BLACK` of `tree.h`. -/
def BLACK : Int := 1

/-! ## Heap -/

/-- A pointer to a node: `none` is `NULL`. -/
abbrev Ptr := Option Nat

/-- The node record `struct Tree` of `tree.h`. -/
structure Tree where
  data : Int
  color : Int
  left : Ptr
  right : Ptr
  parent : Ptr
deriving DecidableEq, Repr

/-- What stops an execution of the model short of a result. -/
inductive Fault where
  | nullDeref
  | outOfFuel
deriving DecidableEq, Repr

/-- Program state: the heap, the root handle `*root`, and the next unused address. -/
structure State where
  mem : Nat → Option Tree
  root : Ptr
  next : Nat

/-- The state of `main` before any call: `Tree *root = NULL`. -/
def State.empty : State := ⟨fun _ => none, none, 0⟩

/-- Read the cell a pointer refers to. -/
def load (s : State) (p : Ptr) : Except Fault Tree :=
  match p with
  | none => .error .nullDeref
  | some a =>
    match s.mem a with
    | none => .error .nullDeref
    | some n => .ok n

/-- Overwrite the cell at an address. -/
def store (s : State) (a : Nat) (n : Tree) : State :=
  { s with mem := Function.update s.mem a (some n) }

/-- Update the cell a pointer refers to. -/
def modify (s : State) (p : Ptr) (f : Tree → Tree) : Except Fault State :=
  match p with
  | none => .error .nullDeref
  | some a =>
    match s.mem a with
    | none => .error .nullDeref
    | some n => .ok (store s a (f n))

/-- Expression `p->data`. -/
def getData (s : State) (p : Ptr) : Except Fault Int := (load s p).map Tree.data
/-- Expression `p->color`. -/
def getColor (s : State) (p : Ptr) : Except Fault Int := (load s p).map Tree.color
/-- Expression `p->left`. -/
def getLeft (s : State) (p : Ptr) : Except Fault Ptr := (load s p).map Tree.left
/-- Expression `p->right`. -/
def getRight (s : State) (p : Ptr) : Except Fault Ptr := (load s p).map Tree.right
/-- Expression `p->parent`. -/
def getParent (s : State) (p : Ptr) : Except Fault Ptr := (load s p).map Tree.parent

/-- Statement `p->data = v`. -/
def setData (s : State) (p : Ptr) (v : Int) : Except Fault State :=
  modify s p (fun n => { n with data := v })
/-- Statement `p->color = v`. -/
def setColor (s : State) (p : Ptr) (v : Int) : Except Fault State :=
  modify s p (fun n => { n with color := v })
/-- Statement `p->left = v`. -/
def setLeft (s : State) (p : Ptr) (v : Ptr) : Except Fault State :=
  modify s p (fun n => { n with left := v })
/-- Statement `p->right = v`. -/
def setRight (s : State) (p : Ptr) (v : Ptr) : Except Fault State :=
  modify s p (fun n => { n with right := v })
/-- Statement `p->parent = v`. -/
def setParent (s : State) (p : Ptr) (v : Ptr) : Except Fault State :=
  modify s p (fun n => { n with parent := v })

/-- Statement `*root = p`. -/
def setRoot (s : State) (p : Ptr) : State := { s with root := p }

/-- Call `free(p)` on a non-null pointer: the cell is gone. -/
def free (s : State) (p : Ptr) : Except Fault State :=
  match p with
  | none => .ok s
  | some a => .ok { s with mem := Function.update s.mem a none }

/-! ## Rotations (`tree.c` lines 42-84) -/

/-- Function `right_rotate` of `tree.c`. -/
def right_rotate (s : State) (node : Ptr) : Except Fault State := do
  let temp ← getLeft s node
  let tr ← getRight s temp
  let s ← setLeft s node tr
  let tr ← getRight s temp
  let s ← if tr ≠ none then setParent s tr node else pure s
  let np ← getParent s node
  let s ← setParent s temp np
  let np ← getParent s node
  let s ←
    if np = none then pure (setRoot s temp)
    else do
      let npr ← getRight s np
      if node = npr then setRight s np temp else setLeft s np temp
  let s ← setRight s temp node
  setParent s node temp

/-- Function `left_rotate` of `tree.c`. -/
def left_rotate (s : State) (node : Ptr) : Except Fault State := do
  let temp ← getRight s node
  let tl ← getLeft s temp
  let s ← setRight s node tl
  let tl ← getLeft s temp
  let s ← if tl ≠ none then setParent s tl node else pure s
  let np ← getParent s node
  let s ← setParent s temp np
  let np ← getParent s node
  let s ←
    if np = none then pure (setRoot s temp)
    else do
      let npl ← getLeft s np
      if node = npl then setLeft s np temp else setRight s np temp
  let s ← setLeft s temp node
  setParent s node temp

/-! ## Insertion (`tree.c` lines 90-195) -/

/-- Function `create_node` of `tree.c`, allocation succeeding: a fresh RED cell
with no links; the result is the new state and the new pointer. -/
def create_node (s : State) (data : Int) : State × Ptr :=
  ({ s with mem := Function.update s.mem s.next (some ⟨data, RED, none, none, none⟩),
            next := s.next + 1 }, some s.next)

/-- The descent loop of `insert_node` (lines 114-123): `none` when the key is
met (`DUPLICATE`), otherwise the last node visited (`prev`). -/
def insert_descend : Nat → State → Int → Ptr → Ptr → Except Fault (Option Ptr)
  | 0, _, _, _, _ => .error .outOfFuel
  | fuel + 1, s, data, temp, prev =>
    if temp = none then pure (some prev)
    else do
      let td ← getData s temp
      if data < td then do
        let l ← getLeft s temp
        insert_descend fuel s data l temp
      else if data > td then do
        let r ← getRight s temp
        insert_descend fuel s data r temp
      else pure none

/-- Test `q && q->color == RED` on a pointer. -/
def isRedPtr (s : State) (q : Ptr) : Except Fault Bool :=
  if q = none then pure false
  else do
    let c ← getColor s q
    pure (decide (c = RED))

/-- The fixup loop of `insert_node` (lines 144-192). -/
def insert_fixup : Nat → State → Ptr → Except Fault State
  | 0, _, _ => .error .outOfFuel
  | fuel + 1, s, node =>
    if node = s.root then pure s
    else do
      let p ← getParent s node
      let pc ← getColor s p
      if pc ≠ RED then pure s
      else do
        let g ← getParent s p
        let gl ← getLeft s g
        if p = gl then do
          let uncle ← getRight s g
          let ured ← isRedPtr s uncle
          if ured then do
            let s ← setColor s uncle BLACK
            let p ← getParent s node
            let s ← setColor s p BLACK
            let p ← getParent s node
            let g ← getParent s p
            let s ← setColor s g RED
            let p ← getParent s node
            let g ← getParent s p
            insert_fixup fuel s g
          else do
            let p ← getParent s node
            let pr ← getRight s p
            let (s, node) ←
              if node = pr then do
                let s ← left_rotate s p
                pure (s, p)
              else pure (s, node)
            let p ← getParent s node
            let s ← setColor s p BLACK
            let p ← getParent s node
            let g ← getParent s p
            let s ← setColor s g RED
            let p ← getParent s node
            let g ← getParent s p
            let s ← right_rotate s g
            insert_fixup fuel s node
        else do
          let uncle ← getLeft s g
          let ured ← isRedPtr s uncle
          if ured then do
            let s ← setColor s uncle BLACK
            let p ← getParent s node
            let s ← setColor s p BLACK
            let p ← getParent s node
            let g ← getParent s p
            let s ← setColor s g RED
            let p ← getParent s node
            let g ← getParent s p
            insert_fixup fuel s g
          else do
            let p ← getParent s node
            let pl ← getLeft s p
            let (s, node) ←
              if node = pl then do
                let s ← right_rotate s p
                pure (s, p)
              else pure (s, node)
            let p ← getParent s node
            let s ← setColor s p BLACK
            let p ← getParent s node
            let g ← getParent s p
            let s ← setColor s g RED
            let p ← getParent s node
            let g ← getParent s p
            let s ← left_rotate s g
            insert_fixup fuel s node

/-- Function `insert_node` of `tree.c`, allocation succeeding: the status and
the state after the call. -/
def insert_node (s : State) (data : Int) : Except Fault (Int × State) := do
  let r ← insert_descend (s.next + 1) s data s.root none
  match r with
  | none => pure (DUPLICATE, s)
  | some prev =>
    let (s, newNode) := create_node s data
    if s.root = none then do
      let s ← setColor s newNode BLACK
      pure (SUCCESS, setRoot s newNode)
    else do
      let s ← setParent s newNode prev
      let pd ← getData s prev
      let s ← if data < pd then setLeft s prev newNode else setRight s prev newNode
      let s ← insert_fixup (s.next + 1) s newNode
      let s ← setColor s s.root BLACK
      pure (SUCCESS, s)

/-! ## Deletion (`tree.c` lines 201-364) -/

/-- Function `findmin` of `tree.c`. -/
def findmin : Nat → State → Ptr → Except Fault Ptr
  | 0, _, _ => .error .outOfFuel
  | fuel + 1, s, root =>
    if root = none then pure root
    else do
      let l ← getLeft s root
      if l = none then pure root else findmin fuel s l

/-- Function `getsibling_node` of `tree.c`. -/
def getsibling_node (s : State) (node : Ptr) : Except Fault Ptr := do
  let p ← getParent s node
  if p = none then pure none
  else do
    let pl ← getLeft s p
    if node = pl then getRight s p else getLeft s p

/-- Function `is_left_child` of `tree.c`. -/
def is_left_child (s : State) (node : Ptr) : Except Fault Bool := do
  let p ← getParent s node
  if p = none then pure false
  else do
    let pl ← getLeft s p
    pure (decide (node = pl))

/-- The test of lines 260-261 of `fix_double_black`:
`(sibling->left && sibling->left->color == RED) ||
 (sibling->right && sibling->right->color == RED)`. -/
def hasRedChild (s : State) (sibling : Ptr) : Except Fault Bool := do
  let sl ← getLeft s sibling
  let slRed ← isRedPtr s sl
  if slRed then pure true
  else do
    let sr ← getRight s sibling
    isRedPtr s sr

/-- Lines 263-292 of `fix_double_black`: the recoloring and the rotations when
the sibling is BLACK and has a RED child. -/
def fdb_rotate (s : State) (node sibling : Ptr) : Except Fault State := do
  let sl ← getLeft s sibling
  let slRed ← isRedPtr s sl
  if slRed then do
    let isl ← is_left_child s sibling
    if isl then do
      let sl ← getLeft s sibling
      let sc ← getColor s sibling
      let s ← setColor s sl sc
      let p ← getParent s node
      let pc ← getColor s p
      let s ← setColor s sibling pc
      let p ← getParent s node
      right_rotate s p
    else do
      let sl ← getLeft s sibling
      let p ← getParent s node
      let pc ← getColor s p
      let s ← setColor s sl pc
      let s ← right_rotate s sibling
      let p ← getParent s node
      left_rotate s p
  else do
    let isl ← is_left_child s sibling
    if isl then do
      let sr ← getRight s sibling
      let p ← getParent s node
      let pc ← getColor s p
      let s ← setColor s sr pc
      let s ← left_rotate s sibling
      let p ← getParent s node
      right_rotate s p
    else do
      let sr ← getRight s sibling
      let sc ← getColor s sibling
      let s ← setColor s sr sc
      let p ← getParent s node
      let pc ← getColor s p
      let s ← setColor s sibling pc
      let p ← getParent s node
      left_rotate s p

/-- Function `fix_double_black` of `tree.c`. -/
def fix_double_black : Nat → State → Ptr → Except Fault State
  | 0, _, _ => .error .outOfFuel
  | fuel + 1, s, node =>
    if node = s.root then pure s
    else do
      let sibling ← getsibling_node s node
      if sibling = none then do
        let p ← getParent s node
        fix_double_black fuel s p
      else do
        let sc ← getColor s sibling
        if sc = RED then do
          let p ← getParent s node
          let s ← setColor s p RED
          let s ← setColor s sibling BLACK
          let isl ← is_left_child s sibling
          let p ← getParent s node
          let s ← if isl then right_rotate s p else left_rotate s p
          fix_double_black fuel s node
        else do
          let anyRed ← hasRedChild s sibling
          if anyRed then do
            let s ← fdb_rotate s node sibling
            let p ← getParent s node
            setColor s p BLACK
          else do
            let s ← setColor s sibling RED
            let p ← getParent s node
            let pc ← getColor s p
            if pc = BLACK then do
              let p ← getParent s node
              fix_double_black fuel s p
            else do
              let p ← getParent s node
              setColor s p BLACK

/-- The descent loop of `delete_node` (lines 318-326). -/
def delete_descend : Nat → State → Int → Ptr → Except Fault Ptr
  | 0, _, _, _ => .error .outOfFuel
  | fuel + 1, s, data, temp =>
    if temp = none then pure temp
    else do
      let td ← getData s temp
      if td = data then pure temp
      else if data < td then do
        let l ← getLeft s temp
        delete_descend fuel s data l
      else do
        let r ← getRight s temp
        delete_descend fuel s data r

/-- Lines 331-337 of `delete_node`: with two children the key of the in-order
successor is copied into the node found and the successor is the node to
unlink; the result is the state and `to_delete`. -/
def delete_target (s : State) (temp : Ptr) : Except Fault (State × Ptr) := do
  let tl ← getLeft s temp
  let tr ← getRight s temp
  if tl ≠ none ∧ tr ≠ none then do
    let succ ← findmin (s.next + 1) s tr
    let sd ← getData s succ
    let s ← setData s temp sd
    pure (s, succ)
  else pure (s, temp)

/-- Line 339 of `delete_node`: `child`. -/
def delete_child (s : State) (to_delete : Ptr) : Except Fault Ptr := do
  let dl ← getLeft s to_delete
  if dl ≠ none then pure dl else getRight s to_delete

/-- Line 340 of `delete_node`: the flag `db`. -/
def delete_db (s : State) (to_delete child : Ptr) : Except Fault Bool := do
  let cb ←
    if child = none then pure true
    else do
      let cc ← getColor s child
      pure (decide (cc = BLACK))
  if cb then do
    let dc ← getColor s to_delete
    pure (decide (dc = BLACK))
  else pure false

/-- Lines 342-350 of `delete_node`: the node is unlinked, its child takes its place. -/
def delete_splice (s : State) (to_delete child : Ptr) : Except Fault State := do
  let s ←
    if child ≠ none then do
      let dp ← getParent s to_delete
      setParent s child dp
    else pure s
  let dp ← getParent s to_delete
  if dp = none then pure (setRoot s child)
  else do
    let isl ← is_left_child s to_delete
    let dp ← getParent s to_delete
    if isl then setLeft s dp child else setRight s dp child

/-- Lines 352-360 of `delete_node`: the double-black fixup, or the child painted BLACK. -/
def delete_rebalance (s : State) (db : Bool) (to_delete child : Ptr) : Except Fault State :=
  if db then
    if child ≠ none then fix_double_black (2 * s.next + 2) s child
    else fix_double_black (2 * s.next + 2) s to_delete
  else if child ≠ none then setColor s child BLACK
  else pure s

/-- Function `delete_node` of `tree.c`: the status and the state after the call. -/
def delete_node (s : State) (data : Int) : Except Fault (Int × State) :=
  if s.root = none then pure (FAILURE, s)
  else do
    let temp ← delete_descend (s.next + 1) s data s.root
    if temp = none then pure (DATA_NOT_FOUND, s)
    else do
      let (s, to_delete) ← delete_target s temp
      let child ← delete_child s to_delete
      let db ← delete_db s to_delete child
      let s ← delete_splice s to_delete child
      let s ← delete_rebalance s db to_delete child
      let s ← free s to_delete
      pure (SUCCESS, s)

/-! ## Search (`tree.c` lines 370-379) -/

/-- The loop of `search_node`. -/
def search_loop : Nat → State → Ptr → Int → Except Fault Int
  | 0, _, _, _ => .error .outOfFuel
  | fuel + 1, s, root, data =>
    if root = none then pure DATA_NOT_FOUND
    else do
      let rd ← getData s root
      if rd = data then pure SUCCESS
      else do
        let rd ← getData s root
        let nxt ← if data < rd then getLeft s root else getRight s root
        search_loop fuel s nxt data

/-- Function `search_node` of `tree.c`, called as `search_node(root, data)`. -/
def search_node (s : State) (data : Int) : Except Fault Int :=
  search_loop (s.next + 1) s s.root data

/-! ## Sequences of calls -/

/-- One call of the menu loop of `main.c` that changes the tree. -/
inductive Op where
  | ins (k : Int)
  | del (k : Int)
deriving DecidableEq, Repr

/-- Perform one call and drop its status. -/
def step (s : State) : Op → Except Fault State
  | .ins k => (insert_node s k).map Prod.snd
  | .del k => (delete_node s k).map Prod.snd

/-- Perform a sequence of calls from left to right. -/
def run : List Op → State → Except Fault State
  | [], s => pure s
  | o :: os, s => do
    let s ← step s o
    run os s

/-! ## The tree a heap holds -/

/-- Node colors as the invariants speak of them. -/
inductive Color where
  | red
  | black
deriving DecidableEq, Repr

/-- The value stored in the `color` field for a color. -/
def Color.toInt : Color → Int
  | .red => RED
  | .black => BLACK

/-- A binary tree of nodes, each with its address, color and key. -/
inductive RB where
  | nil
  | node (a : Nat) (c : Color) (k : Int) (l r : RB)
deriving DecidableEq, Repr

namespace RB

/-- The pointer to the root of a tree. -/
def ptr : RB → Ptr
  | nil => none
  | node a _ _ _ _ => some a

/-- Addresses of the nodes, in order. -/
def addrs : RB → List Nat
  | nil => []
  | node a _ _ l r => l.addrs ++ a :: r.addrs

/-- Keys of the nodes, in order. -/
def keys : RB → List Int
  | nil => []
  | node _ _ k l r => l.keys ++ k :: r.keys

/-- Number of nodes. -/
def size : RB → Nat
  | nil => 0
  | node _ _ _ l r => l.size + r.size + 1

/-- Number of nodes on the longest path from the root to a null link. -/
def height : RB → Nat
  | nil => 0
  | node _ _ _ l r => max l.height r.height + 1

end RB

/-- The heap holds the tree `t` below a parent pointer `par`: every node's cell
carries its key, its color, the pointers to its two subtrees and `par`. -/
def Shape (m : Nat → Option Tree) (par : Ptr) : RB → Prop
  | .nil => True
  | .node a c k l r =>
    m a = some ⟨k, c.toInt, l.ptr, r.ptr, par⟩ ∧ Shape m (some a) l ∧ Shape m (some a) r

/-- The state holds the tree `t`: the root handle points to its root, whose
parent link is `NULL`, all links agree, no cell is used twice and every cell
was allocated. -/
def Rep (s : State) (t : RB) : Prop :=
  s.root = t.ptr ∧ Shape s.mem none t ∧ t.addrs.Nodup ∧ ∀ a ∈ t.addrs, a < s.next

/-- Read the tree below a pointer off the heap, colors other than `RED` read as black. -/
def extract : Nat → (Nat → Option Tree) → Ptr → RB
  | 0, _, _ => .nil
  | _ + 1, _, none => .nil
  | fuel + 1, m, some a =>
    match m a with
    | none => .nil
    | some n =>
      .node a (if n.color = RED then .red else .black) n.data
        (extract fuel m n.left) (extract fuel m n.right)

/-! ## The red-black invariants -/

namespace RB

/-- The root of the tree is a RED node. -/
def isRed : RB → Bool
  | node _ .red _ _ _ => true
  | _ => false

/-- Invariant 2: the root, if present, is BLACK. -/
def rootBlack (t : RB) : Prop := t.isRed = false

/-- Invariant 3: no RED node has a RED child. -/
def noRedRed : RB → Prop
  | nil => True
  | node _ c _ l r =>
    (c = .red → l.isRed = false ∧ r.isRed = false) ∧ l.noRedRed ∧ r.noRedRed

/-- Number of BLACK nodes on the leftmost path to a null link. -/
def bheight : RB → Nat
  | nil => 0
  | node _ c _ l _ => l.bheight + (if c = .black then 1 else 0)

/-- Invariant 4: every path from a node to a null link below it passes through
the same number of BLACK nodes. -/
def balanced : RB → Prop
  | nil => True
  | node _ _ _ l r => l.bheight = r.bheight ∧ l.balanced ∧ r.balanced

/-- Invariant 5: at every node the keys of the left subtree are smaller and the
keys of the right subtree are larger, so no key occurs twice. -/
def bst : RB → Prop
  | nil => True
  | node _ _ k l r => (∀ x ∈ l.keys, x < k) ∧ (∀ x ∈ r.keys, k < x) ∧ l.bst ∧ r.bst

/-- Invariants 2-5 together (invariant 1 is part of `Shape`: the color field
holds `RED` or `BLACK`). -/
def isRB (t : RB) : Prop := t.rootBlack ∧ t.noRedRed ∧ t.balanced ∧ t.bst

instance decNoRedRed : (t : RB) → Decidable t.noRedRed
  | nil => isTrue trivial
  | node _ c _ l r =>
    have := decNoRedRed l
    have := decNoRedRed r
    inferInstanceAs (Decidable ((c = .red → l.isRed = false ∧ r.isRed = false)
      ∧ l.noRedRed ∧ r.noRedRed))

instance decBalanced : (t : RB) → Decidable t.balanced
  | nil => isTrue trivial
  | node _ _ _ l r =>
    have := decBalanced l
    have := decBalanced r
    inferInstanceAs (Decidable (l.bheight = r.bheight ∧ l.balanced ∧ r.balanced))

instance decBst : (t : RB) → Decidable t.bst
  | nil => isTrue trivial
  | node _ _ k l r =>
    have := decBst l
    have := decBst r
    inferInstanceAs (Decidable ((∀ x ∈ l.keys, x < k) ∧ (∀ x ∈ r.keys, k < x) ∧ l.bst ∧ r.bst))

instance decRootBlack (t : RB) : Decidable t.rootBlack :=
  inferInstanceAs (Decidable (t.isRed = false))

instance decIsRB (t : RB) : Decidable t.isRB :=
  inferInstanceAs (Decidable (t.rootBlack ∧ t.noRedRed ∧ t.balanced ∧ t.bst))

end RB

instance decShape (m : Nat → Option Tree) : (t : RB) → (par : Ptr) → Decidable (Shape m par t)
  | .nil, _ => isTrue trivial
  | .node a c k l r, par =>
    have := decShape m l (some a)
    have := decShape m r (some a)
    inferInstanceAs (Decidable (m a = some ⟨k, c.toInt, l.ptr, r.ptr, par⟩
      ∧ Shape m (some a) l ∧ Shape m (some a) r))

instance decRep (s : State) (t : RB) : Decidable (Rep s t) :=
  inferInstanceAs (Decidable (s.root = t.ptr ∧ Shape s.mem none t ∧ t.addrs.Nodup
    ∧ ∀ a ∈ t.addrs, a < s.next))

/-- The tree a state holds, read off its heap from the root handle. -/
def treeOf (s : State) : RB := extract s.next s.mem s.root

/-- The state holds a red-black tree: its links are consistent and the tree
they form satisfies the five invariants. -/
def RBValid (s : State) : Prop := ∃ t, Rep s t ∧ t.isRB

/-- A property of the state an execution ends in; an execution that faults has none. -/
def Ends (r : Except Fault State) (P : State → Prop) : Prop :=
  match r with
  | .ok s => P s
  | .error _ => False

/-- A property of the status and the state a call returns; a call that faults has none. -/
def Returns (r : Except Fault (Int × State)) (P : Int → State → Prop) : Prop :=
  match r with
  | .ok (st, s) => P st s
  | .error _ => False

instance decEnds (r : Except Fault State) (P : State → Prop) [DecidablePred P] :
    Decidable (Ends r P) :=
  match r with
  | .ok s => inferInstanceAs (Decidable (P s))
  | .error _ => isFalse id

instance decReturns (r : Except Fault (Int × State)) (P : Int → State → Prop)
    [∀ st s, Decidable (P st s)] : Decidable (Returns r P) :=
  match r with
  | .ok (st, s) => inferInstanceAs (Decidable (P st s))
  | .error _ => isFalse id

/-! ## Trees with a hole

A node inside the tree is addressed by the path from it up to the root: one
frame per ancestor, innermost first, each recording the ancestor and the
subtree on its other side. -/

/-- One step of a path: the hole is the left (`L`) or the right (`R`) child of
the node `a`, whose other subtree is recorded. -/
inductive Frame where
  | L (a : Nat) (c : Color) (k : Int) (r : RB)
  | R (a : Nat) (c : Color) (k : Int) (l : RB)
deriving DecidableEq, Repr

namespace Frame

/-- Address of the node of a frame. -/
def addr : Frame → Nat
  | L a _ _ _ => a
  | R a _ _ _ => a

/-- Color of the node of a frame. -/
def color : Frame → Color
  | L _ c _ _ => c
  | R _ c _ _ => c

/-- The subtree on the other side of the hole. -/
def sib : Frame → RB
  | L _ _ _ r => r
  | R _ _ _ l => l

/-- Put a tree into the hole of a frame. -/
def fill : Frame → RB → RB
  | L a c k r, t => .node a c k t r
  | R a c k l, t => .node a c k l t

/-- The same frame with another color. -/
def paint : Frame → Color → Frame
  | L a _ k r, c => L a c k r
  | R a _ k l, c => R a c k l

/-- Addresses of a frame: its node and the other subtree. -/
def addrs : Frame → List Nat
  | L a _ _ r => a :: r.addrs
  | R a _ _ l => a :: l.addrs

end Frame

/-- A path from a hole up to the root, innermost frame first. -/
abbrev Ctx := List Frame

/-- Put a tree into the hole of a path. -/
def plug : Ctx → RB → RB
  | [], t => t
  | f :: fs, t => plug fs (f.fill t)

/-- The parent pointer of the hole of a path. -/
def ctxPar : Ctx → Ptr
  | [] => none
  | f :: _ => some f.addr

/-- All addresses of a path. -/
def ctxAddrs : Ctx → List Nat
  | [] => []
  | f :: fs => f.addrs ++ ctxAddrs fs

/-- The cell of the node of a frame, given the pointer in the hole and the
parent pointer. -/
def Frame.cell : Frame → Ptr → Ptr → Tree
  | .L _ c k r, h, par => ⟨k, c.toInt, h, r.ptr, par⟩
  | .R _ c k l, h, par => ⟨k, c.toInt, l.ptr, h, par⟩

/-- The heap holds the path `ctx` around a hole whose pointer is `h`. -/
def ShapeCtx (m : Nat → Option Tree) : Ctx → Ptr → Prop
  | [], _ => True
  | f :: fs, h =>
    m f.addr = some (f.cell h (ctxPar fs)) ∧ Shape m (some f.addr) f.sib
      ∧ ShapeCtx m fs (some f.addr)

/-- The root pointer of a path filled with a tree whose root pointer is `h`. -/
def ctxRoot : Ctx → Ptr → Ptr
  | [], h => h
  | f :: fs, _ => ctxRoot fs (some f.addr)

namespace RB

/-- The same tree with its root painted. -/
def paint : RB → Color → RB
  | nil, _ => nil
  | node a _ k l r, c => node a c k l r

end RB

/-! ## Insertion on trees with a hole

What `insert_node` does to the tree the heap holds, told on the tree itself.
`none` stands for a dereference of `NULL`. -/

/-- The descent of `insert_node`, `delete_node` and `search_node`: from the
subtree `t` below the path `ctx` down to the node with key `k`, or to the null
link where `k` belongs. -/
def zoom (k : Int) : RB → Ctx → Ctx × RB
  | .nil, ctx => (ctx, .nil)
  | .node a c x l r, ctx =>
    if k < x then zoom k l (.L a c x r :: ctx)
    else if x < k then zoom k r (.R a c x l :: ctx)
    else (ctx, .node a c x l r)

/-- One round of the fixup loop of `insert_node` at a node `t` whose parent
`fp` is RED and whose grandparent is `fg`: the subtree that takes the
grandparent's place, and whether the loop goes on from it (`true`, the
recoloring case) or has rotated (`false`). -/
def insStep (t : RB) (fp fg : Frame) : Option (Bool × RB) :=
  match fg with
  | .L g _ kg u =>
    if u.isRed then some (true, .node g .red kg ((fp.paint .black).fill t) (u.paint .black))
    else
      match fp, t with
      | .R p cp kp pl, .node x _ kx xl xr =>
        some (false, .node x .black kx (.node p cp kp pl xl) (.node g .red kg xr u))
      | .R _ _ _ _, .nil => none
      | .L p _ kp pr, t => some (false, .node p .black kp t (.node g .red kg pr u))
  | .R g _ kg u =>
    if u.isRed then some (true, .node g .red kg (u.paint .black) ((fp.paint .black).fill t))
    else
      match fp, t with
      | .L p cp kp pr, .node x _ kx xl xr =>
        some (false, .node x .black kx (.node g .red kg u xl) (.node p cp kp xr pr))
      | .L _ _ _ _, .nil => none
      | .R p _ kp pl, t => some (false, .node p .black kp (.node g .red kg u pl) t)

/-- The fixup loop of `insert_node` started at the node `t` below the path
`ctx`: the whole tree when the loop ends. -/
def insFix : RB → Ctx → Option RB
  | t, [] => some t
  | t, [f] => if f.color = .red then none else some (f.fill t)
  | t, fp :: fg :: rest =>
    if fp.color = .red then
      match insStep t fp fg with
      | none => none
      | some (true, t') => insFix t' rest
      | some (false, t') => some (plug rest t')
    else some (plug (fp :: fg :: rest) t)

/-- The tree after `insert_node` of a key that is not in the tree, the new node
being at address `a`. -/
def insertT (a : Nat) (k : Int) (t : RB) : Option RB :=
  match (zoom k t []).1 with
  | [] => some (.node a .black k .nil .nil)
  | ctx => (insFix (.node a .red k .nil .nil) ctx).map (fun t' => t'.paint .black)

/-- Keys of a path that come before the hole, in order. -/
def ctxLeft : Ctx → List Int
  | [] => []
  | .L _ _ _ _ :: fs => ctxLeft fs
  | .R _ _ x l :: fs => ctxLeft fs ++ (l.keys ++ [x])

/-- Keys of a path that come after the hole, in order. -/
def ctxRight : Ctx → List Int
  | [] => []
  | .L _ _ x r :: fs => (x :: r.keys) ++ ctxRight fs
  | .R _ _ _ _ :: fs => ctxRight fs

/-- The root of the tree a path belongs to is BLACK (an empty path has no node). -/
def lastBlack : Ctx → Prop
  | [] => True
  | [f] => f.color = .black
  | _ :: f :: fs => lastBlack (f :: fs)

/-- Color of the parent of the hole of a path; the root has no parent, which
counts as BLACK. -/
def ctxColor : Ctx → Color
  | [] => .black
  | f :: _ => f.color

/-- A path is red-black around a hole that takes a subtree of black-height `h`:
at every frame the other subtree is red-black with the black-height of the
hole's side, and a RED frame has a BLACK other child and a BLACK parent. -/
def CtxRB : Ctx → Nat → Prop
  | [], _ => True
  | f :: fs, h =>
    f.sib.balanced ∧ f.sib.noRedRed ∧ f.sib.bheight = h
      ∧ (f.color = .red → f.sib.isRed = false ∧ ctxColor fs = .black)
      ∧ CtxRB fs (h + if f.color = .black then 1 else 0)

/-! ## Deletion on trees with a hole -/

namespace RB

/-- The path from the leftmost node of a tree up to its root. -/
def minPath : RB → Ctx
  | nil => []
  | node a c k l r =>
    match l with
    | nil => []
    | node _ _ _ _ _ => minPath l ++ [.L a c k r]

/-- The leftmost node of a tree with what hangs below it: the result of `findmin`. -/
def minNode : RB → RB
  | nil => nil
  | node a c k l r =>
    match l with
    | nil => node a c k l r
    | node _ _ _ _ _ => minNode l

/-- Key at the root of a tree (0 for the empty tree). -/
def rootKey : RB → Int
  | nil => 0
  | node _ _ k _ _ => k

/-- Color of the root of a tree, a null link counting as BLACK. -/
def color : RB → Color
  | nil => .black
  | node _ c _ _ _ => c

end RB

/-- The sibling `getsibling_node` finds for the node in the hole of a frame.
For the node that `delete_node` has already unlinked (`det`) the parent's left
link no longer points to it: when it was the left child the comparison
`node == node->parent->left` fails and the function returns that left link,
which is `NULL`. -/
def sibOf (det : Bool) : Frame → RB
  | .L _ _ _ r => if det then .nil else r
  | .R _ _ _ l => l

/-- Lines 263-293 of `fix_double_black`: the subtree that takes the parent's
place when the sibling `sa` is BLACK and has a RED child; `t` is the subtree of
the node under repair. -/
def fdbRot (f : Frame) (t : RB) (sa : Nat) (sk : Int) (sl sr : RB) : RB :=
  match f with
  | .R p cp kp _ =>
    if sl.isRed then .node sa cp sk (sl.paint .black) (.node p .black kp sr t)
    else
      match sr with
      | .node sra _ srk srl srr =>
        .node sra cp srk (.node sa .black sk sl srl) (.node p .black kp srr t)
      | .nil => .node p cp kp (.node sa .black sk sl sr) t
  | .L p cp kp _ =>
    if sl.isRed then
      match sl with
      | .node sla _ slk sll slr =>
        .node sla cp slk (.node p .black kp t sll) (.node sa .black sk slr sr)
      | .nil => .node p cp kp t (.node sa .black sk sl sr)
    else .node sa cp sk (.node p .black kp t sl) (sr.paint .black)

/-- Function `fix_double_black` on the tree: the whole tree after the fixup
started at the subtree `t` below the path `ctx`; `det` says that the node passed
in is the unlinked node (then `t` is the empty subtree left in its place).
`none` when the fuel runs out. -/
def fdbT : Nat → Bool → RB → Ctx → Option RB
  | 0, _, _, _ => none
  | n + 1, det, t, [] => if det then (if n = 0 then none else some t) else some t
  | n + 1, det, t, f :: fs =>
    match sibOf det f with
    | .nil => fdbT n false (f.fill t) fs
    | .node sa sc sk sl sr =>
      if sc = .red then
        match f with
        | .L p _ kp _ => fdbT n det t (.L p .red kp sl :: .L sa .black sk sr :: fs)
        | .R p _ kp _ => fdbT n det t (.R p .red kp sr :: .R sa .black sk sl :: fs)
      else if sl.isRed || sr.isRed then some (plug fs (fdbRot f t sa sk sl sr))
      else
        match f with
        | .L p cp kp _ =>
          if cp = .black then fdbT n false (.node p .black kp t (.node sa .red sk sl sr)) fs
          else some (plug fs (.node p .black kp t (.node sa .red sk sl sr)))
        | .R p cp kp _ =>
          if cp = .black then fdbT n false (.node p .black kp (.node sa .red sk sl sr) t) fs
          else some (plug fs (.node p .black kp (.node sa .red sk sl sr) t))

/-- Lines 331-337 of `delete_node` on the tree: the path to the node that is
unlinked and that node, for the node found `t` below `ctx`. With two children
the successor's key is copied into the node found. -/
def delTarget (t : RB) (ctx : Ctx) : Ctx × RB :=
  match t with
  | .nil => (ctx, .nil)
  | .node a c k l r =>
    if l.ptr ≠ none ∧ r.ptr ≠ none then
      (r.minPath ++ (.R a c r.minNode.rootKey l :: ctx), r.minNode)
    else (ctx, .node a c k l r)

/-- Lines 339-360 of `delete_node` on the tree: the node `d` below `ctx` is
unlinked, its child takes its place, and the tree is repaired. -/
def delSplice (fuel : Nat) (d : RB) (ctx : Ctx) : Option RB :=
  match d with
  | .nil => none
  | .node _ cd _ dl dr =>
    let child := if dl.ptr ≠ none then dl else dr
    if (child.ptr = none ∨ child.color = .black) ∧ cd = .black then
      fdbT fuel (decide (child.ptr = none)) child ctx
    else some (plug ctx (child.paint .black))

/-- The tree after `delete_node` of a key that is in the tree; `fuel` bounds the
recursion of `fix_double_black`. -/
def deleteT (fuel : Nat) (k : Int) (t : RB) : Option RB :=
  delSplice fuel (delTarget (zoom k t []).2 (zoom k t []).1).2
    (delTarget (zoom k t []).2 (zoom k t []).1).1

/-- From state `s` holding `T` to state `s'` holding `T'` nothing outside the
tree is touched: the allocation counter is the same, and a cell that is not a
node of `T` is unchanged and is not a node of `T'`. -/
def Keeps (s s' : State) (T T' : RB) : Prop :=
  s'.next = s.next ∧ ∀ a, a ∉ T.addrs → s'.mem a = s.mem a ∧ a ∉ T'.addrs

/-- The pointer `node` handed to `fix_double_black` stands for the hole of the
path `ctx` filled with `t`: either it points to the root of `t`, or (`det`) it
points to the node `delete_node` has unlinked, whose cell is outside the tree
and still carries its old parent link, and `t` is empty. -/
def At (s : State) (ctx : Ctx) (t : RB) (node : Ptr) (det : Bool) : Prop :=
  Rep s (plug ctx t) ∧
    (if det then
      t = .nil ∧ ∃ d, node = some d ∧ d ∉ (plug ctx t).addrs
        ∧ getParent s node = .ok (ctxPar ctx)
    else node = t.ptr ∧ t ≠ .nil)

/-- A bound on the number of calls of `fix_double_black` started at the hole of
a path: one for every frame plus two for every node of the subtrees beside it. -/
def ctxWeight : Ctx → Nat
  | [] => 0
  | f :: fs => 1 + 2 * f.sib.size + ctxWeight fs

/-- What every state reached by the calls satisfies, whatever the balance: the
links are consistent, the keys are BST-ordered and the root is BLACK. -/
def Inv (s : State) : Prop := ∃ t, Rep s t ∧ t.bst ∧ t.rootBlack

/-- The key `k` was inserted and not deleted afterwards, along a sequence of
calls that starts with `k` present or not (`b`). -/
def liveFrom (b : Bool) (k : Int) : List Op → Bool
  | [] => b
  | .ins j :: os => liveFrom (if j = k then true else b) k os
  | .del j :: os => liveFrom (if j = k then false else b) k os

/-- The key `k` was inserted and not deleted afterwards, along a sequence of
calls applied to the empty tree. -/
def live (ops : List Op) (k : Int) : Bool := liveFrom false k ops

/-- A property of the value a computation yields; a computation that faults has none. -/
def Gives {α : Type} (r : Except Fault α) (P : α → Prop) : Prop :=
  match r with
  | .ok a => P a
  | .error _ => False

instance decGives {α : Type} (r : Except Fault α) (P : α → Prop) [DecidablePred P] :
    Decidable (Gives r P) :=
  match r with
  | .ok a => inferInstanceAs (Decidable (P a))
  | .error _ => isFalse (fun h => h)

/-- From state `s` to state `s'` every cell is still there with the key and the
color it had: only links may differ. -/
def KeepsFields (s s' : State) : Prop :=
  ∀ d n, s.mem d = some n → ∃ n', s'.mem d = some n' ∧ n'.color = n.color ∧ n'.data = n.data

/-! ## Teardown (`tree.c` lines 385-395) -/

/-- A place that holds a node pointer, the `Tree **` argument of `delete_tree`:
the root handle of `main` (`&root`), or the `left` / `right` field of the node
`p` (`&(p->left)`, `&(p->right)`). -/
inductive Loc where
  | handle
  | left (p : Ptr)
  | right (p : Ptr)
deriving DecidableEq

/-- Expression `*root` for a `Tree **root`. -/
def readLoc (s : State) : Loc → Except Fault Ptr
  | .handle => pure s.root
  | .left p => getLeft s p
  | .right p => getRight s p

/-- Statement `*root = v` for a `Tree **root`. -/
def writeLoc (s : State) (v : Ptr) : Loc → Except Fault State
  | .handle => pure (setRoot s v)
  | .left p => setLeft s p v
  | .right p => setRight s p v

/-- Function `delete_tree` of `tree.c`: the status and the state after the call;
the fuel bounds the depth of the recursion. -/
def delete_tree : Nat → State → Loc → Except Fault (Int × State)
  | 0, _, _ => .error .outOfFuel
  | fuel + 1, s, root => do
    let r ← readLoc s root
    if r = none then pure (SUCCESS, s)
    else do
      let r ← readLoc s root
      let (_, s) ← delete_tree fuel s (.left r)
      let r ← readLoc s root
      let (_, s) ← delete_tree fuel s (.right r)
      let r ← readLoc s root
      let s ← free s r
      let s ← writeLoc s none root
      pure (SUCCESS, s)

/-- The node whose field a place is, if any. -/
def Loc.cell : Loc → Ptr
  | .handle => none
  | .left p => p
  | .right p => p

/-- What `delete_tree` called on the place `loc`, which holds the tree `t`, does
from state `s` to state `s'`: the place holds `NULL`, the cells of `t` are freed,
and nothing else changes (of the node `loc` is a field of, only that field). -/
def Torn (s : State) (loc : Loc) (t : RB) (s' : State) : Prop :=
  s'.next = s.next
  ∧ readLoc s' loc = .ok none
  ∧ (∀ d ∈ t.addrs, s'.mem d = none)
  ∧ (∀ d, d ∉ t.addrs → loc.cell ≠ some d → s'.mem d = s.mem d)
  ∧ (loc ≠ .handle → s'.root = s.root)
  ∧ (∀ a n, loc.cell = some a → s.mem a = some n →
      ∃ n', s'.mem a = some n' ∧ n'.data = n.data ∧ n'.color = n.color
        ∧ n'.parent = n.parent
        ∧ (loc = .left (some a) → n'.right = n.right)
        ∧ (loc = .right (some a) → n'.left = n.left))

/-! ## The same fixups, with the cases they take written down -/

/-- The cases of the fixup loop of `insert_node`, one for every round that
changes the tree. -/
inductive InsCase where
  /-- Uncle RED (lines 149-156 and 173-179): recoloring, the loop goes on at the grandparent. -/
  | recolor
  /-- Uncle absent or BLACK (lines 157-168 and 180-190), with the number of rotations performed. -/
  | rotate (n : Nat)
deriving DecidableEq, Repr

/-- The fixup loop of `insert_node` as in `insert_fixup`, together with the list
of the cases taken, in order. -/
def insert_fixup_log : Nat → State → Ptr → Except Fault (State × List InsCase)
  | 0, _, _ => .error .outOfFuel
  | fuel + 1, s, node =>
    if node = s.root then pure (s, [])
    else do
      let p ← getParent s node
      let pc ← getColor s p
      if pc ≠ RED then pure (s, [])
      else do
        let g ← getParent s p
        let gl ← getLeft s g
        if p = gl then do
          let uncle ← getRight s g
          let ured ← isRedPtr s uncle
          if ured then do
            let s ← setColor s uncle BLACK
            let p ← getParent s node
            let s ← setColor s p BLACK
            let p ← getParent s node
            let g ← getParent s p
            let s ← setColor s g RED
            let p ← getParent s node
            let g ← getParent s p
            let r ← insert_fixup_log fuel s g
            pure (r.1, .recolor :: r.2)
          else do
            let p ← getParent s node
            let pr ← getRight s p
            let (s, node, n) ←
              if node = pr then do
                let s ← left_rotate s p
                pure (s, p, 2)
              else pure (s, node, 1)
            let p ← getParent s node
            let s ← setColor s p BLACK
            let p ← getParent s node
            let g ← getParent s p
            let s ← setColor s g RED
            let p ← getParent s node
            let g ← getParent s p
            let s ← right_rotate s g
            let r ← insert_fixup_log fuel s node
            pure (r.1, .rotate n :: r.2)
        else do
          let uncle ← getLeft s g
          let ured ← isRedPtr s uncle
          if ured then do
            let s ← setColor s uncle BLACK
            let p ← getParent s node
            let s ← setColor s p BLACK
            let p ← getParent s node
            let g ← getParent s p
            let s ← setColor s g RED
            let p ← getParent s node
            let g ← getParent s p
            let r ← insert_fixup_log fuel s g
            pure (r.1, .recolor :: r.2)
          else do
            let p ← getParent s node
            let pl ← getLeft s p
            let (s, node, n) ←
              if node = pl then do
                let s ← right_rotate s p
                pure (s, p, 2)
              else pure (s, node, 1)
            let p ← getParent s node
            let s ← setColor s p BLACK
            let p ← getParent s node
            let g ← getParent s p
            let s ← setColor s g RED
            let p ← getParent s node
            let g ← getParent s p
            let s ← left_rotate s g
            let r ← insert_fixup_log fuel s node
            pure (r.1, .rotate n :: r.2)

/-- Function `insert_node` as in `insert_node`, returning the cases its fixup loop
takes (none when the key is a duplicate or the tree was empty). -/
def insert_node_log (s : State) (data : Int) : Except Fault (List InsCase) := do
  let r ← insert_descend (s.next + 1) s data s.root none
  match r with
  | none => pure []
  | some prev =>
    let (s, newNode) := create_node s data
    if s.root = none then pure []
    else do
      let s ← setParent s newNode prev
      let pd ← getData s prev
      let s ← if data < pd then setLeft s prev newNode else setRight s prev newNode
      let r ← insert_fixup_log (s.next + 1) s newNode
      pure r.2

/-- The branches of `fix_double_black`. -/
inductive FdbCase where
  /-- Line 237: `node == *root`, nothing to do. -/
  | atRoot
  /-- Line 242: `sibling == NULL`, the fixup moves to the parent. -/
  | noSibling
  /-- Line 248: RED sibling, rotation and retry on the same node. -/
  | redSibling
  /-- Line 260: BLACK sibling with a RED child, rotations, the fixup stops. -/
  | redChild
  /-- Line 298: BLACK sibling without RED child, BLACK parent: the fixup moves to the parent. -/
  | recolorUp
  /-- Line 301: BLACK sibling without RED child, RED parent painted BLACK, the fixup stops. -/
  | recolorStop
deriving DecidableEq, Repr

/-- Function `fix_double_black` as in `fix_double_black`, together with the list
of the branches taken by the successive calls, in order. -/
def fix_double_black_log : Nat → State → Ptr → Except Fault (State × List FdbCase)
  | 0, _, _ => .error .outOfFuel
  | fuel + 1, s, node =>
    if node = s.root then pure (s, [.atRoot])
    else do
      let sibling ← getsibling_node s node
      if sibling = none then do
        let p ← getParent s node
        let r ← fix_double_black_log fuel s p
        pure (r.1, .noSibling :: r.2)
      else do
        let sc ← getColor s sibling
        if sc = RED then do
          let p ← getParent s node
          let s ← setColor s p RED
          let s ← setColor s sibling BLACK
          let isl ← is_left_child s sibling
          let p ← getParent s node
          let s ← if isl then right_rotate s p else left_rotate s p
          let r ← fix_double_black_log fuel s node
          pure (r.1, .redSibling :: r.2)
        else do
          let anyRed ← hasRedChild s sibling
          if anyRed then do
            let s ← fdb_rotate s node sibling
            let p ← getParent s node
            let s ← setColor s p BLACK
            pure (s, [.redChild])
          else do
            let s ← setColor s sibling RED
            let p ← getParent s node
            let pc ← getColor s p
            if pc = BLACK then do
              let p ← getParent s node
              let r ← fix_double_black_log fuel s p
              pure (r.1, .recolorUp :: r.2)
            else do
              let p ← getParent s node
              let s ← setColor s p BLACK
              pure (s, [.recolorStop])

/-- Function `delete_node` as in `delete_node`, returning the branches of
`fix_double_black` taken during the call (none when the fixup is not called). -/
def delete_node_log (s : State) (data : Int) : Except Fault (List FdbCase) :=
  if s.root = none then pure []
  else do
    let temp ← delete_descend (s.next + 1) s data s.root
    if temp = none then pure []
    else do
      let (s, to_delete) ← delete_target s temp
      let child ← delete_child s to_delete
      let db ← delete_db s to_delete child
      let s ← delete_splice s to_delete child
      if db then do
        let r ←
          if child ≠ none then fix_double_black_log (2 * s.next + 2) s child
          else fix_double_black_log (2 * s.next + 2) s to_delete
        pure r.2
      else pure []

/-- Lines 250-255 of `fix_double_black`, the RED sibling case up to the retry:
the parent is painted RED, the sibling BLACK, and the parent is rotated to the
side of `node`. -/
def fdb_red_sibling (s : State) (node sibling : Ptr) : Except Fault State := do
  let p ← getParent s node
  let s ← setColor s p RED
  let s ← setColor s sibling BLACK
  let isl ← is_left_child s sibling
  let p ← getParent s node
  if isl then right_rotate s p else left_rotate s p

/-- The path to the hole after the RED sibling case: the former parent, now
RED, hangs below the former sibling, now BLACK. -/
def redSibCtx (f : Frame) (sa : Nat) (sk : Int) (sl sr : RB) (fs : Ctx) : Ctx :=
  match f with
  | .L p _ kp _ => .L p .red kp sl :: .L sa .black sk sr :: fs
  | .R p _ kp _ => .R p .red kp sr :: .R sa .black sk sl :: fs

/-! ## Paths from the root -/

/-- One step down a tree: to the left or to the right child. -/
inductive Dir where
  | goLeft
  | goRight
deriving DecidableEq, Repr

/-- Follow child links from the pointer `p` along `ds`; following a link of
`NULL` is a fault. -/
def walk (s : State) : Ptr → List Dir → Except Fault Ptr
  | p, [] => pure p
  | p, .goLeft :: ds => do
    let q ← getLeft s p
    walk s q ds
  | p, .goRight :: ds => do
    let q ← getRight s p
    walk s q ds

/-- The subtree reached from the root of a tree along `ds`, if the path stays
inside the tree (it may end at an empty subtree). -/
def RB.descend : RB → List Dir → Option RB
  | t, [] => some t
  | .nil, _ :: _ => none
  | .node _ _ _ l _, .goLeft :: ds => RB.descend l ds
  | .node _ _ _ _ r, .goRight :: ds => RB.descend r ds

/-! ## Theorems -/

open RB

/-! ### Reading the tree off the heap -/

theorem RB.addrs_length (t : RB) : t.addrs.length = t.size := by
  induction t with
  | nil => rfl
  | node a c k l r ihl ihr => simp [RB.addrs, RB.size, ihl, ihr]; omega

theorem RB.keys_length (t : RB) : t.keys.length = t.size := by
  induction t with
  | nil => rfl
  | node a c k l r ihl ihr => simp [RB.keys, RB.size, ihl, ihr]; omega

theorem RB.height_le_size (t : RB) : t.height ≤ t.size := by
  induction t with
  | nil => simp [RB.height, RB.size]
  | node a c k l r ihl ihr => simp only [RB.height, RB.size]; omega

theorem nodup_bounded_length (l : List Nat) (n : Nat) (hnd : l.Nodup)
    (hlt : ∀ a ∈ l, a < n) : l.length ≤ n := by
  have hsub : l ⊆ List.range n := fun a ha => List.mem_range.2 (hlt a ha)
  have := (List.subperm_of_subset hnd hsub).length_le
  simpa using this

theorem Color.toInt_eq_RED (c : Color) : (c.toInt = RED) ↔ c = .red := by
  cases c <;> simp [Color.toInt, RED, BLACK]

theorem Color.toInt_eq_BLACK (c : Color) : (c.toInt = BLACK) ↔ c = .black := by
  cases c <;> simp [Color.toInt, RED, BLACK]

theorem extract_of_Shape (m : Nat → Option Tree) (t : RB) :
    ∀ (par : Ptr) (fuel : Nat), Shape m par t → t.height ≤ fuel →
      extract fuel m t.ptr = t := by
  induction t with
  | nil => intro par fuel _ _; cases fuel <;> rfl
  | node a c k l r ihl ihr =>
    intro par fuel hs hf
    obtain ⟨ha, hl, hr⟩ := hs
    cases fuel with
    | zero => simp [RB.height] at hf
    | succ fuel =>
      simp only [RB.height] at hf
      have h1 := ihl (some a) fuel hl (by omega)
      have h2 := ihr (some a) fuel hr (by omega)
      show extract (fuel + 1) m (some a) = _
      simp only [extract, ha, h1, h2]
      cases c <;> simp [Color.toInt, RED, BLACK]

theorem Rep.size_le {s : State} {t : RB} (h : Rep s t) : t.size ≤ s.next := by
  rw [← RB.addrs_length]
  exact nodup_bounded_length _ _ h.2.2.1 h.2.2.2

theorem Rep.height_le {s : State} {t : RB} (h : Rep s t) : t.height ≤ s.next :=
  Nat.le_trans t.height_le_size h.size_le

theorem Rep.treeOf_eq {s : State} {t : RB} (h : Rep s t) : treeOf s = t := by
  unfold treeOf
  rw [h.1]
  exact extract_of_Shape s.mem t none s.next h.2.1 h.height_le

theorem Rep.unique {s : State} {t t' : RB} (h : Rep s t) (h' : Rep s t') : t = t' := by
  rw [← h.treeOf_eq, ← h'.treeOf_eq]

theorem RBValid_iff (s : State) : RBValid s ↔ Rep s (treeOf s) ∧ (treeOf s).isRB := by
  constructor
  · rintro ⟨t, hr, hv⟩
    rw [hr.treeOf_eq]
    exact ⟨hr, hv⟩
  · intro h
    exact ⟨_, h⟩

theorem Ends_mono {r : Except Fault State} {P Q : State → Prop}
    (h : Ends r P) (hPQ : ∀ s, P s → Q s) : Ends r Q := by
  cases r with
  | error e => exact h
  | ok s => exact hPQ s h

theorem not_valid_of_treeOf {s : State} (h : ¬ (treeOf s).isRB) : ¬ RBValid s :=
  fun hv => h ((RBValid_iff s).1 hv).2

/-! ### Heap frames -/

theorem Shape_congr {m m2 : Nat → Option Tree} {t : RB} :
    ∀ {par : Ptr}, (∀ b ∈ t.addrs, m2 b = m b) → Shape m par t → Shape m2 par t := by
  induction t with
  | nil => intro _ _ _; trivial
  | node a c k l r ihl ihr =>
    intro par h hs
    obtain ⟨ha, hl, hr⟩ := hs
    refine ⟨?_, ihl (fun b hb => h b (by simp [RB.addrs, hb])) hl,
      ihr (fun b hb => h b (by simp [RB.addrs, hb])) hr⟩
    rw [h a (by simp [RB.addrs]), ha]

theorem Frame.addrs_eq (f : Frame) : f.addrs = f.addr :: f.sib.addrs := by
  cases f <;> rfl

theorem ShapeCtx_congr {m m2 : Nat → Option Tree} {ctx : Ctx} :
    ∀ {h : Ptr}, (∀ b ∈ ctxAddrs ctx, m2 b = m b) → ShapeCtx m ctx h → ShapeCtx m2 ctx h := by
  induction ctx with
  | nil => intro _ _ _; trivial
  | cons f fs ih =>
    intro h hag hs
    obtain ⟨ha, hr, hfs⟩ := hs
    refine ⟨?_, Shape_congr (fun b hb => hag b (by simp [ctxAddrs, Frame.addrs_eq, hb])) hr,
      ih (fun b hb => hag b (by simp [ctxAddrs, hb])) hfs⟩
    rw [hag f.addr (by simp [ctxAddrs, Frame.addrs_eq]), ha]

theorem Shape_plug (m : Nat → Option Tree) (ctx : Ctx) :
    ∀ (t : RB), Shape m none (plug ctx t) ↔ ShapeCtx m ctx t.ptr ∧ Shape m (ctxPar ctx) t := by
  induction ctx with
  | nil => intro t; simp [plug, ShapeCtx, ctxPar]
  | cons f fs ih =>
    intro t
    rw [plug, ih]
    cases f <;>
      simp [Frame.fill, ShapeCtx, Shape, ctxPar, RB.ptr, Frame.addr, Frame.cell, Frame.sib] <;>
      tauto

theorem plug_ptr (ctx : Ctx) : ∀ (t : RB), (plug ctx t).ptr = ctxRoot ctx t.ptr := by
  induction ctx with
  | nil => intro t; rfl
  | cons f fs ih => intro t; rw [plug, ih]; cases f <;> rfl

theorem addrs_plug (ctx : Ctx) :
    ∀ (t : RB), (plug ctx t).addrs.Perm (t.addrs ++ ctxAddrs ctx) := by
  induction ctx with
  | nil => intro t; simp [plug, ctxAddrs]
  | cons f fs ih =>
    intro t
    rw [plug]
    refine (ih _).trans ?_
    cases f <;>
    · simp only [Frame.fill, RB.addrs, ctxAddrs, Frame.addrs]
      rw [List.perm_iff_count]
      intro x
      simp only [List.count_append, List.count_cons]
      omega

theorem Rep_plug_iff (s : State) (ctx : Ctx) (t : RB) :
    Rep s (plug ctx t) ↔
      s.root = ctxRoot ctx t.ptr ∧ ShapeCtx s.mem ctx t.ptr ∧ Shape s.mem (ctxPar ctx) t
        ∧ (t.addrs ++ ctxAddrs ctx).Nodup ∧ ∀ a ∈ t.addrs ++ ctxAddrs ctx, a < s.next := by
  unfold Rep
  rw [plug_ptr, Shape_plug, (addrs_plug ctx t).nodup_iff]
  have hm : ∀ a, a ∈ (plug ctx t).addrs ↔ a ∈ t.addrs ++ ctxAddrs ctx :=
    fun a => (addrs_plug ctx t).mem_iff
  constructor
  · rintro ⟨h1, ⟨h2, h3⟩, h4, h5⟩
    exact ⟨h1, h2, h3, h4, fun a ha => h5 a ((hm a).2 ha)⟩
  · rintro ⟨h1, h2, h3, h4, h5⟩
    exact ⟨h1, ⟨h2, h3⟩, h4, fun a ha => h5 a ((hm a).1 ha)⟩

theorem ctxRoot_mem (ctx : Ctx) (hne : ctx ≠ []) :
    ∀ h : Ptr, ∃ a ∈ ctxAddrs ctx, ctxRoot ctx h = some a ∧ ∀ h2 : Ptr, ctxRoot ctx h2 = some a := by
  induction ctx with
  | nil => exact absurd rfl hne
  | cons f fs ih =>
    intro h
    by_cases hfs : fs = []
    · subst hfs
      refine ⟨f.addr, ?_, rfl, fun _ => rfl⟩
      cases f <;> simp [ctxAddrs, Frame.addrs, Frame.addr]
    · obtain ⟨a, ha, he, he2⟩ := ih hfs (some f.addr)
      exact ⟨a, by simp [ctxAddrs, ha], he, fun _ => he2 _⟩

theorem Rep.read {s : State} {ctx : Ctx} {a : Nat} {c : Color} {k : Int} {l r : RB}
    (h : Rep s (plug ctx (node a c k l r))) :
    s.mem a = some ⟨k, c.toInt, l.ptr, r.ptr, ctxPar ctx⟩ :=
  ((Rep_plug_iff s ctx _).1 h).2.2.1.1

@[simp] theorem ptr_nil : RB.nil.ptr = none := rfl
@[simp] theorem ptr_node (a c k l r) : (RB.node a c k l r).ptr = some a := rfl

theorem Ends_iff {r : Except Fault State} {P : State → Prop} :
    Ends r P ↔ ∃ s, r = .ok s ∧ P s := by
  cases r <;> simp [Ends]

theorem Rep.replace_gen {s s' : State} {ctx : Ctx} {t t' : RB}
    (h : Rep s (plug ctx t))
    (hroot : s'.root = ctxRoot ctx t'.ptr)
    (hnd' : (t'.addrs ++ ctxAddrs ctx).Nodup)
    (hbd' : ∀ a ∈ t'.addrs ++ ctxAddrs ctx, a < s'.next)
    (hsh : Shape s'.mem (ctxPar ctx) t')
    (htop : ∀ f fs, ctx = f :: fs → s'.mem f.addr = some (f.cell t'.ptr (ctxPar fs)))
    (hframe : ∀ d ∈ ctxAddrs ctx, some d ≠ ctxPar ctx → s'.mem d = s.mem d) :
    Rep s' (plug ctx t') := by
  obtain ⟨_, hctx, _, hnd, hbd⟩ := (Rep_plug_iff s ctx _).1 h
  rw [Rep_plug_iff]
  refine ⟨hroot, ?_, hsh, hnd', hbd'⟩
  rcases ctx with _ | ⟨f, fs⟩
  · trivial
  · obtain ⟨_, hsib, hfs⟩ := hctx
    have hnd2 : (f.addr :: (f.sib.addrs ++ ctxAddrs fs)).Nodup := by
      have := (List.nodup_append.1 hnd).2.1
      simpa [ctxAddrs, Frame.addrs_eq] using this
    rw [List.nodup_cons] at hnd2
    refine ⟨htop f fs rfl, Shape_congr (fun d hd => hframe d ?_ ?_) hsib,
      ShapeCtx_congr (fun d hd => hframe d ?_ ?_) hfs⟩
    · simp [ctxAddrs, Frame.addrs_eq, hd]
    · simp only [ctxPar, ne_eq, Option.some.injEq]
      rintro rfl
      exact hnd2.1 (by simp [hd])
    · simp [ctxAddrs, hd]
    · simp only [ctxPar, ne_eq, Option.some.injEq]
      rintro rfl
      exact hnd2.1 (by simp [hd])

theorem Rep.replace {s s' : State} {ctx : Ctx} {t t' : RB}
    (h : Rep s (plug ctx t))
    (hnext : s'.next = s.next)
    (hroot : s'.root = ctxRoot ctx t'.ptr)
    (hperm : t'.addrs.Perm t.addrs)
    (hsh : Shape s'.mem (ctxPar ctx) t')
    (htop : ∀ f fs, ctx = f :: fs → s'.mem f.addr = some (f.cell t'.ptr (ctxPar fs)))
    (hframe : ∀ d ∈ ctxAddrs ctx, some d ≠ ctxPar ctx → s'.mem d = s.mem d) :
    Rep s' (plug ctx t') := by
  obtain ⟨_, _, _, hnd, hbd⟩ := (Rep_plug_iff s ctx _).1 h
  refine Rep.replace_gen h hroot ?_ ?_ hsh htop hframe
  · exact (List.Perm.nodup_iff (hperm.append_right _)).2 hnd
  · intro a ha
    rw [hnext]
    exact hbd a ((hperm.append_right _).mem_iff.1 ha)

theorem ptr_ne_of_not_mem {t : RB} {x : Nat} (h : x ∉ t.addrs) : t.ptr ≠ some x := by
  cases t with
  | nil => simp
  | node a c k l r =>
    simp only [RB.addrs, List.mem_append, List.mem_cons, not_or] at h
    simp only [ptr_node, ne_eq, Option.some.injEq]
    exact fun e => h.2.1 e.symm

theorem Rep.mem_plug {s : State} {ctx : Ctx} {t : RB} (_h : Rep s (plug ctx t)) (d : Nat) :
    d ∈ (plug ctx t).addrs ↔ d ∈ t.addrs ∨ d ∈ ctxAddrs ctx := by
  rw [(addrs_plug ctx t).mem_iff, List.mem_append]

/-! ### The rotations on the heap -/

theorem left_rotate_eval {s : State} {x y : Nat} {nx ny : Tree} {P : State → Prop}
    (hx : s.mem x = some nx) (hy : s.mem y = some ny) (hxr : nx.right = some y) (hxy : x ≠ y)
    (hb : ∀ bb, ny.left = some bb → bb ≠ x ∧ bb ≠ y ∧ ∃ nb, s.mem bb = some nb)
    (hp : ∀ p, nx.parent = some p → p ≠ x ∧ p ≠ y ∧ some p ≠ ny.left ∧ ∃ np, s.mem p = some np)
    (hP : ∀ s' : State, s'.next = s.next →
      s'.root = (if nx.parent = none then some y else s.root) →
      s'.mem x = some ⟨nx.data, nx.color, nx.left, ny.left, some y⟩ →
      s'.mem y = some ⟨ny.data, ny.color, some x, ny.right, nx.parent⟩ →
      (∀ bb nb, ny.left = some bb → s.mem bb = some nb →
        s'.mem bb = some ⟨nb.data, nb.color, nb.left, nb.right, some x⟩) →
      (∀ p np, nx.parent = some p → s.mem p = some np →
        s'.mem p = some (if some x = np.left then ⟨np.data, np.color, some y, np.right, np.parent⟩
          else ⟨np.data, np.color, np.left, some y, np.parent⟩)) →
      (∀ d, d ≠ x → d ≠ y → some d ≠ ny.left → some d ≠ nx.parent → s'.mem d = s.mem d) →
      P s') :
    Ends (left_rotate s (some x)) P := by
  unfold Ends
  rcases nx with ⟨kx, cx, lx, rx, px⟩
  rcases ny with ⟨ky, cy, ly, ry, py⟩
  simp only at hxr hb hp hP
  subst hxr
  rcases ly with _ | bb
  · rcases px with _ | p
    · simp [left_rotate, getRight, getLeft, getParent, setRight, setLeft, setParent, load,
          modify, store, setRoot, hx, hy, hxy, Ne.symm hxy, Function.update_apply, bind, Except.bind,
          Except.map, pure, Except.pure]
      apply hP
      · rfl
      · simp
      · simp
      · simp [Function.update_apply, hxy, Ne.symm hxy]
      · simp
      · simp
      · intro d h1 h2 _ _
        simp [Function.update_apply, h1, h2]
    · obtain ⟨hpx, hpy, -, np, hnp⟩ := hp p rfl
      by_cases hl : some x = np.left
      · simp [left_rotate, getRight, getLeft, getParent, setRight, setLeft, setParent, load,
          modify, store, setRoot, hx, hy, hxy, Ne.symm hxy, hpx, hpy, Ne.symm hpx, Ne.symm hpy,
          hnp, hl.symm,
          Function.update_apply, bind, Except.bind, Except.map, pure, Except.pure]
        apply hP
        · rfl
        · simp
        · simp
        · simp [Function.update_apply, hxy, Ne.symm hxy]
        · simp
        · intro p' np' e1 e2
          simp only [Option.some.injEq] at e1; subst e1
          rw [hnp] at e2; simp only [Option.some.injEq] at e2; subst e2
          simp [Function.update_apply, hpx, hpy, hl]
        · intro d h1 h2 _ h4
          simp only [ne_eq, Option.some.injEq] at h4
          simp [Function.update_apply, h1, h2, h4]
      · simp [left_rotate, getRight, getLeft, getParent, setRight, setLeft, setParent, load,
          modify, store, setRoot, hx, hy, hxy, Ne.symm hxy, hpx, hpy, Ne.symm hpx, Ne.symm hpy,
          hnp, hl, Ne.symm hl,
          Function.update_apply, bind, Except.bind, Except.map, pure, Except.pure]
        apply hP
        · rfl
        · simp
        · simp
        · simp [Function.update_apply, hxy, Ne.symm hxy]
        · simp
        · intro p' np' e1 e2
          simp only [Option.some.injEq] at e1; subst e1
          rw [hnp] at e2; simp only [Option.some.injEq] at e2; subst e2
          simp [Function.update_apply, hpx, hpy, hl]
        · intro d h1 h2 _ h4
          simp only [ne_eq, Option.some.injEq] at h4
          simp [Function.update_apply, h1, h2, h4]
  · obtain ⟨hbx, hby, nb, hnb⟩ := hb bb rfl
    rcases px with _ | p
    · simp [left_rotate, getRight, getLeft, getParent, setRight, setLeft, setParent, load,
          modify, store, setRoot, hx, hy, hxy, Ne.symm hxy, hbx, hby, Ne.symm hbx, Ne.symm hby, hnb,
          Function.update_apply, bind, Except.bind, Except.map, pure, Except.pure]
      apply hP
      · rfl
      · simp
      · simp
      · simp [Function.update_apply, hxy, Ne.symm hxy]
      · intro b' nb' e1 e2
        simp only [Option.some.injEq] at e1; subst e1
        rw [hnb] at e2; simp only [Option.some.injEq] at e2; subst e2
        simp [Function.update_apply, hbx, hby]
      · simp
      · intro d h1 h2 h3 _
        simp only [ne_eq, Option.some.injEq] at h3
        simp [Function.update_apply, h1, h2, h3]
    · obtain ⟨hpx, hpy, hpb, np, hnp⟩ := hp p rfl
      simp only [ne_eq, Option.some.injEq] at hpb
      by_cases hl : some x = np.left
      · simp [left_rotate, getRight, getLeft, getParent, setRight, setLeft, setParent, load,
          modify, store, setRoot, hx, hy, hxy, Ne.symm hxy, hpx, hpy, Ne.symm hpx, Ne.symm hpy,
          hbx, hby, Ne.symm hbx, Ne.symm hby, hnb, hpb, Ne.symm hpb,
          hnp, hl.symm,
          Function.update_apply, bind, Except.bind, Except.map, pure, Except.pure]
        apply hP
        · rfl
        · simp
        · simp
        · simp [Function.update_apply, hxy, Ne.symm hxy]
        · intro b' nb' e1 e2
          simp only [Option.some.injEq] at e1; subst e1
          rw [hnb] at e2; simp only [Option.some.injEq] at e2; subst e2
          simp [Function.update_apply, hbx, hby, Ne.symm hpb]
        · intro p' np' e1 e2
          simp only [Option.some.injEq] at e1; subst e1
          rw [hnp] at e2; simp only [Option.some.injEq] at e2; subst e2
          simp [Function.update_apply, hpx, hpy, hl]
        · intro d h1 h2 h3 h4
          simp only [ne_eq, Option.some.injEq] at h3 h4
          simp [Function.update_apply, h1, h2, h3, h4]
      · simp [left_rotate, getRight, getLeft, getParent, setRight, setLeft, setParent, load,
          modify, store, setRoot, hx, hy, hxy, Ne.symm hxy, hpx, hpy, Ne.symm hpx, Ne.symm hpy,
          hbx, hby, Ne.symm hbx, Ne.symm hby, hnb, hpb, Ne.symm hpb,
          hnp, hl, Ne.symm hl,
          Function.update_apply, bind, Except.bind, Except.map, pure, Except.pure]
        apply hP
        · rfl
        · simp
        · simp
        · simp [Function.update_apply, hxy, Ne.symm hxy]
        · intro b' nb' e1 e2
          simp only [Option.some.injEq] at e1; subst e1
          rw [hnb] at e2; simp only [Option.some.injEq] at e2; subst e2
          simp [Function.update_apply, hbx, hby, Ne.symm hpb]
        · intro p' np' e1 e2
          simp only [Option.some.injEq] at e1; subst e1
          rw [hnp] at e2; simp only [Option.some.injEq] at e2; subst e2
          simp [Function.update_apply, hpx, hpy, hl]
        · intro d h1 h2 h3 h4
          simp only [ne_eq, Option.some.injEq] at h3 h4
          simp [Function.update_apply, h1, h2, h3, h4]

theorem right_rotate_eval {s : State} {x y : Nat} {nx ny : Tree} {P : State → Prop}
    (hx : s.mem x = some nx) (hy : s.mem y = some ny) (hxl : nx.left = some y) (hxy : x ≠ y)
    (hb : ∀ bb, ny.right = some bb → bb ≠ x ∧ bb ≠ y ∧ ∃ nb, s.mem bb = some nb)
    (hp : ∀ p, nx.parent = some p → p ≠ x ∧ p ≠ y ∧ some p ≠ ny.right ∧ ∃ np, s.mem p = some np)
    (hP : ∀ s' : State, s'.next = s.next →
      s'.root = (if nx.parent = none then some y else s.root) →
      s'.mem x = some ⟨nx.data, nx.color, ny.right, nx.right, some y⟩ →
      s'.mem y = some ⟨ny.data, ny.color, ny.left, some x, nx.parent⟩ →
      (∀ bb nb, ny.right = some bb → s.mem bb = some nb →
        s'.mem bb = some ⟨nb.data, nb.color, nb.left, nb.right, some x⟩) →
      (∀ p np, nx.parent = some p → s.mem p = some np →
        s'.mem p = some (if some x = np.right then ⟨np.data, np.color, np.left, some y, np.parent⟩
          else ⟨np.data, np.color, some y, np.right, np.parent⟩)) →
      (∀ d, d ≠ x → d ≠ y → some d ≠ ny.right → some d ≠ nx.parent → s'.mem d = s.mem d) →
      P s') :
    Ends (right_rotate s (some x)) P := by
  unfold Ends
  rcases nx with ⟨kx, cx, lx, rx, px⟩
  rcases ny with ⟨ky, cy, ly, ry, py⟩
  simp only at hxl hb hp hP
  subst hxl
  rcases ry with _ | bb
  · rcases px with _ | p
    · simp [right_rotate, getLeft, getRight, getParent, setLeft, setRight, setParent, load,
          modify, store, setRoot, hx, hy, hxy, Ne.symm hxy, Function.update_apply, bind, Except.bind,
          Except.map, pure, Except.pure]
      apply hP
      · rfl
      · simp
      · simp
      · simp [Function.update_apply, hxy, Ne.symm hxy]
      · simp
      · simp
      · intro d h1 h2 _ _
        simp [Function.update_apply, h1, h2]
    · obtain ⟨hpx, hpy, -, np, hnp⟩ := hp p rfl
      by_cases hl : some x = np.right
      · simp [right_rotate, getLeft, getRight, getParent, setLeft, setRight, setParent, load,
          modify, store, setRoot, hx, hy, hxy, Ne.symm hxy, hpx, hpy, Ne.symm hpx, Ne.symm hpy,
          hnp, hl.symm,
          Function.update_apply, bind, Except.bind, Except.map, pure, Except.pure]
        apply hP
        · rfl
        · simp
        · simp
        · simp [Function.update_apply, hxy, Ne.symm hxy]
        · simp
        · intro p' np' e1 e2
          simp only [Option.some.injEq] at e1; subst e1
          rw [hnp] at e2; simp only [Option.some.injEq] at e2; subst e2
          simp [Function.update_apply, hpx, hpy, hl]
        · intro d h1 h2 _ h4
          simp only [ne_eq, Option.some.injEq] at h4
          simp [Function.update_apply, h1, h2, h4]
      · simp [right_rotate, getLeft, getRight, getParent, setLeft, setRight, setParent, load,
          modify, store, setRoot, hx, hy, hxy, Ne.symm hxy, hpx, hpy, Ne.symm hpx, Ne.symm hpy,
          hnp, hl, Ne.symm hl,
          Function.update_apply, bind, Except.bind, Except.map, pure, Except.pure]
        apply hP
        · rfl
        · simp
        · simp
        · simp [Function.update_apply, hxy, Ne.symm hxy]
        · simp
        · intro p' np' e1 e2
          simp only [Option.some.injEq] at e1; subst e1
          rw [hnp] at e2; simp only [Option.some.injEq] at e2; subst e2
          simp [Function.update_apply, hpx, hpy, hl]
        · intro d h1 h2 _ h4
          simp only [ne_eq, Option.some.injEq] at h4
          simp [Function.update_apply, h1, h2, h4]
  · obtain ⟨hbx, hby, nb, hnb⟩ := hb bb rfl
    rcases px with _ | p
    · simp [right_rotate, getLeft, getRight, getParent, setLeft, setRight, setParent, load,
          modify, store, setRoot, hx, hy, hxy, Ne.symm hxy, hbx, hby, Ne.symm hbx, Ne.symm hby, hnb,
          Function.update_apply, bind, Except.bind, Except.map, pure, Except.pure]
      apply hP
      · rfl
      · simp
      · simp
      · simp [Function.update_apply, hxy, Ne.symm hxy]
      · intro b' nb' e1 e2
        simp only [Option.some.injEq] at e1; subst e1
        rw [hnb] at e2; simp only [Option.some.injEq] at e2; subst e2
        simp [Function.update_apply, hbx, hby]
      · simp
      · intro d h1 h2 h3 _
        simp only [ne_eq, Option.some.injEq] at h3
        simp [Function.update_apply, h1, h2, h3]
    · obtain ⟨hpx, hpy, hpb, np, hnp⟩ := hp p rfl
      simp only [ne_eq, Option.some.injEq] at hpb
      by_cases hl : some x = np.right
      · simp [right_rotate, getLeft, getRight, getParent, setLeft, setRight, setParent, load,
          modify, store, setRoot, hx, hy, hxy, Ne.symm hxy, hpx, hpy, Ne.symm hpx, Ne.symm hpy,
          hbx, hby, Ne.symm hbx, Ne.symm hby, hnb, hpb, Ne.symm hpb,
          hnp, hl.symm,
          Function.update_apply, bind, Except.bind, Except.map, pure, Except.pure]
        apply hP
        · rfl
        · simp
        · simp
        · simp [Function.update_apply, hxy, Ne.symm hxy]
        · intro b' nb' e1 e2
          simp only [Option.some.injEq] at e1; subst e1
          rw [hnb] at e2; simp only [Option.some.injEq] at e2; subst e2
          simp [Function.update_apply, hbx, hby, Ne.symm hpb]
        · intro p' np' e1 e2
          simp only [Option.some.injEq] at e1; subst e1
          rw [hnp] at e2; simp only [Option.some.injEq] at e2; subst e2
          simp [Function.update_apply, hpx, hpy, hl]
        · intro d h1 h2 h3 h4
          simp only [ne_eq, Option.some.injEq] at h3 h4
          simp [Function.update_apply, h1, h2, h3, h4]
      · simp [right_rotate, getLeft, getRight, getParent, setLeft, setRight, setParent, load,
          modify, store, setRoot, hx, hy, hxy, Ne.symm hxy, hpx, hpy, Ne.symm hpx, Ne.symm hpy,
          hbx, hby, Ne.symm hbx, Ne.symm hby, hnb, hpb, Ne.symm hpb,
          hnp, hl, Ne.symm hl,
          Function.update_apply, bind, Except.bind, Except.map, pure, Except.pure]
        apply hP
        · rfl
        · simp
        · simp
        · simp [Function.update_apply, hxy, Ne.symm hxy]
        · intro b' nb' e1 e2
          simp only [Option.some.injEq] at e1; subst e1
          rw [hnb] at e2; simp only [Option.some.injEq] at e2; subst e2
          simp [Function.update_apply, hbx, hby, Ne.symm hpb]
        · intro p' np' e1 e2
          simp only [Option.some.injEq] at e1; subst e1
          rw [hnp] at e2; simp only [Option.some.injEq] at e2; subst e2
          simp [Function.update_apply, hpx, hpy, hl]
        · intro d h1 h2 h3 h4
          simp only [ne_eq, Option.some.injEq] at h3 h4
          simp [Function.update_apply, h1, h2, h3, h4]

theorem left_rotate_spec {s : State} {ctx : Ctx} {x : Nat} {cx : Color} {kx : Int} {a : RB}
    {y : Nat} {cy : Color} {ky : Int} {b c : RB}
    (h : Rep s (plug ctx (node x cx kx a (node y cy ky b c)))) :
    Ends (left_rotate s (some x)) (fun s' =>
      Rep s' (plug ctx (node y cy ky (node x cx kx a b) c))
      ∧ s'.next = s.next
      ∧ ∀ d, d ∉ (plug ctx (node x cx kx a (node y cy ky b c))).addrs → s'.mem d = s.mem d) := by
  obtain ⟨hroot, hctx, hsh, hnd, hbd⟩ := (Rep_plug_iff s ctx _).1 h
  simp only [Shape] at hsh
  obtain ⟨hx, ha, hy, hb, hc⟩ := hsh
  have hpost : ∀ s' : State, s'.next = s.next → s'.root = ctxRoot ctx (some y) →
      s'.mem x = some ⟨kx, cx.toInt, a.ptr, b.ptr, some y⟩ →
      s'.mem y = some ⟨ky, cy.toInt, some x, c.ptr, ctxPar ctx⟩ →
      (∀ bb cb kb bl br, b = node bb cb kb bl br →
        s'.mem bb = some ⟨kb, cb.toInt, bl.ptr, br.ptr, some x⟩) →
      (∀ f fs, ctx = f :: fs → s'.mem f.addr = some (f.cell (some y) (ctxPar fs))) →
      (∀ d, d ≠ x → d ≠ y → some d ≠ b.ptr → some d ≠ ctxPar ctx → s'.mem d = s.mem d) →
      Rep s' (plug ctx (node y cy ky (node x cx kx a b) c))
      ∧ s'.next = s.next
      ∧ ∀ d, d ∉ (plug ctx (node x cx kx a (node y cy ky b c))).addrs → s'.mem d = s.mem d := by
    intro s' hnext hroot' hx' hy' hb' htop hframe
    have hpm : (x :: y :: (a.addrs ++ b.addrs ++ c.addrs ++ ctxAddrs ctx)).Perm
        ((node x cx kx a (node y cy ky b c)).addrs ++ ctxAddrs ctx) := by
      rw [List.perm_iff_count]; intro z
      simp only [RB.addrs, List.count_append, List.count_cons, List.count_nil]; omega
    have hnd2 := hpm.nodup_iff.2 hnd
    simp only [List.nodup_cons, List.mem_cons, List.mem_append, not_or, List.nodup_append] at hnd2
    obtain ⟨⟨hxy, ⟨⟨hxa, hxb⟩, hxc⟩, hxctx⟩, ⟨⟨⟨hya, hyb⟩, hyc⟩, hyctx⟩, ⟨⟨hnda, hndb, hab⟩, hndc, habc⟩, hndctx, hdisj⟩ := hnd2
    have hparx : ctxPar ctx ≠ some x := by
      rcases ctx with _ | ⟨f, fs⟩
      · simp [ctxPar]
      · simp only [ctxPar, ne_eq, Option.some.injEq]
        rintro e
        exact hxctx (by simp [ctxAddrs, Frame.addrs_eq, e])
    have hpary : ctxPar ctx ≠ some y := by
      rcases ctx with _ | ⟨f, fs⟩
      · simp [ctxPar]
      · simp only [ctxPar, ne_eq, Option.some.injEq]
        rintro e
        exact hyctx (by simp [ctxAddrs, Frame.addrs_eq, e])
    have hsub : ∀ (u : RB) (par : Ptr), Shape s.mem par u → x ∉ u.addrs → y ∉ u.addrs →
        (∀ d ∈ u.addrs, some d ≠ b.ptr) → (∀ d ∈ u.addrs, d ∉ ctxAddrs ctx) →
        Shape s'.mem par u := by
      intro u par hu hxu hyu hbu hcu
      refine Shape_congr (fun d hd => hframe d ?_ ?_ (hbu d hd) ?_) hu
      · rintro rfl; exact hxu hd
      · rintro rfl; exact hyu hd
      · rcases ctx with _ | ⟨f, fs⟩
        · simp [ctxPar]
        · simp only [ctxPar, ne_eq, Option.some.injEq]
          rintro rfl
          exact hcu _ hd (by simp [ctxAddrs, Frame.addrs_eq])
    refine ⟨Rep.replace h hnext hroot' ?_ ?_ htop ?_, hnext, ?_⟩
    · rw [List.perm_iff_count]; intro z
      simp only [RB.addrs, List.count_append, List.count_cons, List.count_nil]; omega
    · simp only [Shape, ptr_node]
      refine ⟨hy', ⟨hx', ?_, ?_⟩, ?_⟩
      · refine hsub a _ ha hxa hya ?_ ?_
        · intro d hd e
          have : d ∈ b.addrs := by
            rcases b with _ | ⟨bb, cb, kb, bl, br⟩
            · simp at e
            · simp only [ptr_node, Option.some.injEq] at e; subst e; simp [RB.addrs]
          exact hab hd this
        · intro d hd hd2; exact hdisj (by simp [hd]) hd2
      · rcases b with _ | ⟨bb, cb, kb, bl, br⟩
        · trivial
        · obtain ⟨hbb, hbl, hbr⟩ := hb
          simp only [RB.addrs, List.nodup_append, List.nodup_cons, List.mem_append, List.mem_cons,
            not_or] at hndb hxb hyb
          refine ⟨hb' _ _ _ _ _ rfl, ?_, ?_⟩
          · refine hsub bl _ hbl hxb.1 hyb.1 ?_ ?_
            · intro d hd e
              simp only [ptr_node, Option.some.injEq] at e; subst e
              exact hndb.2.2 hd (by simp)
            · intro d hd hd2; exact hdisj (by simp [RB.addrs, hd]) hd2
          · refine hsub br _ hbr hxb.2.2 hyb.2.2 ?_ ?_
            · intro d hd e
              simp only [ptr_node, Option.some.injEq] at e; subst e
              exact hndb.2.1.1 hd
            · intro d hd hd2; exact hdisj (by simp [RB.addrs, hd]) hd2
      · refine hsub c _ hc hxc hyc ?_ ?_
        · intro d hd e
          have : d ∈ b.addrs := by
            rcases b with _ | ⟨bb, cb, kb, bl, br⟩
            · simp at e
            · simp only [ptr_node, Option.some.injEq] at e; subst e; simp [RB.addrs]
          exact habc (by simp [this]) hd
        · intro d hd hd2; exact hdisj (by simp [hd]) hd2
    · intro d hd hne
      refine hframe d ?_ ?_ ?_ hne
      · rintro rfl; exact hxctx hd
      · rintro rfl; exact hyctx hd
      · intro e
        have : d ∈ b.addrs := by
          rcases b with _ | ⟨bb, cb, kb, bl, br⟩
          · simp at e
          · simp only [ptr_node, Option.some.injEq] at e; subst e; simp [RB.addrs]
        exact hdisj (by simp [this]) hd
    · intro d hd
      rw [h.mem_plug] at hd
      simp only [RB.addrs, List.mem_append, List.mem_cons, not_or] at hd
      refine hframe d hd.1.2.1 hd.1.2.2.2.1 ?_ ?_
      · intro e
        rcases b with _ | ⟨bb, cb, kb, bl, br⟩
        · simp at e
        · simp only [ptr_node, Option.some.injEq] at e; subst e
          simp [RB.addrs] at hd
      · rcases ctx with _ | ⟨f, fs⟩
        · simp [ctxPar]
        · simp only [ctxPar, ne_eq, Option.some.injEq]
          rintro rfl
          exact hd.2 (by simp [ctxAddrs, Frame.addrs_eq])
  have hpm : (x :: y :: (a.addrs ++ b.addrs ++ c.addrs ++ ctxAddrs ctx)).Perm
      ((node x cx kx a (node y cy ky b c)).addrs ++ ctxAddrs ctx) := by
    rw [List.perm_iff_count]; intro z
    simp only [RB.addrs, List.count_append, List.count_cons, List.count_nil]; omega
  have hnd2 := hpm.nodup_iff.2 hnd
  simp only [List.nodup_cons, List.mem_cons, List.mem_append, not_or, List.nodup_append] at hnd2
  obtain ⟨⟨hxy, ⟨⟨hxa, hxb⟩, hxc⟩, hxctx⟩, ⟨⟨⟨hya, hyb⟩, hyc⟩, hyctx⟩, ⟨⟨hnda, hndb, hab⟩, hndc, habc⟩, hndctx, hdisj⟩ := hnd2
  simp only [ptr_node] at hx
  refine left_rotate_eval hx hy rfl hxy ?_ ?_ ?_
  · intro bb e
    rcases b with _ | ⟨bb', cb, kb, bl, br⟩
    · simp at e
    · simp only [ptr_node, Option.some.injEq] at e; subst e
      simp only [RB.addrs, List.mem_append, List.mem_cons, not_or] at hxb hyb
      exact ⟨Ne.symm hxb.2.1, Ne.symm hyb.2.1, _, hb.1⟩
  · intro p e
    rcases ctx with _ | ⟨f, fs⟩
    · simp [ctxPar] at e
    · simp only [ctxPar, Option.some.injEq] at e; subst e
      simp only [ctxAddrs, Frame.addrs_eq, List.mem_append, List.mem_cons, not_or] at hxctx hyctx
      refine ⟨Ne.symm hxctx.1.1, Ne.symm hyctx.1.1, ?_, _, hctx.1⟩
      intro e
      rcases b with _ | ⟨bb, cb, kb, bl, br⟩
      · simp at e
      · simp only [ptr_node, Option.some.injEq] at e
        exact hdisj (a := bb) (by simp [RB.addrs]) (by simp [ctxAddrs, Frame.addrs_eq, e])
  · intro s' h1 h2 h3 h4 h5 h6 h7
    refine hpost s' h1 ?_ h3 h4 ?_ ?_ h7
    · rw [h2]
      rcases ctx with _ | ⟨f, fs⟩
      · simp [ctxPar, ctxRoot]
      · rw [hroot]; simp [ctxPar, ctxRoot]
    · rintro bb cb kb bl br rfl
      exact h5 bb _ rfl hb.1
    · rintro f fs rfl
      have := h6 f.addr _ rfl hctx.1
      rw [this]
      simp only [ctxAddrs, Frame.addrs_eq, List.mem_append, List.mem_cons, not_or] at hxctx
      have hs := ptr_ne_of_not_mem hxctx.1.2
      rcases f with ⟨p, cp, kp, r⟩ | ⟨p, cp, kp, l⟩
      · simp [Frame.cell]
      · simp only [Frame.sib] at hs
        simp [Frame.cell, Ne.symm hs]

theorem right_rotate_spec {s : State} {ctx : Ctx} {x : Nat} {cx : Color} {kx : Int} {a : RB}
    {y : Nat} {cy : Color} {ky : Int} {b c : RB}
    (h : Rep s (plug ctx (node x cx kx (node y cy ky a b) c))) :
    Ends (right_rotate s (some x)) (fun s' =>
      Rep s' (plug ctx (node y cy ky a (node x cx kx b c)))
      ∧ s'.next = s.next
      ∧ ∀ d, d ∉ (plug ctx (node x cx kx (node y cy ky a b) c)).addrs → s'.mem d = s.mem d) := by
  obtain ⟨hroot, hctx, hsh, hnd, hbd⟩ := (Rep_plug_iff s ctx _).1 h
  simp only [Shape] at hsh
  obtain ⟨hx, ⟨hy, ha, hb⟩, hc⟩ := hsh
  have hpost : ∀ s' : State, s'.next = s.next → s'.root = ctxRoot ctx (some y) →
      s'.mem x = some ⟨kx, cx.toInt, b.ptr, c.ptr, some y⟩ →
      s'.mem y = some ⟨ky, cy.toInt, a.ptr, some x, ctxPar ctx⟩ →
      (∀ bb cb kb bl br, b = node bb cb kb bl br →
        s'.mem bb = some ⟨kb, cb.toInt, bl.ptr, br.ptr, some x⟩) →
      (∀ f fs, ctx = f :: fs → s'.mem f.addr = some (f.cell (some y) (ctxPar fs))) →
      (∀ d, d ≠ x → d ≠ y → some d ≠ b.ptr → some d ≠ ctxPar ctx → s'.mem d = s.mem d) →
      Rep s' (plug ctx (node y cy ky a (node x cx kx b c)))
      ∧ s'.next = s.next
      ∧ ∀ d, d ∉ (plug ctx (node x cx kx (node y cy ky a b) c)).addrs → s'.mem d = s.mem d := by
    intro s' hnext hroot' hx' hy' hb' htop hframe
    have hpm : (x :: y :: (a.addrs ++ b.addrs ++ c.addrs ++ ctxAddrs ctx)).Perm
        ((node x cx kx (node y cy ky a b) c).addrs ++ ctxAddrs ctx) := by
      rw [List.perm_iff_count]; intro z
      simp only [RB.addrs, List.count_append, List.count_cons, List.count_nil]; omega
    have hnd2 := hpm.nodup_iff.2 hnd
    simp only [List.nodup_cons, List.mem_cons, List.mem_append, not_or, List.nodup_append] at hnd2
    obtain ⟨⟨hxy, ⟨⟨hxa, hxb⟩, hxc⟩, hxctx⟩, ⟨⟨⟨hya, hyb⟩, hyc⟩, hyctx⟩, ⟨⟨hnda, hndb, hab⟩, hndc, habc⟩, hndctx, hdisj⟩ := hnd2
    have hparx : ctxPar ctx ≠ some x := by
      rcases ctx with _ | ⟨f, fs⟩
      · simp [ctxPar]
      · simp only [ctxPar, ne_eq, Option.some.injEq]
        rintro e
        exact hxctx (by simp [ctxAddrs, Frame.addrs_eq, e])
    have hpary : ctxPar ctx ≠ some y := by
      rcases ctx with _ | ⟨f, fs⟩
      · simp [ctxPar]
      · simp only [ctxPar, ne_eq, Option.some.injEq]
        rintro e
        exact hyctx (by simp [ctxAddrs, Frame.addrs_eq, e])
    have hsub : ∀ (u : RB) (par : Ptr), Shape s.mem par u → x ∉ u.addrs → y ∉ u.addrs →
        (∀ d ∈ u.addrs, some d ≠ b.ptr) → (∀ d ∈ u.addrs, d ∉ ctxAddrs ctx) →
        Shape s'.mem par u := by
      intro u par hu hxu hyu hbu hcu
      refine Shape_congr (fun d hd => hframe d ?_ ?_ (hbu d hd) ?_) hu
      · rintro rfl; exact hxu hd
      · rintro rfl; exact hyu hd
      · rcases ctx with _ | ⟨f, fs⟩
        · simp [ctxPar]
        · simp only [ctxPar, ne_eq, Option.some.injEq]
          rintro rfl
          exact hcu _ hd (by simp [ctxAddrs, Frame.addrs_eq])
    refine ⟨Rep.replace h hnext hroot' ?_ ?_ htop ?_, hnext, ?_⟩
    · rw [List.perm_iff_count]; intro z
      simp only [RB.addrs, List.count_append, List.count_cons, List.count_nil]; omega
    · simp only [Shape, ptr_node]
      refine ⟨hy', ?_, ⟨hx', ?_, ?_⟩⟩
      · refine hsub a _ ha hxa hya ?_ ?_
        · intro d hd e
          have : d ∈ b.addrs := by
            rcases b with _ | ⟨bb, cb, kb, bl, br⟩
            · simp at e
            · simp only [ptr_node, Option.some.injEq] at e; subst e; simp [RB.addrs]
          exact hab hd this
        · intro d hd hd2; exact hdisj (by simp [hd]) hd2
      · rcases b with _ | ⟨bb, cb, kb, bl, br⟩
        · trivial
        · obtain ⟨hbb, hbl, hbr⟩ := hb
          simp only [RB.addrs, List.nodup_append, List.nodup_cons, List.mem_append, List.mem_cons,
            not_or] at hndb hxb hyb
          refine ⟨hb' _ _ _ _ _ rfl, ?_, ?_⟩
          · refine hsub bl _ hbl hxb.1 hyb.1 ?_ ?_
            · intro d hd e
              simp only [ptr_node, Option.some.injEq] at e; subst e
              exact hndb.2.2 hd (by simp)
            · intro d hd hd2; exact hdisj (by simp [RB.addrs, hd]) hd2
          · refine hsub br _ hbr hxb.2.2 hyb.2.2 ?_ ?_
            · intro d hd e
              simp only [ptr_node, Option.some.injEq] at e; subst e
              exact hndb.2.1.1 hd
            · intro d hd hd2; exact hdisj (by simp [RB.addrs, hd]) hd2
      · refine hsub c _ hc hxc hyc ?_ ?_
        · intro d hd e
          have : d ∈ b.addrs := by
            rcases b with _ | ⟨bb, cb, kb, bl, br⟩
            · simp at e
            · simp only [ptr_node, Option.some.injEq] at e; subst e; simp [RB.addrs]
          exact habc (by simp [this]) hd
        · intro d hd hd2; exact hdisj (by simp [hd]) hd2
    · intro d hd hne
      refine hframe d ?_ ?_ ?_ hne
      · rintro rfl; exact hxctx hd
      · rintro rfl; exact hyctx hd
      · intro e
        have : d ∈ b.addrs := by
          rcases b with _ | ⟨bb, cb, kb, bl, br⟩
          · simp at e
          · simp only [ptr_node, Option.some.injEq] at e; subst e; simp [RB.addrs]
        exact hdisj (by simp [this]) hd
    · intro d hd
      rw [h.mem_plug] at hd
      simp only [RB.addrs, List.mem_append, List.mem_cons, not_or] at hd
      refine hframe d hd.1.2.1 hd.1.1.2.1 ?_ ?_
      · intro e
        rcases b with _ | ⟨bb, cb, kb, bl, br⟩
        · simp at e
        · simp only [ptr_node, Option.some.injEq] at e; subst e
          simp [RB.addrs] at hd
      · rcases ctx with _ | ⟨f, fs⟩
        · simp [ctxPar]
        · simp only [ctxPar, ne_eq, Option.some.injEq]
          rintro rfl
          exact hd.2 (by simp [ctxAddrs, Frame.addrs_eq])
  have hpm : (x :: y :: (a.addrs ++ b.addrs ++ c.addrs ++ ctxAddrs ctx)).Perm
      ((node x cx kx (node y cy ky a b) c).addrs ++ ctxAddrs ctx) := by
    rw [List.perm_iff_count]; intro z
    simp only [RB.addrs, List.count_append, List.count_cons, List.count_nil]; omega
  have hnd2 := hpm.nodup_iff.2 hnd
  simp only [List.nodup_cons, List.mem_cons, List.mem_append, not_or, List.nodup_append] at hnd2
  obtain ⟨⟨hxy, ⟨⟨hxa, hxb⟩, hxc⟩, hxctx⟩, ⟨⟨⟨hya, hyb⟩, hyc⟩, hyctx⟩, ⟨⟨hnda, hndb, hab⟩, hndc, habc⟩, hndctx, hdisj⟩ := hnd2
  simp only [ptr_node] at hx
  refine right_rotate_eval hx hy rfl hxy ?_ ?_ ?_
  · intro bb e
    rcases b with _ | ⟨bb', cb, kb, bl, br⟩
    · simp at e
    · simp only [ptr_node, Option.some.injEq] at e; subst e
      simp only [RB.addrs, List.mem_append, List.mem_cons, not_or] at hxb hyb
      exact ⟨Ne.symm hxb.2.1, Ne.symm hyb.2.1, _, hb.1⟩
  · intro p e
    rcases ctx with _ | ⟨f, fs⟩
    · simp [ctxPar] at e
    · simp only [ctxPar, Option.some.injEq] at e; subst e
      simp only [ctxAddrs, Frame.addrs_eq, List.mem_append, List.mem_cons, not_or] at hxctx hyctx
      refine ⟨Ne.symm hxctx.1.1, Ne.symm hyctx.1.1, ?_, _, hctx.1⟩
      intro e
      rcases b with _ | ⟨bb, cb, kb, bl, br⟩
      · simp at e
      · simp only [ptr_node, Option.some.injEq] at e
        exact hdisj (a := bb) (by simp [RB.addrs]) (by simp [ctxAddrs, Frame.addrs_eq, e])
  · intro s' h1 h2 h3 h4 h5 h6 h7
    refine hpost s' h1 ?_ h3 h4 ?_ ?_ h7
    · rw [h2]
      rcases ctx with _ | ⟨f, fs⟩
      · simp [ctxPar, ctxRoot]
      · rw [hroot]; simp [ctxPar, ctxRoot]
    · rintro bb cb kb bl br rfl
      exact h5 bb _ rfl hb.1
    · rintro f fs rfl
      have := h6 f.addr _ rfl hctx.1
      rw [this]
      simp only [ctxAddrs, Frame.addrs_eq, List.mem_append, List.mem_cons, not_or] at hxctx
      have hs := ptr_ne_of_not_mem hxctx.1.2
      rcases f with ⟨p, cp, kp, r⟩ | ⟨p, cp, kp, l⟩
      · simp only [Frame.sib] at hs
        simp [Frame.cell, Ne.symm hs]
      · simp [Frame.cell]

theorem Shape_update {m : Nat → Option Tree} {t : RB} {par : Ptr} {z : Nat} {v : Option Tree}
    (hz : z ∉ t.addrs) (h : Shape m par t) : Shape (Function.update m z v) par t :=
  Shape_congr (fun b hb => Function.update_noteq (fun e => hz (by rw [← e]; exact hb)) _ _) h

theorem ShapeCtx_update {m : Nat → Option Tree} {ctx : Ctx} {h : Ptr} {z : Nat}
    {v : Option Tree} (hz : z ∉ ctxAddrs ctx) (hs : ShapeCtx m ctx h) :
    ShapeCtx (Function.update m z v) ctx h :=
  ShapeCtx_congr (fun b hb => Function.update_noteq (fun e => hz (by rw [← e]; exact hb)) _ _) hs

theorem Rep.not_mem_ctx {s : State} {ctx : Ctx} {t : RB} (h : Rep s (plug ctx t)) :
    ∀ d ∈ t.addrs, d ∉ ctxAddrs ctx := by
  have hnd := ((Rep_plug_iff s ctx t).1 h).2.2.2.1
  intro d hd hd2
  exact (List.nodup_append.1 hnd).2.2 hd hd2

theorem Rep.root_eq_iff {s : State} {ctx : Ctx} {a : Nat} {c : Color} {k : Int} {l r : RB}
    (h : Rep s (plug ctx (node a c k l r))) : some a = s.root ↔ ctx = [] := by
  have hroot := ((Rep_plug_iff s ctx _).1 h).1
  constructor
  · intro e
    by_contra hne
    obtain ⟨b, hb, hb2, -⟩ := ctxRoot_mem ctx hne (some a)
    rw [hroot, ptr_node, hb2] at e
    simp only [Option.some.injEq] at e
    subst e
    exact h.not_mem_ctx a (by simp [RB.addrs]) hb
  · rintro rfl
    rw [hroot]; rfl

theorem modify_spec {s : State} {ctx : Ctx} {a : Nat} {c c' : Color} {k k' : Int} {l r : RB}
    (h : Rep s (plug ctx (node a c k l r))) (f : Tree → Tree)
    (hf : f ⟨k, c.toInt, l.ptr, r.ptr, ctxPar ctx⟩ = ⟨k', c'.toInt, l.ptr, r.ptr, ctxPar ctx⟩) :
    Ends (modify s (some a) f) (fun s' =>
      Rep s' (plug ctx (node a c' k' l r)) ∧ s'.next = s.next
      ∧ ∀ d, d ≠ a → s'.mem d = s.mem d) := by
  have ha := h.read
  obtain ⟨hroot, hctx, hsh, hnd, hbd⟩ := (Rep_plug_iff s ctx _).1 h
  have hnd2 : (a :: (l.addrs ++ r.addrs ++ ctxAddrs ctx)).Nodup := by
    refine (List.Perm.nodup_iff ?_).2 hnd
    rw [List.perm_iff_count]; intro z
    simp only [RB.addrs, List.count_append, List.count_cons, List.count_nil]; omega
  simp only [List.nodup_cons, List.mem_append, not_or] at hnd2
  obtain ⟨⟨⟨hal, har⟩, hactx⟩, -⟩ := hnd2
  simp only [modify, ha, Ends, hf]
  refine ⟨Rep.replace h rfl ?_ ?_ ?_ ?_ ?_, rfl, ?_⟩
  · exact hroot
  · rfl
  · simp only [Shape, store, Function.update_same, true_and]
    exact ⟨Shape_update hal hsh.2.1, Shape_update har hsh.2.2⟩
  · rintro f fs rfl
    have : f.addr ≠ a := by
      rintro rfl
      exact hactx (by simp [ctxAddrs, Frame.addrs_eq])
    simp only [store, Function.update_noteq this, ptr_node]
    exact hctx.1
  · intro d hd _
    have : d ≠ a := by rintro rfl; exact hactx hd
    simp only [store, Function.update_noteq this]
  · intro d hd
    simp only [store, Function.update_noteq hd]

theorem setColor_spec {s : State} {ctx : Ctx} {a : Nat} {c : Color} {k : Int} {l r : RB}
    (h : Rep s (plug ctx (node a c k l r))) (c' : Color) :
    Ends (setColor s (some a) c'.toInt) (fun s' =>
      Rep s' (plug ctx (node a c' k l r)) ∧ s'.next = s.next
      ∧ ∀ d, d ≠ a → s'.mem d = s.mem d) :=
  modify_spec h _ rfl

theorem setData_spec {s : State} {ctx : Ctx} {a : Nat} {c : Color} {k : Int} {l r : RB}
    (h : Rep s (plug ctx (node a c k l r))) (k' : Int) :
    Ends (setData s (some a) k') (fun s' =>
      Rep s' (plug ctx (node a c k' l r)) ∧ s'.next = s.next
      ∧ ∀ d, d ≠ a → s'.mem d = s.mem d) :=
  modify_spec h _ rfl

theorem getParent_focus {s : State} {ctx : Ctx} {a : Nat} {c : Color} {k : Int} {l r : RB}
    (h : Rep s (plug ctx (node a c k l r))) : getParent s (some a) = .ok (ctxPar ctx) := by
  simp [getParent, load, h.read, Except.map]

theorem getColor_focus {s : State} {ctx : Ctx} {a : Nat} {c : Color} {k : Int} {l r : RB}
    (h : Rep s (plug ctx (node a c k l r))) : getColor s (some a) = .ok c.toInt := by
  simp [getColor, load, h.read, Except.map]

theorem getLeft_focus {s : State} {ctx : Ctx} {a : Nat} {c : Color} {k : Int} {l r : RB}
    (h : Rep s (plug ctx (node a c k l r))) : getLeft s (some a) = .ok l.ptr := by
  simp [getLeft, load, h.read, Except.map]

theorem getRight_focus {s : State} {ctx : Ctx} {a : Nat} {c : Color} {k : Int} {l r : RB}
    (h : Rep s (plug ctx (node a c k l r))) : getRight s (some a) = .ok r.ptr := by
  simp [getRight, load, h.read, Except.map]

theorem getData_focus {s : State} {ctx : Ctx} {a : Nat} {c : Color} {k : Int} {l r : RB}
    (h : Rep s (plug ctx (node a c k l r))) : getData s (some a) = .ok k := by
  simp [getData, load, h.read, Except.map]

/-! ### Running the calls -/

@[simp] theorem bind_ok {α β : Type} (a : α) (f : α → Except Fault β) :
    (Except.ok a >>= f) = f a := rfl

@[simp] theorem bind_error {α β : Type} (e : Fault) (f : α → Except Fault β) :
    ((Except.error e : Except Fault α) >>= f) = Except.error e := rfl

@[simp] theorem pure_eq_ok {α : Type} (a : α) : (pure a : Except Fault α) = Except.ok a := rfl

theorem Ends_bind {r : Except Fault State} {f : State → Except Fault State}
    {P Q : State → Prop} (h : Ends r P) (hf : ∀ s, P s → Ends (f s) Q) :
    Ends (r >>= f) Q := by
  cases r with
  | error e => exact h.elim
  | ok s => exact hf s h

theorem Ends_bind_returns {r : Except Fault State} {f : State → Except Fault (Int × State)}
    {P : State → Prop} {Q : Int → State → Prop} (h : Ends r P)
    (hf : ∀ s, P s → Returns (f s) Q) : Returns (r >>= f) Q := by
  cases r with
  | error e => exact h.elim
  | ok s => exact hf s h

theorem Ends_ok {s : State} {P : State → Prop} (h : P s) : Ends (.ok s) P := h

theorem zoom_plug (k : Int) (t : RB) :
    ∀ ctx : Ctx, plug (zoom k t ctx).1 (zoom k t ctx).2 = plug ctx t := by
  induction t with
  | nil => intro ctx; rfl
  | node a c x l r ihl ihr =>
    intro ctx
    unfold zoom
    split
    · rw [ihl]; rfl
    · split
      · rw [ihr]; rfl
      · rfl

theorem insert_descend_spec (k : Int) (t : RB) :
    ∀ (ctx : Ctx) (s : State) (fuel : Nat), Rep s (plug ctx t) → t.height < fuel →
      insert_descend fuel s k t.ptr (ctxPar ctx) =
        .ok (match (zoom k t ctx).2 with
          | .nil => some (ctxPar (zoom k t ctx).1)
          | .node _ _ _ _ _ => none) := by
  induction t with
  | nil =>
    intro ctx s fuel _ hf
    cases fuel with
    | zero => simp at hf
    | succ fuel => simp [insert_descend, zoom]
  | node a c x l r ihl ihr =>
    intro ctx s fuel h hf
    cases fuel with
    | zero => simp at hf
    | succ fuel =>
      simp only [RB.height] at hf
      simp only [insert_descend, ptr_node, reduceCtorEq, if_false, getData_focus h, bind_ok,
        getLeft_focus h, getRight_focus h, gt_iff_lt]
      unfold zoom
      by_cases h1 : k < x
      · simp only [h1, if_true]
        exact ihl (.L a c x r :: ctx) s fuel h (by omega)
      · simp only [h1, if_false]
        by_cases h2 : x < k
        · simp only [h2, if_true]
          exact ihr (.R a c x l :: ctx) s fuel h (by omega)
        · simp only [h2, if_false, pure_eq_ok]

theorem Frame.fill_eq (f : Frame) (t : RB) :
    f.fill t = match f with
      | .L a c k r => node a c k t r
      | .R a c k l => node a c k l t := by
  cases f <;> rfl

theorem getColor_frame {s : State} {f : Frame} {fs : Ctx} {t : RB}
    (h : Rep s (plug (f :: fs) t)) : getColor s (some f.addr) = .ok f.color.toInt := by
  cases f with
  | L a c k r =>
    have h' : Rep s (plug fs (node a c k t r)) := h
    exact getColor_focus h'
  | R a c k l =>
    have h' : Rep s (plug fs (node a c k l t)) := h
    exact getColor_focus h'

theorem getParent_frame {s : State} {f : Frame} {fs : Ctx} {t : RB}
    (h : Rep s (plug (f :: fs) t)) : getParent s (some f.addr) = .ok (ctxPar fs) := by
  cases f with
  | L a c k r =>
    have h' : Rep s (plug fs (node a c k t r)) := h
    exact getParent_focus h'
  | R a c k l =>
    have h' : Rep s (plug fs (node a c k l t)) := h
    exact getParent_focus h'

theorem Color.toInt_ne_RED {c : Color} (h : c ≠ .red) : c.toInt ≠ RED := by
  cases c
  · exact absurd rfl h
  · simp [Color.toInt, RED, BLACK]

theorem insert_fixup_stop {s : State} {f : Frame} {fs : Ctx} {x : Nat} {cx : Color} {kx : Int}
    {l r : RB} (h : Rep s (plug (f :: fs) (node x cx kx l r))) (hc : f.color ≠ .red)
    (fuel : Nat) : insert_fixup (fuel + 1) s (some x) = .ok s := by
  have hroot : ¬ (some x = s.root) := by
    rw [h.root_eq_iff]; simp
  simp only [insert_fixup, hroot, if_false, getParent_focus h, ctxPar, bind_ok,
    getColor_frame h, Color.toInt_ne_RED hc, ne_eq, not_false_eq_true, if_true, pure_eq_ok]

theorem isRedPtr_spec {s : State} {ctx : Ctx} {t : RB} (h : Rep s (plug ctx t)) :
    isRedPtr s t.ptr = .ok t.isRed := by
  cases t with
  | nil => simp [isRedPtr, RB.isRed]
  | node a c k l r =>
    simp only [isRedPtr, ptr_node, reduceCtorEq, if_false, getColor_focus h, bind_ok, pure_eq_ok]
    cases c <;> simp [RB.isRed, Color.toInt, RED, BLACK]

@[simp] theorem Frame.addr_L (a c k r) : (Frame.L a c k r).addr = a := rfl
@[simp] theorem Frame.addr_R (a c k l) : (Frame.R a c k l).addr = a := rfl
@[simp] theorem Frame.color_L (a c k r) : (Frame.L a c k r).color = c := rfl
@[simp] theorem Frame.color_R (a c k l) : (Frame.R a c k l).color = c := rfl
@[simp] theorem Frame.sib_L (a c k r) : (Frame.L a c k r).sib = r := rfl
@[simp] theorem Frame.sib_R (a c k l) : (Frame.R a c k l).sib = l := rfl
@[simp] theorem Frame.fill_L (a c k r t) : (Frame.L a c k r).fill t = node a c k t r := rfl
@[simp] theorem Frame.fill_R (a c k l t) : (Frame.R a c k l).fill t = node a c k l t := rfl
@[simp] theorem Frame.paint_L (a c k r c') : (Frame.L a c k r).paint c' = .L a c' k r := rfl
@[simp] theorem Frame.paint_R (a c k l c') : (Frame.R a c k l).paint c' = .R a c' k l := rfl
@[simp] theorem ctxPar_nil : ctxPar [] = none := rfl
@[simp] theorem ctxPar_cons (f : Frame) (fs : Ctx) : ctxPar (f :: fs) = some f.addr := rfl
@[simp] theorem plug_nil (t : RB) : plug [] t = t := rfl
theorem plug_cons (f : Frame) (fs : Ctx) (t : RB) : plug (f :: fs) t = plug fs (f.fill t) := rfl
@[simp] theorem toInt_red : Color.red.toInt = RED := rfl
@[simp] theorem toInt_black : Color.black.toInt = BLACK := rfl

theorem Frame.fill_ptr (f : Frame) (t : RB) : (f.fill t).ptr = some f.addr := by
  cases f <;> rfl

@[simp] theorem Frame.paint_addr (f : Frame) (c : Color) : (f.paint c).addr = f.addr := by
  cases f <;> rfl

theorem setColor_frame {s : State} {f : Frame} {fs : Ctx} {t : RB}
    (h : Rep s (plug (f :: fs) t)) (c' : Color) :
    Ends (setColor s (some f.addr) c'.toInt) (fun s' =>
      Rep s' (plug (f.paint c' :: fs) t) ∧ s'.next = s.next
      ∧ ∀ d, d ≠ f.addr → s'.mem d = s.mem d) := by
  cases f with
  | L a c k r =>
    have h' : Rep s (plug fs (node a c k t r)) := h
    exact setColor_spec h' c'
  | R a c k l =>
    have h' : Rep s (plug fs (node a c k l t)) := h
    exact setColor_spec h' c'

theorem RB.isRed_iff {t : RB} : t.isRed = true ↔ ∃ a k l r, t = node a .red k l r := by
  cases t with
  | nil => simp [RB.isRed]
  | node a c k l r => cases c <;> simp [RB.isRed]

theorem Rep.sib_ptr_ne {s : State} {f : Frame} {fs : Ctx} {x : Nat} {cx : Color} {kx : Int}
    {l r : RB} (h : Rep s (plug (f :: fs) (node x cx kx l r))) : some x ≠ f.sib.ptr := by
  have := h.not_mem_ctx x (by simp [RB.addrs])
  simp only [ctxAddrs, Frame.addrs_eq, List.mem_append, List.mem_cons, not_or] at this
  exact Ne.symm (ptr_ne_of_not_mem this.1.2)

theorem Rep.sib_ptr_ne' {s : State} {f : Frame} {fs : Ctx} {t : RB} {a : Nat}
    (h : Rep s (plug (f :: fs) t)) (ht : t.ptr = some a) : some a ≠ f.sib.ptr := by
  cases t with
  | nil => simp at ht
  | node x cx kx l r =>
    simp only [ptr_node, Option.some.injEq] at ht
    subst ht
    exact h.sib_ptr_ne

theorem insert_fixup_spec : ∀ (fuel : Nat) (ctx : Ctx) (x : Nat) (cx : Color) (kx : Int)
    (l r : RB) (s : State) (T : RB),
    Rep s (plug ctx (node x cx kx l r)) → ctx.length + 2 ≤ fuel →
    insFix (node x cx kx l r) ctx = some T →
    Ends (insert_fixup fuel s (some x)) (fun s' => Rep s' T ∧ s'.next = s.next) := by
  intro fuel
  induction fuel with
  | zero => intro ctx x cx kx l r s T _ hf; omega
  | succ fuel ih =>
    intro ctx x cx kx l r s T h hf hT
    rcases ctx with _ | ⟨fp, _ | ⟨fg, rest⟩⟩
    · have hr : some x = s.root := h.root_eq_iff.2 rfl
      simp only [insert_fixup, hr, if_true, pure_eq_ok]
      simp only [insFix, Option.some.injEq] at hT
      subst hT
      exact ⟨h, rfl⟩
    · simp only [insFix] at hT
      by_cases hc : fp.color = .red
      · simp [hc] at hT
      · simp only [hc, if_false, Option.some.injEq] at hT
        subst hT
        rw [insert_fixup_stop h hc]
        exact ⟨h, rfl⟩
    · simp only [insFix] at hT
      by_cases hc : fp.color = .red
      swap
      · simp only [hc, if_false, Option.some.injEq] at hT
        subst hT
        rw [insert_fixup_stop h hc]
        exact ⟨h, rfl⟩
      simp only [hc, if_true] at hT
      have hroot : ¬ (some x = s.root) := by rw [h.root_eq_iff]; simp
      have hf3 : ∃ n, fuel = n + 1 := ⟨fuel - 1, by simp only [List.length_cons] at hf; omega⟩
      obtain ⟨fuel', rfl⟩ := hf3
      rcases fg with ⟨g, cg, kg, u⟩ | ⟨g, cg, kg, u⟩
      · -- the parent is the left child of the grandparent
        have hg : Rep s (plug rest (node g cg kg (fp.fill (node x cx kx l r)) u)) := h
        have hu : Rep s (plug (.R g cg kg (fp.fill (node x cx kx l r)) :: rest) u) := h
        rw [insert_fixup]
        simp only [hroot, if_false, getParent_focus h, ctxPar, bind_ok, getColor_frame h, hc,
          toInt_red, ne_eq, not_true_eq_false, getParent_frame h, Frame.addr_L, Frame.addr_R,
          getLeft_focus hg, Frame.fill_ptr, if_true, getRight_focus hg, isRedPtr_spec hu]
        by_cases hur : u.isRed = true
        · obtain ⟨ua, ku, ul, ur, rfl⟩ := RB.isRed_iff.1 hur
          simp only [insStep, hur, if_true] at hT
          simp only [hur, if_true, ptr_node]
          refine Ends_bind (setColor_spec hu .black) ?_
          rintro s1 ⟨h1, hn1, -⟩
          have h1x : Rep s1 (plug (fp :: .L g cg kg (node ua .black ku ul ur) :: rest)
            (node x cx kx l r)) := h1
          simp only [getParent_focus h1x, ctxPar, bind_ok]
          refine Ends_bind (setColor_frame h1x .black) ?_
          rintro s2 ⟨h2, hn2, -⟩
          have hgp2 : getParent s2 (some fp.addr) = .ok (some g) := by
            simpa using getParent_frame h2
          simp only [getParent_focus h2, ctxPar, bind_ok, hgp2, Frame.paint_addr]
          have h2g : Rep s2 (plug rest (node g cg kg ((fp.paint .black).fill (node x cx kx l r))
            (node ua .black ku ul ur))) := h2
          refine Ends_bind (setColor_spec h2g .red) ?_
          rintro s3 ⟨h3, hn3, -⟩
          have h3x : Rep s3 (plug (fp.paint .black :: .L g .red kg (node ua .black ku ul ur) :: rest)
            (node x cx kx l r)) := h3
          have hgp3 : getParent s3 (some fp.addr) = .ok (some g) := by
            simpa using getParent_frame h3x
          simp only [getParent_focus h3x, ctxPar, bind_ok, hgp3, Frame.paint_addr]
          refine Ends_mono (ih rest g .red kg _ _ s3 T h3 ?_ hT) ?_
          · simp only [List.length_cons] at hf; omega
          · rintro s4 ⟨h4, hn4⟩
            exact ⟨h4, by rw [hn4, hn3, hn2, hn1]⟩
        · simp only [hur, Bool.false_eq_true, if_false]
          simp only [insStep, hur, Bool.false_eq_true, if_false] at hT
          rcases fp with ⟨p, cp, kp, pr⟩ | ⟨p, cp, kp, pl⟩
          · -- the node is the left child of its parent
            simp only [Frame.color_L] at hc
            subst hc
            simp only [Option.some.injEq] at hT
            subst hT
            have hp : Rep s (plug (.L g cg kg u :: rest) (node p .red kp (node x cx kx l r) pr)) := h
            have hne : ¬ (some x = pr.ptr) := h.sib_ptr_ne
            simp only [getParent_focus h, ctxPar_cons, Frame.addr_L, bind_ok, getRight_focus hp,
              hne, if_false, pure_eq_ok]
            refine Ends_bind (setColor_spec hp .black) ?_
            rintro s1 ⟨h1, hn1, -⟩
            have h1x : Rep s1 (plug (.L p .black kp pr :: .L g cg kg u :: rest)
              (node x cx kx l r)) := h1
            have h1g : Rep s1 (plug rest (node g cg kg (node p .black kp (node x cx kx l r) pr) u)) := h1
            simp only [getParent_focus h1x, getParent_focus h1, ctxPar_cons, Frame.addr_L, bind_ok]
            refine Ends_bind (setColor_spec h1g .red) ?_
            rintro s2 ⟨h2, hn2, -⟩
            have h2x : Rep s2 (plug (.L p .black kp pr :: .L g .red kg u :: rest)
              (node x cx kx l r)) := h2
            have h2p : Rep s2 (plug (.L g .red kg u :: rest)
              (node p .black kp (node x cx kx l r) pr)) := h2
            simp only [getParent_focus h2x, getParent_focus h2p, ctxPar_cons, Frame.addr_L, bind_ok]
            refine Ends_bind (right_rotate_spec h2) ?_
            rintro s3 ⟨h3, hn3, -⟩
            have h3x : Rep s3 (plug (.L p .black kp (node g .red kg pr u) :: rest)
              (node x cx kx l r)) := h3
            rw [insert_fixup_stop h3x (by simp)]
            exact ⟨h3, by rw [hn3, hn2, hn1]⟩
          · -- the node is the right child of its parent
            simp only [Frame.color_R] at hc
            subst hc
            simp only [Option.some.injEq] at hT
            subst hT
            have hp : Rep s (plug (.L g cg kg u :: rest) (node p .red kp pl (node x cx kx l r))) := h
            simp only [getParent_focus h, ctxPar_cons, Frame.addr_R, bind_ok, getRight_focus hp,
              ptr_node, if_true]
            refine Ends_bind (left_rotate_spec hp) ?_
            rintro s1 ⟨h1, hn1, -⟩
            have h1p : Rep s1 (plug (.L x cx kx r :: .L g cg kg u :: rest)
              (node p .red kp pl l)) := h1
            simp only [pure_eq_ok, bind_ok, getParent_focus h1p, ctxPar_cons, Frame.addr_L]
            refine Ends_bind (setColor_spec h1 .black) ?_
            rintro s2 ⟨h2, hn2, -⟩
            have h2p : Rep s2 (plug (.L x .black kx r :: .L g cg kg u :: rest)
              (node p .red kp pl l)) := h2
            have h2g : Rep s2 (plug rest (node g cg kg (node x .black kx (node p .red kp pl l) r) u)) := h2
            simp only [getParent_focus h2p, getParent_focus h2, ctxPar_cons, Frame.addr_L, bind_ok]
            refine Ends_bind (setColor_spec h2g .red) ?_
            rintro s3 ⟨h3, hn3, -⟩
            have h3p : Rep s3 (plug (.L x .black kx r :: .L g .red kg u :: rest)
              (node p .red kp pl l)) := h3
            have h3x : Rep s3 (plug (.L g .red kg u :: rest)
              (node x .black kx (node p .red kp pl l) r)) := h3
            simp only [getParent_focus h3p, getParent_focus h3x, ctxPar_cons, Frame.addr_L, bind_ok]
            refine Ends_bind (right_rotate_spec h3) ?_
            rintro s4 ⟨h4, hn4, -⟩
            have h4p : Rep s4 (plug (.L x .black kx (node g .red kg r u) :: rest)
              (node p .red kp pl l)) := h4
            rw [insert_fixup_stop h4p (by simp)]
            exact ⟨h4, by rw [hn4, hn3, hn2, hn1]⟩
      · -- the parent is the right child of the grandparent
        have hg : Rep s (plug rest (node g cg kg u (fp.fill (node x cx kx l r)))) := h
        have hu : Rep s (plug (.L g cg kg (fp.fill (node x cx kx l r)) :: rest) u) := h
        have hR : Rep s (plug (.R g cg kg u :: rest) (fp.fill (node x cx kx l r))) := h
        have hpu : ¬ (some fp.addr = u.ptr) := Rep.sib_ptr_ne' hR (Frame.fill_ptr fp _)
        rw [insert_fixup]
        simp only [hroot, if_false, getParent_focus h, ctxPar, bind_ok, getColor_frame h, hc,
          toInt_red, ne_eq, not_true_eq_false, getParent_frame h, Frame.addr_L, Frame.addr_R,
          getLeft_focus hg, hpu, isRedPtr_spec hu]
        by_cases hur : u.isRed = true
        · obtain ⟨ua, ku, ul, ur, rfl⟩ := RB.isRed_iff.1 hur
          simp only [insStep, hur, if_true] at hT
          simp only [hur, if_true, ptr_node]
          refine Ends_bind (setColor_spec hu .black) ?_
          rintro s1 ⟨h1, hn1, -⟩
          have h1x : Rep s1 (plug (fp :: .R g cg kg (node ua .black ku ul ur) :: rest)
            (node x cx kx l r)) := h1
          simp only [getParent_focus h1x, ctxPar, bind_ok]
          refine Ends_bind (setColor_frame h1x .black) ?_
          rintro s2 ⟨h2, hn2, -⟩
          have hgp2 : getParent s2 (some fp.addr) = .ok (some g) := by
            simpa using getParent_frame h2
          simp only [getParent_focus h2, ctxPar, bind_ok, hgp2, Frame.paint_addr]
          have h2g : Rep s2 (plug rest (node g cg kg (node ua .black ku ul ur)
            ((fp.paint .black).fill (node x cx kx l r)))) := h2
          refine Ends_bind (setColor_spec h2g .red) ?_
          rintro s3 ⟨h3, hn3, -⟩
          have h3x : Rep s3 (plug (fp.paint .black :: .R g .red kg (node ua .black ku ul ur) :: rest)
            (node x cx kx l r)) := h3
          have hgp3 : getParent s3 (some fp.addr) = .ok (some g) := by
            simpa using getParent_frame h3x
          simp only [getParent_focus h3x, ctxPar, bind_ok, hgp3, Frame.paint_addr]
          refine Ends_mono (ih rest g .red kg _ _ s3 T h3 ?_ hT) ?_
          · simp only [List.length_cons] at hf; omega
          · rintro s4 ⟨h4, hn4⟩
            exact ⟨h4, by rw [hn4, hn3, hn2, hn1]⟩
        · simp only [hur, Bool.false_eq_true, if_false]
          simp only [insStep, hur, Bool.false_eq_true, if_false] at hT
          rcases fp with ⟨p, cp, kp, pr⟩ | ⟨p, cp, kp, pl⟩
          · -- the node is the left child of its parent
            simp only [Frame.color_L] at hc
            subst hc
            simp only [Option.some.injEq] at hT
            subst hT
            have hp : Rep s (plug (.R g cg kg u :: rest) (node p .red kp (node x cx kx l r) pr)) := h
            simp only [getParent_focus h, ctxPar_cons, Frame.addr_L, bind_ok, getLeft_focus hp,
              ptr_node, if_true]
            refine Ends_bind (right_rotate_spec hp) ?_
            rintro s1 ⟨h1, hn1, -⟩
            have h1p : Rep s1 (plug (.R x cx kx l :: .R g cg kg u :: rest)
              (node p .red kp r pr)) := h1
            simp only [pure_eq_ok, bind_ok, getParent_focus h1p, ctxPar_cons, Frame.addr_R]
            refine Ends_bind (setColor_spec h1 .black) ?_
            rintro s2 ⟨h2, hn2, -⟩
            have h2p : Rep s2 (plug (.R x .black kx l :: .R g cg kg u :: rest)
              (node p .red kp r pr)) := h2
            have h2g : Rep s2 (plug rest (node g cg kg u (node x .black kx l (node p .red kp r pr)))) := h2
            simp only [getParent_focus h2p, getParent_focus h2, ctxPar_cons, Frame.addr_R, bind_ok]
            refine Ends_bind (setColor_spec h2g .red) ?_
            rintro s3 ⟨h3, hn3, -⟩
            have h3p : Rep s3 (plug (.R x .black kx l :: .R g .red kg u :: rest)
              (node p .red kp r pr)) := h3
            have h3x : Rep s3 (plug (.R g .red kg u :: rest)
              (node x .black kx l (node p .red kp r pr))) := h3
            simp only [getParent_focus h3p, getParent_focus h3x, ctxPar_cons, Frame.addr_R, bind_ok]
            refine Ends_bind (left_rotate_spec h3) ?_
            rintro s4 ⟨h4, hn4, -⟩
            have h4p : Rep s4 (plug (.R x .black kx (node g .red kg u l) :: rest)
              (node p .red kp r pr)) := h4
            rw [insert_fixup_stop h4p (by simp)]
            exact ⟨h4, by rw [hn4, hn3, hn2, hn1]⟩
          · -- the node is the right child of its parent
            simp only [Frame.color_R] at hc
            subst hc
            simp only [Option.some.injEq] at hT
            subst hT
            have hp : Rep s (plug (.R g cg kg u :: rest) (node p .red kp pl (node x cx kx l r))) := h
            have hne : ¬ (some x = pl.ptr) := h.sib_ptr_ne
            simp only [getParent_focus h, ctxPar_cons, Frame.addr_R, bind_ok, getLeft_focus hp,
              hne, if_false, pure_eq_ok]
            refine Ends_bind (setColor_spec hp .black) ?_
            rintro s1 ⟨h1, hn1, -⟩
            have h1x : Rep s1 (plug (.R p .black kp pl :: .R g cg kg u :: rest)
              (node x cx kx l r)) := h1
            have h1g : Rep s1 (plug rest (node g cg kg u (node p .black kp pl (node x cx kx l r)))) := h1
            simp only [getParent_focus h1x, getParent_focus h1, ctxPar_cons, Frame.addr_R, bind_ok]
            refine Ends_bind (setColor_spec h1g .red) ?_
            rintro s2 ⟨h2, hn2, -⟩
            have h2x : Rep s2 (plug (.R p .black kp pl :: .R g .red kg u :: rest)
              (node x cx kx l r)) := h2
            have h2p : Rep s2 (plug (.R g .red kg u :: rest)
              (node p .black kp pl (node x cx kx l r))) := h2
            simp only [getParent_focus h2x, getParent_focus h2p, ctxPar_cons, Frame.addr_R, bind_ok]
            refine Ends_bind (left_rotate_spec h2) ?_
            rintro s3 ⟨h3, hn3, -⟩
            have h3x : Rep s3 (plug (.R p .black kp (node g .red kg u pl) :: rest)
              (node x cx kx l r)) := h3
            rw [insert_fixup_stop h3x (by simp)]
            exact ⟨h3, by rw [hn3, hn2, hn1]⟩

theorem zoom_nil (k : Int) (ctx : Ctx) : zoom k .nil ctx = (ctx, .nil) := rfl

theorem zoom_length (k : Int) (t : RB) :
    ∀ ctx : Ctx, (zoom k t ctx).1.length ≤ ctx.length + t.height := by
  induction t with
  | nil => intro ctx; simp [zoom]
  | node a c x l r ihl ihr =>
    intro ctx
    unfold zoom
    simp only [RB.height]
    split
    · have := ihl (.L a c x r :: ctx); simp only [List.length_cons] at this; omega
    · split
      · have := ihr (.R a c x l :: ctx); simp only [List.length_cons] at this; omega
      · simp

theorem zoom_side (k : Int) (t : RB) :
    ∀ ctx : Ctx, t ≠ .nil → (zoom k t ctx).2 = .nil →
      ∃ f fs, (zoom k t ctx).1 = f :: fs
        ∧ ((∃ a c x r, f = .L a c x r ∧ k < x) ∨ (∃ a c x l, f = .R a c x l ∧ ¬ k < x)) := by
  induction t with
  | nil => intro ctx h; exact absurd rfl h
  | node a c x l r ihl ihr =>
    intro ctx _ hz
    unfold zoom at hz ⊢
    by_cases h1 : k < x
    · simp only [h1, if_true] at hz ⊢
      by_cases hl : l = .nil
      · subst hl
        exact ⟨_, _, rfl, Or.inl ⟨_, _, _, _, rfl, h1⟩⟩
      · exact ihl _ hl hz
    · simp only [h1, if_false] at hz ⊢
      by_cases h2 : x < k
      · simp only [h2, if_true] at hz ⊢
        by_cases hr : r = .nil
        · subst hr
          exact ⟨_, _, rfl, Or.inr ⟨_, _, _, _, rfl, h1⟩⟩
        · exact ihr _ hr hz
      · simp only [h2, if_false] at hz
        cases hz

theorem plug_is_node (ctx : Ctx) : ∀ t : RB, t ≠ .nil → plug ctx t ≠ .nil := by
  induction ctx with
  | nil => intro t h; exact h
  | cons f fs ih =>
    intro t _
    rw [plug_cons]
    exact ih _ (by cases f <;> simp)

theorem ctx_two_step {P : Ctx → Prop} (h0 : P []) (h1 : ∀ f, P [f])
    (h2 : ∀ fp fg rest, P rest → P (fp :: fg :: rest)) : ∀ ctx, P ctx := by
  intro ctx
  have : ∀ n, ∀ c : Ctx, c.length ≤ n → P c := by
    intro n
    induction n with
    | zero =>
      intro c hc
      cases c with
      | nil => exact h0
      | cons f fs => simp at hc
    | succ n ih =>
      intro c hc
      rcases c with _ | ⟨fp, _ | ⟨fg, rest⟩⟩
      · exact h0
      · exact h1 fp
      · exact h2 fp fg rest (ih rest (by simp only [List.length_cons] at hc; omega))
  exact this ctx.length ctx (Nat.le_refl _)

theorem insStep_ne_nil {t : RB} {fp fg : Frame} {b : Bool} {t' : RB}
    (h : insStep t fp fg = some (b, t')) : t' ≠ .nil := by
  unfold insStep at h
  rcases fg with ⟨g, cg, kg, u⟩ | ⟨g, cg, kg, u⟩ <;> simp only at h <;> split at h
  · cases h; simp
  · split at h <;> cases h <;> simp
  · cases h; simp
  · split at h <;> cases h <;> simp

theorem insFix_ne_nil : ∀ (ctx : Ctx) (t T : RB), t ≠ .nil → insFix t ctx = some T → T ≠ .nil := by
  intro ctx
  induction ctx using ctx_two_step with
  | h0 => intro t T ht h; simp only [insFix, Option.some.injEq] at h; subst h; exact ht
  | h1 f =>
    intro t T _ h
    simp only [insFix] at h
    split at h
    · cases h
    · cases h; cases f <;> simp
  | h2 fp fg rest ih =>
    intro t T ht h
    simp only [insFix] at h
    split at h
    · split at h
      · cases h
      · rename_i t' he
        exact ih t' T (insStep_ne_nil he) h
      · rename_i t' he
        cases h
        exact plug_is_node _ _ (insStep_ne_nil he)
    · cases h
      exact plug_is_node _ _ ht

theorem Returns_iff {r : Except Fault (Int × State)} {P : Int → State → Prop} :
    Returns r P ↔ ∃ st s, r = .ok (st, s) ∧ P st s := by
  rcases r with e | ⟨st, s⟩
  · simp [Returns]
  · simp only [Returns, Except.ok.injEq, Prod.mk.injEq]
    constructor
    · intro h; exact ⟨st, s, ⟨rfl, rfl⟩, h⟩
    · rintro ⟨st', s', ⟨rfl, rfl⟩, h⟩; exact h

theorem Returns_mono {r : Except Fault (Int × State)} {P Q : Int → State → Prop}
    (h : Returns r P) (hPQ : ∀ st s, P st s → Q st s) : Returns r Q := by
  rcases r with e | ⟨st, s⟩
  · exact h
  · exact hPQ st s h

theorem ctx_length_le (ctx : Ctx) : ctx.length ≤ (ctxAddrs ctx).length := by
  induction ctx with
  | nil => simp [ctxAddrs]
  | cons f fs ih => simp only [ctxAddrs, Frame.addrs_eq, List.length_cons, List.length_append]; omega

theorem Rep.ctx_length_lt {s : State} {ctx : Ctx} {t : RB} (h : Rep s (plug ctx t)) :
    ctx.length + t.size ≤ s.next := by
  obtain ⟨-, -, -, hnd, hbd⟩ := (Rep_plug_iff s ctx t).1 h
  have := nodup_bounded_length _ _ hnd hbd
  have h2 := ctx_length_le ctx
  simp only [List.length_append, RB.addrs_length] at this
  omega

theorem insert_node_dup {s : State} {t : RB} {k : Int} (h : Rep s t)
    (hz : (zoom k t []).2 ≠ .nil) : insert_node s k = .ok (DUPLICATE, s) := by
  have hd := insert_descend_spec k t [] s (s.next + 1) h (by have := h.height_le; omega)
  rw [← h.1, ctxPar_nil] at hd
  simp only [insert_node, hd, bind_ok]
  cases hzz : (zoom k t []).2 with
  | nil => exact absurd hzz hz
  | node a c x l r => simp

theorem insert_node_new {s : State} {t T : RB} {k : Int} (h : Rep s t)
    (hz : (zoom k t []).2 = .nil) (hT : insertT s.next k t = some T) :
    Returns (insert_node s k) (fun st s' => st = SUCCESS ∧ Rep s' T ∧ s'.next = s.next + 1) := by
  have hd := insert_descend_spec k t [] s (s.next + 1) h (by have := h.height_le; omega)
  rw [← h.1, ctxPar_nil] at hd
  simp only [insert_node, hd, bind_ok, hz, create_node]
  rcases t with _ | ⟨a, c, x, l, r⟩
  · -- empty tree
    have hroot : s.root = none := h.1
    simp only [insertT, zoom_nil, Option.some.injEq] at hT
    subst hT
    simp only [hroot, if_true, setColor, modify, Function.update_same, bind_ok, pure_eq_ok,
      Returns, store, setRoot, Function.update_idem, true_and, and_true]
    refine ⟨rfl, ?_, ?_, ?_⟩
    · simp [Shape, BLACK, Color.toInt]
    · simp [RB.addrs]
    · simp [RB.addrs]
  · obtain ⟨f, fs, hctx, hside⟩ := zoom_side k _ [] (by simp) hz
    have hroot : s.root ≠ none := by rw [h.1]; simp
    have hp : Rep s (plug (f :: fs) .nil) := by
      rw [← hctx, ← hz, zoom_plug]; exact h
    simp only [insertT, hctx] at hT
    obtain ⟨T', hT', rfl⟩ := Option.map_eq_some'.1 hT
    have hlen : (f :: fs).length ≤ s.next := by
      have := hp.ctx_length_lt; omega
    obtain ⟨hroot', hsctx, -, hnd, hbd⟩ := (Rep_plug_iff s _ _).1 hp
    have hfa : f.addr < s.next := hbd f.addr (by simp [RB.addrs, ctxAddrs, Frame.addrs_eq])
    have hfne : f.addr ≠ s.next := Nat.ne_of_lt hfa
    have hnew : s.next ∉ ctxAddrs (f :: fs) := fun hm =>
      absurd (hbd s.next (by simp [RB.addrs, hm])) (Nat.lt_irrefl _)
    have hfc := hsctx.1
    -- the state after the new node is linked to its parent
    have hatt : ∀ s3 : State, s3.next = s.next + 1 → s3.root = s.root →
        s3.mem s.next = some ⟨k, RED, none, none, some f.addr⟩ →
        s3.mem f.addr = some (f.cell (some s.next) (ctxPar fs)) →
        (∀ d, d ≠ s.next → d ≠ f.addr → s3.mem d = s.mem d) →
        Returns (do
          let s ← insert_fixup (s.next + 1 + 1) s3 (some s.next)
          let s ← setColor s s.root BLACK
          pure (SUCCESS, s)) (fun st s' => st = SUCCESS ∧ Rep s' (T'.paint .black)
            ∧ s'.next = s.next + 1) := by
      intro s3 hn3 hr3 hm3 hf3 hfr3
      have h3 : Rep s3 (plug (f :: fs) (node s.next .red k .nil .nil)) := by
        refine Rep.replace_gen hp ?_ ?_ ?_ ?_ ?_ ?_
        · rw [hr3, hroot']; rfl
        · simpa [RB.addrs] using ⟨hnew, by simpa [RB.addrs] using hnd⟩
        · intro d hd
          simp only [RB.addrs, List.nil_append, List.cons_append, List.mem_cons] at hd
          rcases hd with rfl | hd
          · omega
          · have := hbd d (by simp [RB.addrs, hd]); omega
        · simp [Shape, hm3]
        · rintro f' fs' e
          cases e
          exact hf3
        · intro d hd hne
          simp only [ctxPar_cons, ne_eq, Option.some.injEq] at hne
          exact hfr3 d (fun e => hnew (e ▸ hd)) hne
      refine Ends_bind_returns (insert_fixup_spec _ _ _ _ _ _ _ _ T' h3 (by simp only [List.length_cons] at hlen ⊢; omega) hT') ?_
      rintro s4 ⟨h4, hn4⟩
      obtain ⟨ra, rc, rk, rl, rr, rfl⟩ : ∃ ra rc rk rl rr, T' = node ra rc rk rl rr := by
        have := insFix_ne_nil _ _ _ (by simp) hT'
        cases T' with
        | nil => exact absurd rfl this
        | node ra rc rk rl rr => exact ⟨_, _, _, _, _, rfl⟩
      have h4' : Rep s4 (plug [] (node ra rc rk rl rr)) := h4
      have hr4 : s4.root = some ra := h4.1
      rw [hr4]
      refine Ends_bind_returns (setColor_spec h4' .black) ?_
      rintro s5 ⟨h5, hn5, -⟩
      exact ⟨rfl, h5, by rw [hn5, hn4, hn3]⟩
    simp only [hroot, if_false, setParent, modify, Function.update_same, bind_ok, store,
      getData, load, Function.update_noteq hfne, hfc, ptr_nil, Except.map, hctx, ctxPar_cons,
      Function.update_idem]
    rcases hside with ⟨fa, fc, fx, fr, rfl, hlt⟩ | ⟨fa, fc, fx, fl, rfl, hlt⟩
    · simp only [Frame.cell, Frame.addr_L, ptr_nil] at hfne hfc ⊢
      simp only [hlt, if_true, setLeft, modify, Function.update_noteq hfne, hfc, store, bind_ok]
      refine hatt _ ?_ ?_ ?_ ?_ ?_
      · rfl
      · rfl
      · simp [Function.update_apply, hfne, Ne.symm hfne]
      · simp [Frame.cell]
      · intro d h1 h2
        simp only [Frame.addr_L, Frame.addr_R] at h2
        simp [Function.update_apply, h1, h2]
    · simp only [Frame.cell, Frame.addr_R, ptr_nil] at hfne hfc ⊢
      simp only [hlt, if_false, setRight, modify, Function.update_noteq hfne, hfc, store, bind_ok]
      refine hatt _ ?_ ?_ ?_ ?_ ?_
      · rfl
      · rfl
      · simp [Function.update_apply, hfne, Ne.symm hfne]
      · simp [Frame.cell]
      · intro d h1 h2
        simp only [Frame.addr_L, Frame.addr_R] at h2
        simp [Function.update_apply, h1, h2]

theorem zoom_not_mem (k : Int) (t : RB) :
    ∀ ctx : Ctx, k ∉ t.keys → (zoom k t ctx).2 = .nil := by
  induction t with
  | nil => intro ctx _; rfl
  | node a c x l r ihl ihr =>
    intro ctx hk
    simp only [RB.keys, List.mem_append, List.mem_cons, not_or] at hk
    unfold zoom
    split
    · exact ihl _ hk.1
    · split
      · exact ihr _ hk.2.2
      · rename_i h1 h2
        exact absurd (le_antisymm (not_lt.1 h2) (not_lt.1 h1)) hk.2.1

theorem zoom_mem (k : Int) (t : RB) :
    ∀ ctx : Ctx, t.bst → k ∈ t.keys → ∃ a c l r, (zoom k t ctx).2 = node a c k l r := by
  induction t with
  | nil => intro ctx _ hk; simp [RB.keys] at hk
  | node a c x l r ihl ihr =>
    intro ctx hb hk
    obtain ⟨hl, hr, hbl, hbr⟩ := hb
    simp only [RB.keys, List.mem_append, List.mem_cons] at hk
    unfold zoom
    by_cases h1 : k < x
    · simp only [h1, if_true]
      rcases hk with hk | hk | hk
      · exact ihl _ hbl hk
      · omega
      · have := hr k hk; omega
    · simp only [h1, if_false]
      by_cases h2 : x < k
      · simp only [h2, if_true]
        rcases hk with hk | hk | hk
        · have := hl k hk; omega
        · omega
        · exact ihr _ hbr hk
      · simp only [h2, if_false]
        have : k = x := by omega
        subst this
        exact ⟨_, _, _, _, rfl⟩

theorem delete_descend_spec (k : Int) (t : RB) :
    ∀ (ctx : Ctx) (s : State) (fuel : Nat), Rep s (plug ctx t) → t.height < fuel →
      delete_descend fuel s k t.ptr = .ok (zoom k t ctx).2.ptr := by
  induction t with
  | nil =>
    intro ctx s fuel _ hf
    cases fuel with
    | zero => simp at hf
    | succ fuel => simp [delete_descend, zoom]
  | node a c x l r ihl ihr =>
    intro ctx s fuel h hf
    cases fuel with
    | zero => simp at hf
    | succ fuel =>
      simp only [RB.height] at hf
      simp only [delete_descend, ptr_node, reduceCtorEq, if_false, getData_focus h, bind_ok,
        getLeft_focus h, getRight_focus h]
      unfold zoom
      by_cases h0 : x = k
      · subst h0
        simp
      · simp only [h0, if_false]
        by_cases h1 : k < x
        · simp only [h1, if_true]
          exact ihl (.L a c x r :: ctx) s fuel h (by omega)
        · have h2 : x < k := by omega
          simp only [h1, if_false, h2, if_true]
          exact ihr (.R a c x l :: ctx) s fuel h (by omega)

theorem delete_node_absent {s : State} {t : RB} {k : Int} (h : Rep s t) (hk : k ∉ t.keys) :
    delete_node s k = .ok (if t = .nil then FAILURE else DATA_NOT_FOUND, s) := by
  rcases t with _ | ⟨a, c, x, l, r⟩
  · have hroot : s.root = none := h.1
    simp [delete_node, hroot]
  · have hroot : s.root ≠ none := by rw [h.1]; simp
    have hd := delete_descend_spec k _ [] s (s.next + 1) h (by have := h.height_le; omega)
    rw [← h.1, zoom_not_mem k _ [] hk] at hd
    simp [delete_node, hroot, hd]

theorem bind_eq_ok {α β : Type} {x : Except Fault α} {f : α → Except Fault β} {b : β} :
    (x >>= f) = .ok b ↔ ∃ a, x = .ok a ∧ f a = .ok b := by
  cases x <;> simp

theorem delete_node_status {s s' : State} {k st : Int}
    (h : delete_node s k = .ok (st, s')) :
    st = SUCCESS ∨ st = FAILURE ∨ st = DATA_NOT_FOUND := by
  unfold delete_node at h
  split at h
  · simp only [pure_eq_ok, Except.ok.injEq, Prod.mk.injEq] at h
    exact Or.inr (Or.inl h.1.symm)
  · obtain ⟨temp, -, h⟩ := bind_eq_ok.1 h
    split at h
    · simp only [pure_eq_ok, Except.ok.injEq, Prod.mk.injEq] at h
      exact Or.inr (Or.inr h.1.symm)
    · obtain ⟨⟨s1, td⟩, -, h⟩ := bind_eq_ok.1 h
      simp only [bind_eq_ok] at h
      obtain ⟨_, -, _, -, _, -, _, -, _, -, h⟩ := h
      simp only [pure_eq_ok, Except.ok.injEq, Prod.mk.injEq] at h
      exact Or.inl h.1.symm

/-! ### Keys and order -/

theorem keys_plug (ctx : Ctx) :
    ∀ t : RB, (plug ctx t).keys = ctxLeft ctx ++ t.keys ++ ctxRight ctx := by
  induction ctx with
  | nil => intro t; simp [ctxLeft, ctxRight]
  | cons f fs ih =>
    intro t
    rw [plug_cons, ih]
    cases f <;> simp [ctxLeft, ctxRight, RB.keys]

@[simp] theorem keys_paint (t : RB) (c : Color) : (t.paint c).keys = t.keys := by
  cases t <;> rfl

@[simp] theorem keys_fill_paint (f : Frame) (c : Color) (t : RB) :
    ((f.paint c).fill t).keys = (f.fill t).keys := by
  cases f <;> rfl

theorem bst_iff_pairwise (t : RB) : t.bst ↔ t.keys.Pairwise (· < ·) := by
  induction t with
  | nil => simp [RB.bst, RB.keys]
  | node a c k l r ihl ihr =>
    simp only [RB.bst, RB.keys, List.pairwise_append, List.pairwise_cons, ihl, ihr,
      List.mem_cons]
    constructor
    · rintro ⟨h1, h2, h3, h4⟩
      refine ⟨h3, ⟨h2, h4⟩, ?_⟩
      rintro x hx y (rfl | hy)
      · exact h1 x hx
      · exact lt_trans (h1 x hx) (h2 y hy)
    · rintro ⟨h1, ⟨h2, h3⟩, h4⟩
      exact ⟨fun x hx => h4 x hx k (Or.inl rfl), h2, h1, h3⟩

theorem insStep_keys {t : RB} {fp fg : Frame} {b : Bool} {t' : RB}
    (h : insStep t fp fg = some (b, t')) : t'.keys = (fg.fill (fp.fill t)).keys := by
  unfold insStep at h
  rcases fg with ⟨g, cg, kg, u⟩ | ⟨g, cg, kg, u⟩ <;> simp only at h <;> split at h
  · cases h; simp [RB.keys]
  · split at h <;> cases h <;> simp [RB.keys]
  · cases h; simp [RB.keys]
  · split at h <;> cases h <;> simp [RB.keys]

theorem insFix_keys : ∀ (ctx : Ctx) (t T : RB), insFix t ctx = some T →
    T.keys = (plug ctx t).keys := by
  intro ctx
  induction ctx using ctx_two_step with
  | h0 => intro t T h; simp only [insFix, Option.some.injEq] at h; subst h; rfl
  | h1 f =>
    intro t T h
    simp only [insFix] at h
    split at h
    · cases h
    · cases h; rfl
  | h2 fp fg rest ih =>
    intro t T h
    simp only [insFix] at h
    split at h
    · split at h
      · cases h
      · rename_i t' he
        rw [ih t' T h, keys_plug, insStep_keys he, plug_cons, plug_cons, keys_plug]
      · rename_i t' he
        cases h
        rw [keys_plug, insStep_keys he, plug_cons, plug_cons, keys_plug]
    · cases h
      rfl

theorem lastBlack_tail {fp fg : Frame} {rest : Ctx} (h : lastBlack (fp :: fg :: rest)) :
    lastBlack rest := by
  induction rest generalizing fp fg with
  | nil => trivial
  | cons f fs ih =>
    cases fs with
    | nil => exact h
    | cons f2 fs2 => exact @ih fg f h

theorem insFix_some : ∀ (ctx : Ctx) (t : RB), t ≠ .nil → lastBlack ctx →
    ∃ T, insFix t ctx = some T := by
  intro ctx
  induction ctx using ctx_two_step with
  | h0 => intro t _ _; exact ⟨t, rfl⟩
  | h1 f =>
    intro t _ hb
    have : f.color = .black := hb
    exact ⟨f.fill t, by simp [insFix, this]⟩
  | h2 fp fg rest ih =>
    intro t ht hb
    simp only [insFix]
    split
    · have hstep : ∃ b t', insStep t fp fg = some (b, t') := by
        unfold insStep
        rcases fg with ⟨g, cg, kg, u⟩ | ⟨g, cg, kg, u⟩ <;> simp only <;> split
        · exact ⟨_, _, rfl⟩
        · rcases fp with ⟨p, cp, kp, pr⟩ | ⟨p, cp, kp, pl⟩
          · exact ⟨_, _, rfl⟩
          · cases t with
            | nil => exact absurd rfl ht
            | node x cx kx xl xr => exact ⟨_, _, rfl⟩
        · exact ⟨_, _, rfl⟩
        · rcases fp with ⟨p, cp, kp, pr⟩ | ⟨p, cp, kp, pl⟩
          · cases t with
            | nil => exact absurd rfl ht
            | node x cx kx xl xr => exact ⟨_, _, rfl⟩
          · exact ⟨_, _, rfl⟩
      obtain ⟨b, t', he⟩ := hstep
      rw [he]
      cases b
      · exact ⟨_, rfl⟩
      · exact ih t' (insStep_ne_nil he) (lastBlack_tail hb)
    · exact ⟨_, rfl⟩

theorem zoom_bounds (k : Int) (t : RB) :
    ∀ ctx : Ctx, t.bst → (∀ x ∈ ctxLeft ctx, x < k) → (∀ x ∈ ctxRight ctx, k < x) →
      (∀ x ∈ ctxLeft (zoom k t ctx).1, x < k) ∧ (∀ x ∈ ctxRight (zoom k t ctx).1, k < x) := by
  induction t with
  | nil => intro ctx _ hl hr; exact ⟨hl, hr⟩
  | node a c x l r ihl ihr =>
    intro ctx hb hl hr
    obtain ⟨h1, h2, hbl, hbr⟩ := hb
    unfold zoom
    split
    · rename_i hk
      refine ihl _ hbl hl ?_
      intro y hy
      simp only [ctxRight, List.cons_append, List.mem_cons, List.mem_append] at hy
      rcases hy with rfl | hy | hy
      · exact hk
      · exact lt_trans hk (h2 y hy)
      · exact hr y hy
    · split
      · rename_i hk
        refine ihr _ hbr ?_ hr
        intro y hy
        simp only [ctxLeft, List.mem_append, List.mem_singleton] at hy
        rcases hy with hy | hy | rfl
        · exact hl y hy
        · exact lt_trans (h1 y hy) hk
        · exact hk
      · exact ⟨hl, hr⟩

theorem rootBlack_plug (ctx : Ctx) : ∀ t : RB, ctx ≠ [] →
    ((plug ctx t).rootBlack ↔ lastBlack ctx) := by
  induction ctx with
  | nil => intro t h; exact absurd rfl h
  | cons f fs ih =>
    intro t _
    rw [plug_cons]
    cases fs with
    | nil =>
      simp only [plug_nil, lastBlack, RB.rootBlack]
      rcases f with ⟨a, c, k, r⟩ | ⟨a, c, k, l⟩ <;> cases c <;> simp [RB.isRed]
    | cons f2 fs2 =>
      rw [ih _ (by simp)]
      rfl

theorem rootBlack_paint (t : RB) : (t.paint .black).rootBlack := by
  cases t <;> rfl

theorem pairwise_insert_mid {L R : List Int} {k : Int} (h : (L ++ R).Pairwise (· < ·))
    (hl : ∀ x ∈ L, x < k) (hr : ∀ x ∈ R, k < x) : (L ++ k :: R).Pairwise (· < ·) := by
  rw [List.pairwise_append] at h ⊢
  refine ⟨h.1, List.pairwise_cons.2 ⟨hr, h.2.1⟩, ?_⟩
  intro x hx y hy
  rcases List.mem_cons.1 hy with rfl | hy
  · exact hl x hx
  · exact h.2.2 x hx y hy

theorem insertT_ok {t : RB} {k : Int} (a : Nat) (hb : t.bst) (hr : t.rootBlack)
    (hz : (zoom k t []).2 = .nil) :
    ∃ T, insertT a k t = some T ∧ T.rootBlack ∧ T.bst
      ∧ (∃ L R, t.keys = L ++ R ∧ T.keys = L ++ k :: R ∧ (∀ x ∈ L, x < k) ∧ (∀ x ∈ R, k < x))
      ∧ (t = .nil → T = node a .black k .nil .nil) := by
  have hplug := zoom_plug k t []
  rw [hz, plug_nil] at hplug
  have hbd := zoom_bounds k t [] hb (by simp [ctxLeft]) (by simp [ctxRight])
  have hkeys : t.keys = ctxLeft (zoom k t []).1 ++ ctxRight (zoom k t []).1 := by
    have := keys_plug (zoom k t []).1 .nil
    rw [hplug] at this
    simpa [RB.keys] using this
  have hpw : (ctxLeft (zoom k t []).1 ++ ctxRight (zoom k t []).1).Pairwise (· < ·) := by
    rw [← hkeys]; exact (bst_iff_pairwise t).1 hb
  unfold insertT
  rcases hctx : (zoom k t []).1 with _ | ⟨f, fs⟩
  · rw [hctx] at hbd hkeys
    simp only [ctxLeft, ctxRight, List.append_nil] at hkeys
    refine ⟨_, rfl, rfl, ?_, ⟨[], [], ?_, ?_, ?_, ?_⟩, fun _ => rfl⟩
    · simp [RB.bst, RB.keys]
    · simpa using hkeys
    · simp [RB.keys]
    · simp
    · simp
  · rw [hctx] at hbd hkeys hplug hpw
    have hlb : lastBlack (f :: fs) := by
      rw [← rootBlack_plug (f :: fs) .nil (by simp), hplug]; exact hr
    obtain ⟨T', hT'⟩ := insFix_some (f :: fs) (node a .red k .nil .nil) (by simp) hlb
    have hk' : T'.keys = ctxLeft (f :: fs) ++ k :: ctxRight (f :: fs) := by
      rw [insFix_keys _ _ _ hT', keys_plug]; simp [RB.keys]
    refine ⟨T'.paint .black, by simp [hT'], rootBlack_paint _, ?_,
      ⟨_, _, hkeys, by rw [keys_paint, hk'], hbd.1, hbd.2⟩, ?_⟩
    · rw [bst_iff_pairwise, keys_paint, hk']
      exact pairwise_insert_mid hpw hbd.1 hbd.2
    · rintro rfl
      simp [zoom] at hctx

/-! ### The red-black invariants through an insertion -/

@[simp] theorem ctxColor_nil : ctxColor [] = .black := rfl
@[simp] theorem ctxColor_cons (f : Frame) (fs : Ctx) : ctxColor (f :: fs) = f.color := rfl

theorem plug_rb (ctx : Ctx) : ∀ (t : RB) (h : Nat), CtxRB ctx h → t.balanced → t.noRedRed →
    t.bheight = h → (ctxColor ctx = .red → t.isRed = false) →
    (plug ctx t).balanced ∧ (plug ctx t).noRedRed := by
  induction ctx with
  | nil => intro t h _ hb hn _ _; exact ⟨hb, hn⟩
  | cons f fs ih =>
    intro t h hc hb hn hh hr
    obtain ⟨h1, h2, h3, h4, h5⟩ := hc
    rw [plug_cons]
    rcases f with ⟨a, c, k, r⟩ | ⟨a, c, k, l⟩
    · simp only [Frame.sib_L, Frame.color_L, ctxColor_cons] at h1 h2 h3 h4 h5 hr
      refine ih _ _ h5 ⟨by rw [hh, h3], hb, h1⟩ ⟨fun hc => ⟨hr hc, (h4 hc).1⟩, hn, h2⟩ ?_ ?_
      · simp [RB.bheight, hh]
      · intro hf
        cases c
        · rw [(h4 rfl).2] at hf; cases hf
        · rfl
    · simp only [Frame.sib_R, Frame.color_R, ctxColor_cons] at h1 h2 h3 h4 h5 hr
      refine ih _ _ h5 ⟨by rw [hh, h3], h1, hb⟩ ⟨fun hc => ⟨(h4 hc).1, hr hc⟩, h2, hn⟩ ?_ ?_
      · simp [RB.bheight, h3]
      · intro hf
        cases c
        · rw [(h4 rfl).2] at hf; cases hf
        · rfl

theorem zoom_rb (k : Int) (t : RB) : ∀ (ctx : Ctx) (h : Nat), CtxRB ctx h → t.balanced →
    t.noRedRed → t.bheight = h → (ctxColor ctx = .red → t.isRed = false) →
    ∃ h', CtxRB (zoom k t ctx).1 h' ∧ (zoom k t ctx).2.balanced ∧ (zoom k t ctx).2.noRedRed
      ∧ (zoom k t ctx).2.bheight = h'
      ∧ (ctxColor (zoom k t ctx).1 = .red → (zoom k t ctx).2.isRed = false) := by
  induction t with
  | nil => intro ctx h hc hb hn hh hr; exact ⟨h, hc, hb, hn, hh, hr⟩
  | node a c x l r ihl ihr =>
    intro ctx h hc hb hn hh hr
    obtain ⟨hb1, hb2, hb3⟩ := hb
    obtain ⟨hn1, hn2, hn3⟩ := hn
    simp only [RB.bheight] at hh
    have hpar : c = .red → ctxColor ctx = .black := by
      rintro rfl
      cases hcc : ctxColor ctx
      · have := hr hcc; simp [RB.isRed] at this
      · rfl
    unfold zoom
    split
    · refine ihl _ l.bheight ⟨hb3, hn3, hb1.symm, fun hc' => ⟨(hn1 hc').2, hpar hc'⟩, ?_⟩
        hb2 hn2 rfl ?_
      · simp only [Frame.color_L]; rw [hh]; exact hc
      · intro hc'; exact (hn1 hc').1
    · split
      · refine ihr _ r.bheight ⟨hb2, hn2, hb1, fun hc' => ⟨(hn1 hc').1, hpar hc'⟩, ?_⟩
          hb3 hn3 rfl ?_
        · simp only [Frame.color_R]; rw [← hb1, hh]; exact hc
        · intro hc'; exact (hn1 hc').2
      · exact ⟨h, hc, ⟨hb1, hb2, hb3⟩, ⟨hn1, hn2, hn3⟩, hh, hr⟩

theorem balanced_paint (t : RB) (c : Color) : (t.paint c).balanced ↔ t.balanced := by
  cases t <;> simp [RB.paint, RB.balanced]

theorem noRedRed_paint_black (t : RB) (h : t.noRedRed) : (t.paint .black).noRedRed := by
  cases t with
  | nil => trivial
  | node a c k l r => exact ⟨by simp, h.2.1, h.2.2⟩

theorem isRed_false_of_ne {t : RB} (h : ¬ t.isRed = true) : t.isRed = false := by
  simpa using h

@[simp] theorem isRed_nil : RB.nil.isRed = false := rfl
@[simp] theorem isRed_red (a k l r) : (node a .red k l r).isRed = true := rfl
@[simp] theorem isRed_black (a k l r) : (node a .black k l r).isRed = false := rfl

theorem insStep_rb {x : Nat} {kx : Int} {xl xr : RB} {fp fg : Frame} {rest : Ctx} {h : Nat}
    {b : Bool} {t' : RB}
    (hc : CtxRB (fp :: fg :: rest) h) (hfp : fp.color = .red)
    (hb : (node x .red kx xl xr).balanced) (hn : (node x .red kx xl xr).noRedRed)
    (hh : (node x .red kx xl xr).bheight = h)
    (he : insStep (node x .red kx xl xr) fp fg = some (b, t')) :
    CtxRB rest (h + 1) ∧ t'.balanced ∧ t'.noRedRed ∧ t'.bheight = h + 1
      ∧ (b = true → t'.isRed = true) ∧ (b = false → t'.isRed = false) := by
  obtain ⟨p1, p2, p3, p4, g1, g2, g3, g4, hrest⟩ := hc
  obtain ⟨p5, p6⟩ := p4 hfp
  simp only [ctxColor_cons] at p6
  simp only [hfp, p6, reduceCtorEq, if_false, if_true, Nat.add_zero] at g3 hrest
  obtain ⟨hb1, hb2, hb3⟩ := hb
  obtain ⟨hn1, hn2, hn3⟩ := hn
  obtain ⟨hn4, hn5⟩ := hn1 rfl
  simp only [RB.bheight, reduceCtorEq, if_false, Nat.add_zero] at hh
  refine ⟨hrest, ?_⟩
  clear hrest g4 p4 hn1
  unfold insStep at he
  rcases fg with ⟨g, cg, kg, u⟩ | ⟨g, cg, kg, u⟩ <;>
    rcases fp with ⟨p, cp, kp, pr⟩ | ⟨p, cp, kp, pl⟩ <;>
    simp only [Frame.sib_L, Frame.sib_R, Frame.color_L, Frame.color_R] at hfp p1 p2 p3 p5 p6 g1 g2 g3 <;>
    subst hfp <;>
    by_cases hu : u.isRed = true
  all_goals first
    | (obtain ⟨ua, ku, ul, ur, rfl⟩ := RB.isRed_iff.1 hu
       simp only [isRed_red, if_true, Frame.paint_L, Frame.paint_R, Frame.fill_L, Frame.fill_R,
         RB.paint, Option.some.injEq, Prod.mk.injEq] at he
       obtain ⟨rfl, rfl⟩ := he
       simp only [RB.balanced, RB.noRedRed, RB.bheight, isRed_red, isRed_black, isRed_nil, reduceCtorEq, if_false,
         if_true, Nat.add_zero, true_implies] at g1 g2 g3 ⊢
       obtain ⟨g1a, g1b, g1c⟩ := g1
       obtain ⟨⟨g2a, g2b⟩, g2c, g2d⟩ := g2
       simp only [hb2, hb3, hn2, hn3, hn4, hn5, p1, p2, p5, g1b, g1c, g2a, g2b, g2c, g2d,
         and_self, true_and, and_true, implies_true, Bool.true_eq_false, imp_false,
         not_true_eq_false, reduceCtorEq, false_implies, not_false_eq_true]
       try omega)
    | (have hu' := isRed_false_of_ne hu
       simp only [hu', Bool.false_eq_true, if_false, Option.some.injEq, Prod.mk.injEq] at he
       obtain ⟨rfl, rfl⟩ := he
       simp only [RB.balanced, RB.noRedRed, RB.bheight, isRed_red, isRed_black, isRed_nil, reduceCtorEq, if_false,
         if_true, Nat.add_zero]
       simp only [hb2, hb3, hn2, hn3, hn4, hn5, p1, p2, p5, g1, g2, hu',
         and_self, true_and, and_true, implies_true, Bool.true_eq_false, imp_false,
         not_true_eq_false, reduceCtorEq, false_implies, Bool.false_eq_true, not_false_eq_true]
       try omega)

theorem insFix_rb : ∀ (ctx : Ctx) (x : Nat) (kx : Int) (xl xr T : RB) (h : Nat),
    CtxRB ctx h → (node x .red kx xl xr).balanced → (node x .red kx xl xr).noRedRed →
    (node x .red kx xl xr).bheight = h → insFix (node x .red kx xl xr) ctx = some T →
    T.balanced ∧ T.noRedRed := by
  intro ctx
  induction ctx using ctx_two_step with
  | h0 =>
    intro x kx xl xr T h _ hb hn _ he
    simp only [insFix, Option.some.injEq] at he
    subst he
    exact ⟨hb, hn⟩
  | h1 f =>
    intro x kx xl xr T h hc hb hn hh he
    simp only [insFix] at he
    split at he
    · cases he
    · rename_i hf
      simp only [Option.some.injEq] at he
      subst he
      have := plug_rb [f] _ h hc hb hn hh (by
        intro hcr; simp only [ctxColor_cons] at hcr; exact absurd hcr hf)
      simpa [plug_cons] using this
  | h2 fp fg rest ih =>
    intro x kx xl xr T h hc hb hn hh he
    simp only [insFix] at he
    split at he
    · rename_i hf
      split at he
      · cases he
      · rename_i t' hs
        obtain ⟨h1, h2, h3, h4, h5, -⟩ := insStep_rb hc hf hb hn hh hs
        obtain ⟨a, k, l, r, rfl⟩ := RB.isRed_iff.1 (h5 rfl)
        exact ih a k l r T (h + 1) h1 h2 h3 h4 he
      · rename_i t' hs
        obtain ⟨h1, h2, h3, h4, -, h6⟩ := insStep_rb hc hf hb hn hh hs
        simp only [Option.some.injEq] at he
        subst he
        exact plug_rb rest t' (h + 1) h1 h2 h3 h4 (fun _ => h6 rfl)
    · rename_i hf
      simp only [Option.some.injEq] at he
      subst he
      exact plug_rb _ _ h hc hb hn hh (by
        intro hcr; simp only [ctxColor_cons] at hcr; exact absurd hcr hf)

theorem insertT_rb {t T : RB} {k : Int} {a : Nat} (hv : t.isRB)
    (hz : (zoom k t []).2 = .nil) (hT : insertT a k t = some T) : T.isRB := by
  obtain ⟨hr, hn, hb, hs⟩ := hv
  obtain ⟨T2, hT2, h1, h2, -, -⟩ := insertT_ok a hs hr hz
  rw [hT] at hT2
  simp only [Option.some.injEq] at hT2
  subst hT2
  refine ⟨h1, ?_, ?_, h2⟩
  all_goals
    obtain ⟨h', hc, -, -, hh, -⟩ := zoom_rb k t [] t.bheight trivial hb hn rfl (by simp)
    rw [hz] at hh
    unfold insertT at hT
    rcases hctx : (zoom k t []).1 with _ | ⟨f, fs⟩
    · rw [hctx] at hT
      simp only [Option.some.injEq] at hT
      subst hT
      simp [RB.noRedRed, RB.balanced]
    · rw [hctx] at hT hc
      obtain ⟨T', hT', rfl⟩ := Option.map_eq_some'.1 hT
      have := insFix_rb _ _ _ _ _ T' h' hc (by simp [RB.balanced]) (by simp [RB.noRedRed])
        (by rw [← hh]; simp [RB.bheight]) hT'
      first
        | exact noRedRed_paint_black _ this.2
        | exact (balanced_paint _ _).2 this.1

theorem RBValid_empty : RBValid State.empty :=
  ⟨.nil, ⟨rfl, trivial, List.nodup_nil, by simp [RB.addrs]⟩, rfl, trivial, trivial, trivial⟩

theorem insert_node_valid {s : State} (k : Int) (h : RBValid s) :
    Returns (insert_node s k) (fun st s' =>
      (st = SUCCESS ∨ st = DUPLICATE) ∧ RBValid s') := by
  obtain ⟨t, hrep, hv⟩ := h
  by_cases hz : (zoom k t []).2 = .nil
  · obtain ⟨T, hT, -⟩ := insertT_ok s.next hv.2.2.2 hv.1 hz
    refine Returns_mono (insert_node_new hrep hz hT) ?_
    rintro st s' ⟨h1, h2, -⟩
    exact ⟨Or.inl h1, T, h2, insertT_rb hv hz hT⟩
  · rw [insert_node_dup hrep hz]
    exact ⟨Or.inr rfl, t, hrep, hv⟩

theorem run_ins_valid : ∀ (ks : List Int) (s : State), RBValid s →
    Ends (run (ks.map Op.ins) s) RBValid := by
  intro ks
  induction ks with
  | nil => intro s h; exact h
  | cons k ks ih =>
    intro s h
    have h1 := insert_node_valid k h
    obtain ⟨st, s', he, -, hv⟩ := Returns_iff.1 h1
    simp only [List.map_cons, run, step, he, Except.map, bind_ok]
    exact ih s' hv

/-! ### Deletion on the heap -/

theorem plug_append (c1 c2 : Ctx) : ∀ t : RB, plug (c1 ++ c2) t = plug c2 (plug c1 t) := by
  induction c1 with
  | nil => intro t; rfl
  | cons f fs ih => intro t; simp only [List.cons_append, plug_cons, ih]

theorem minNode_plug (t : RB) : plug t.minPath t.minNode = t := by
  induction t with
  | nil => rfl
  | node a c k l r ihl _ =>
    cases l with
    | nil => rfl
    | node la lc lk ll lr =>
      show plug ((node la lc lk ll lr).minPath ++ [.L a c k r]) (node la lc lk ll lr).minNode = _
      rw [plug_append, ihl]
      rfl

theorem minNode_shape (t : RB) (ht : t ≠ .nil) :
    ∃ a c k r, t.minNode = node a c k .nil r := by
  induction t with
  | nil => exact absurd rfl ht
  | node a c k l r ihl _ =>
    cases l with
    | nil => exact ⟨a, c, k, r, rfl⟩
    | node la lc lk ll lr => exact ihl (by simp)

theorem findmin_spec (t : RB) : ∀ (ctx : Ctx) (s : State) (fuel : Nat),
    Rep s (plug ctx t) → t.height < fuel → findmin fuel s t.ptr = .ok t.minNode.ptr := by
  induction t with
  | nil =>
    intro ctx s fuel _ hf
    cases fuel with
    | zero => simp at hf
    | succ fuel => simp [findmin, RB.minNode]
  | node a c k l r ihl _ =>
    intro ctx s fuel h hf
    cases fuel with
    | zero => simp at hf
    | succ fuel =>
      simp only [RB.height] at hf
      simp only [findmin, ptr_node, reduceCtorEq, if_false, getLeft_focus h, bind_ok]
      cases l with
      | nil => simp [RB.minNode]
      | node la lc lk ll lr =>
        simp only [ptr_node, reduceCtorEq, if_false]
        show findmin fuel s (some la) = .ok (node la lc lk ll lr).minNode.ptr
        have h' : Rep s (plug (.L a c k r :: ctx) (node la lc lk ll lr)) := h
        exact ihl _ s fuel h' (by omega)

theorem free_spec {s : State} {T : RB} {d : Nat} (h : Rep s T) (hd : d ∉ T.addrs) :
    Ends (free s (some d)) (fun s' => Rep s' T ∧ s'.next = s.next) := by
  show Rep _ T ∧ _
  exact ⟨⟨h.1, Shape_update hd h.2.1, h.2.2.1, h.2.2.2⟩, rfl⟩

theorem is_left_child_L {s : State} {a : Nat} {c : Color} {k : Int} {r : RB} {fs : Ctx}
    {t : RB} {x : Nat} (h : Rep s (plug (.L a c k r :: fs) t)) (ht : t.ptr = some x)
    (hp : getParent s (some x) = .ok (some a)) : is_left_child s (some x) = .ok true := by
  have h' : Rep s (plug fs (node a c k t r)) := h
  simp [is_left_child, hp, getLeft_focus h', ht]

theorem is_left_child_R {s : State} {a : Nat} {c : Color} {k : Int} {l : RB} {fs : Ctx}
    {t : RB} {x : Nat} (h : Rep s (plug (.R a c k l :: fs) t)) (hx : some x ≠ l.ptr)
    (hp : getParent s (some x) = .ok (some a)) : is_left_child s (some x) = .ok false := by
  have h' : Rep s (plug fs (node a c k l t)) := h
  simp [is_left_child, hp, getLeft_focus h', hx]

theorem delete_splice_spec {s : State} {ctx : Ctx} {d : Nat} {cd : Color} {kd : Int}
    {dl dr : RB} (h : Rep s (plug ctx (node d cd kd dl dr))) (child : RB)
    (hch : (child = dl ∧ dr = .nil) ∨ (child = dr ∧ dl = .nil)) :
    Ends (delete_splice s (some d) child.ptr) (fun s' =>
      Rep s' (plug ctx child) ∧ s'.next = s.next ∧ s'.mem d = s.mem d
      ∧ d ∉ (plug ctx child).addrs) := by
  obtain ⟨hroot, hctx, hsh, hnd, hbd⟩ := (Rep_plug_iff s ctx _).1 h
  have hd := h.read
  have hpm : (d :: (child.addrs ++ ctxAddrs ctx)).Perm
      ((node d cd kd dl dr).addrs ++ ctxAddrs ctx) := by
    rw [List.perm_iff_count]; intro z
    rcases hch with ⟨rfl, rfl⟩ | ⟨rfl, rfl⟩ <;>
      simp only [RB.addrs, List.count_append, List.count_cons, List.count_nil] <;> omega
  have hnd2 := hpm.nodup_iff.2 hnd
  rw [List.nodup_cons] at hnd2
  obtain ⟨hdn, hnd3⟩ := hnd2
  simp only [List.mem_append, not_or] at hdn
  have hshc : Shape s.mem (some d) child := by
    rcases hch with ⟨rfl, rfl⟩ | ⟨rfl, rfl⟩
    · exact hsh.2.1
    · exact hsh.2.2
  have hpost : ∀ s' : State, s'.next = s.next → s'.root = ctxRoot ctx child.ptr →
      (∀ c cc ck cl cr, child = node c cc ck cl cr →
        s'.mem c = some ⟨ck, cc.toInt, cl.ptr, cr.ptr, ctxPar ctx⟩) →
      (∀ f fs, ctx = f :: fs → s'.mem f.addr = some (f.cell child.ptr (ctxPar fs))) →
      s'.mem d = s.mem d →
      (∀ a, a ≠ d → some a ≠ child.ptr → some a ≠ ctxPar ctx → s'.mem a = s.mem a) →
      Rep s' (plug ctx child) ∧ s'.next = s.next ∧ s'.mem d = s.mem d
        ∧ d ∉ (plug ctx child).addrs := by
    intro s' hn hr hc htop hdd hfr
    refine ⟨Rep.replace_gen h hr hnd3 ?_ ?_ htop ?_, hn, hdd, ?_⟩
    · intro a ha
      rw [hn]
      exact hbd a (hpm.mem_iff.1 (List.mem_cons_of_mem _ ha))
    · rcases child with _ | ⟨c, cc, ck, cl, cr⟩
      · trivial
      · obtain ⟨-, hcl, hcr⟩ := hshc
        have hnd4 : (c :: (cl.addrs ++ cr.addrs ++ ctxAddrs ctx)).Nodup := by
          refine (List.Perm.nodup_iff ?_).2 hnd3
          rw [List.perm_iff_count]; intro z
          simp only [RB.addrs, List.count_append, List.count_cons, List.count_nil]; omega
        rw [List.nodup_cons] at hnd4
        obtain ⟨hcn, hnd5⟩ := hnd4
        simp only [List.mem_append, not_or] at hcn
        simp only [RB.addrs, List.mem_append, List.mem_cons, not_or] at hdn
        have hsub : ∀ (u : RB), Shape s.mem (some c) u → d ∉ u.addrs → c ∉ u.addrs →
            (∀ a ∈ u.addrs, a ∉ ctxAddrs ctx) → Shape s'.mem (some c) u := by
          intro u hu hdu hcu hctxu
          refine Shape_congr (fun a ha => hfr a ?_ ?_ ?_) hu
          · rintro rfl; exact hdu ha
          · simp only [ptr_node, ne_eq, Option.some.injEq]; rintro rfl; exact hcu ha
          · rcases ctx with _ | ⟨f, fs⟩
            · simp
            · simp only [ctxPar_cons, ne_eq, Option.some.injEq]
              rintro rfl
              exact hctxu _ ha (by simp [ctxAddrs, Frame.addrs_eq])
        have hdisj := (List.nodup_append.1 hnd5).2.2
        refine ⟨hc _ _ _ _ _ rfl, hsub cl hcl hdn.1.1 hcn.1.1 ?_, hsub cr hcr hdn.1.2.2 hcn.1.2 ?_⟩
        · intro a ha hc2; exact hdisj (by simp [ha]) hc2
        · intro a ha hc2; exact hdisj (by simp [ha]) hc2
    · intro a ha hne
      refine hfr a ?_ ?_ hne
      · rintro rfl; exact hdn.2 ha
      · intro e
        have : a ∈ child.addrs := by
          rcases child with _ | ⟨c, cc, ck, cl, cr⟩
          · simp at e
          · simp only [ptr_node, Option.some.injEq] at e; subst e; simp [RB.addrs]
        exact (List.nodup_append.1 hnd3).2.2 this ha
    · intro hm
      rw [(addrs_plug ctx child).mem_iff, List.mem_append] at hm
      exact hm.elim hdn.1 hdn.2
  have hdp : getParent s (some d) = .ok (ctxPar ctx) := getParent_focus h
  have hcd : ∀ c cc ck cl cr, child = node c cc ck cl cr →
      s.mem c = some ⟨ck, cc.toInt, cl.ptr, cr.ptr, some d⟩ ∧ c ≠ d := by
    rintro c cc ck cl cr rfl
    refine ⟨hshc.1, ?_⟩
    rintro rfl
    simp [RB.addrs] at hdn
  have hfd : ∀ f fs, ctx = f :: fs →
      s.mem f.addr = some (f.cell (some d) (ctxPar fs)) ∧ f.addr ≠ d ∧ some d ≠ f.sib.ptr
        ∧ some f.addr ≠ child.ptr := by
    rintro f fs rfl
    refine ⟨hctx.1, ?_, h.sib_ptr_ne, ?_⟩
    · rintro e
      exact hdn.2 (by simp [ctxAddrs, Frame.addrs_eq, ← e])
    · intro e
      have : f.addr ∈ child.addrs := by
        rcases child with _ | ⟨c, cc, ck, cl, cr⟩
        · simp at e
        · simp only [ptr_node, Option.some.injEq] at e; rw [e]; simp [RB.addrs]
      exact (List.nodup_append.1 hnd3).2.2 this (by simp [ctxAddrs, Frame.addrs_eq])
  suffices hE : ∀ P : State → Prop, (∀ s' : State, s'.next = s.next →
      s'.root = ctxRoot ctx child.ptr →
      (∀ c cc ck cl cr, child = node c cc ck cl cr →
        s'.mem c = some ⟨ck, cc.toInt, cl.ptr, cr.ptr, ctxPar ctx⟩) →
      (∀ f fs, ctx = f :: fs → s'.mem f.addr = some (f.cell child.ptr (ctxPar fs))) →
      s'.mem d = s.mem d →
      (∀ a, a ≠ d → some a ≠ child.ptr → some a ≠ ctxPar ctx → s'.mem a = s.mem a) →
      P s') → Ends (delete_splice s (some d) child.ptr) P from hE _ hpost
  intro P hP
  clear hpost hpm hnd3 hshc hsh hnd hbd hch h
  unfold Ends
  rcases child with _ | ⟨c, cc, ck, cl, cr⟩
  · rcases ctx with _ | ⟨f, fs⟩
    · simp only [delete_splice, ptr_nil, ne_eq, not_true_eq_false, if_false, pure_eq_ok,
        bind_ok, hdp, ctxPar_nil, if_true, setRoot]
      apply hP
      · rfl
      · rfl
      · intro c cc ck cl cr e; cases e
      · intro f fs e; cases e
      · rfl
      · intro a _ _ _; rfl
    · obtain ⟨hf, hfd1, hfd2, -⟩ := hfd f fs rfl
      rcases f with ⟨p, cp, kp, r⟩ | ⟨p, cp, kp, l⟩
      · simp only [Frame.addr_L, Frame.cell, Frame.sib_L] at hf hfd1 hfd2
        simp [delete_splice, hdp, is_left_child, getLeft, load, hf, Except.map, setLeft, modify,
          store]
        apply hP
        · rfl
        · first | rfl | (rw [hroot]; rfl)
        · intro c cc ck cl cr e; cases e
        · rintro f fs e
          cases e
          simp [Frame.cell]
        · simp [Function.update_apply, Ne.symm hfd1]
        · intro a _ _ h3
          simp only [ctxPar_cons, Frame.addr_L, ne_eq, Option.some.injEq] at h3
          simp [Function.update_apply, h3]
      · simp only [Frame.addr_R, Frame.cell, Frame.sib_R] at hf hfd1 hfd2
        simp [delete_splice, hdp, is_left_child, getLeft, load, hf, Except.map, setRight, modify,
          store, hfd2]
        apply hP
        · rfl
        · first | rfl | (rw [hroot]; rfl)
        · intro c cc ck cl cr e; cases e
        · rintro f fs e
          cases e
          simp [Frame.cell]
        · simp [Function.update_apply, Ne.symm hfd1]
        · intro a _ _ h3
          simp only [ctxPar_cons, Frame.addr_R, ne_eq, Option.some.injEq] at h3
          simp [Function.update_apply, h3]
  · obtain ⟨hc, hcd⟩ := hcd _ _ _ _ _ rfl
    have hdp1 : ∀ v, getParent (store s c v) (some d) = .ok (ctxPar ctx) := by
      intro v
      simp [getParent, load, store, Function.update_apply, Ne.symm hcd, hd, Except.map]
    rcases ctx with _ | ⟨f, fs⟩
    · simp only [delete_splice, ptr_node, ne_eq, reduceCtorEq, not_false_eq_true, if_true, hdp,
        bind_ok, setParent, modify, hc, hdp1, ctxPar_nil, pure_eq_ok, setRoot]
      apply hP
      · rfl
      · rfl
      · intro c' cc' ck' cl' cr' e
        cases e
        simp [store]
      · intro f fs e; cases e
      · simp [store, Function.update_apply, Ne.symm hcd]
      · intro a _ h2 _
        simp only [ptr_node, ne_eq, Option.some.injEq] at h2
        simp [store, Function.update_apply, h2]
    · obtain ⟨hf, hfd1, hfd2, hfd3⟩ := hfd f fs rfl
      simp only [ptr_node, ne_eq, Option.some.injEq] at hfd3
      rcases f with ⟨p, cp, kp, r⟩ | ⟨p, cp, kp, l⟩
      · simp only [Frame.addr_L, Frame.cell, Frame.sib_L] at hf hfd1 hfd2 hfd3
        simp [delete_splice, hdp, is_left_child, getLeft, load, hf, Except.map, setLeft, modify,
          store, setParent, hc, getParent, Function.update_apply, hcd, Ne.symm hcd, hd, hfd3,
          Ne.symm hfd3]
        apply hP
        · rfl
        · first | rfl | (rw [hroot]; rfl)
        · intro c' cc' ck' cl' cr' e
          cases e
          simp [Function.update_apply, Ne.symm hfd3]
        · rintro f fs e
          cases e
          simp [Frame.cell]
        · simp [Function.update_apply, Ne.symm hfd1, Ne.symm hcd]
        · intro a _ h2 h3
          simp only [ctxPar_cons, Frame.addr_L, ne_eq, Option.some.injEq, ptr_node] at h2 h3
          simp [Function.update_apply, h2, h3]
      · simp only [Frame.addr_R, Frame.cell, Frame.sib_R] at hf hfd1 hfd2 hfd3
        simp [delete_splice, hdp, is_left_child, getLeft, load, hf, Except.map, setRight, modify,
          store, setParent, hc, getParent, Function.update_apply, hcd, Ne.symm hcd, hd, hfd3,
          Ne.symm hfd3, hfd2]
        apply hP
        · rfl
        · first | rfl | (rw [hroot]; rfl)
        · intro c' cc' ck' cl' cr' e
          cases e
          simp [Function.update_apply, Ne.symm hfd3]
        · rintro f fs e
          cases e
          simp [Frame.cell]
        · simp [Function.update_apply, Ne.symm hfd1, Ne.symm hcd]
        · intro a _ h2 h3
          simp only [ctxPar_cons, Frame.addr_R, ne_eq, Option.some.injEq, ptr_node] at h2 h3
          simp [Function.update_apply, h2, h3]

theorem Keeps.rfl' (s : State) (T : RB) : Keeps s s T T :=
  ⟨rfl, fun _ ha => ⟨rfl, ha⟩⟩

theorem Keeps.trans {s1 s2 s3 : State} {T1 T2 T3 : RB} (h12 : Keeps s1 s2 T1 T2)
    (h23 : Keeps s2 s3 T2 T3) : Keeps s1 s3 T1 T3 := by
  refine ⟨h23.1.trans h12.1, fun a ha => ?_⟩
  obtain ⟨e1, n1⟩ := h12.2 a ha
  obtain ⟨e2, n2⟩ := h23.2 a n1
  exact ⟨e2.trans e1, n2⟩

theorem addrs_plug_congr (ctx : Ctx) : ∀ {t t' : RB}, t.addrs = t'.addrs →
    (plug ctx t).addrs = (plug ctx t').addrs := by
  induction ctx with
  | nil => intro t t' h; exact h
  | cons f fs ih =>
    intro t t' h
    rw [plug_cons, plug_cons]
    apply ih
    cases f <;> simp [RB.addrs, h]

theorem Keeps.of_frame {s s' : State} {ctx : Ctx} {t t' : RB} (hn : s'.next = s.next)
    (ha : t.addrs = t'.addrs)
    (hf : ∀ d, d ∉ (plug ctx t).addrs → s'.mem d = s.mem d) :
    Keeps s s' (plug ctx t) (plug ctx t') :=
  ⟨hn, fun a h => ⟨hf a h, by rw [← addrs_plug_congr ctx ha]; exact h⟩⟩

theorem setColor_keeps {s : State} {ctx : Ctx} {a : Nat} {c : Color} {k : Int} {l r : RB}
    (h : Rep s (plug ctx (node a c k l r))) (c' : Color) :
    Ends (setColor s (some a) c'.toInt) (fun s' =>
      Rep s' (plug ctx (node a c' k l r))
      ∧ Keeps s s' (plug ctx (node a c k l r)) (plug ctx (node a c' k l r))) := by
  refine Ends_mono (setColor_spec h c') ?_
  rintro s' ⟨h1, h2, h3⟩
  refine ⟨h1, Keeps.of_frame h2 rfl (fun d hd => h3 d ?_)⟩
  rintro rfl
  exact hd (by rw [h.mem_plug]; simp [RB.addrs])

theorem setData_keeps {s : State} {ctx : Ctx} {a : Nat} {c : Color} {k : Int} {l r : RB}
    (h : Rep s (plug ctx (node a c k l r))) (k' : Int) :
    Ends (setData s (some a) k') (fun s' =>
      Rep s' (plug ctx (node a c k' l r))
      ∧ Keeps s s' (plug ctx (node a c k l r)) (plug ctx (node a c k' l r))) := by
  refine Ends_mono (setData_spec h k') ?_
  rintro s' ⟨h1, h2, h3⟩
  refine ⟨h1, Keeps.of_frame h2 rfl (fun d hd => h3 d ?_)⟩
  rintro rfl
  exact hd (by rw [h.mem_plug]; simp [RB.addrs])

theorem left_rotate_keeps {s : State} {ctx : Ctx} {x : Nat} {cx : Color} {kx : Int} {a : RB}
    {y : Nat} {cy : Color} {ky : Int} {b c : RB}
    (h : Rep s (plug ctx (node x cx kx a (node y cy ky b c)))) :
    Ends (left_rotate s (some x)) (fun s' =>
      Rep s' (plug ctx (node y cy ky (node x cx kx a b) c))
      ∧ Keeps s s' (plug ctx (node x cx kx a (node y cy ky b c)))
          (plug ctx (node y cy ky (node x cx kx a b) c))) := by
  refine Ends_mono (left_rotate_spec h) ?_
  rintro s' ⟨h1, h2, h3⟩
  exact ⟨h1, Keeps.of_frame h2 (by simp [RB.addrs]) h3⟩

theorem right_rotate_keeps {s : State} {ctx : Ctx} {x : Nat} {cx : Color} {kx : Int} {a : RB}
    {y : Nat} {cy : Color} {ky : Int} {b c : RB}
    (h : Rep s (plug ctx (node x cx kx (node y cy ky a b) c))) :
    Ends (right_rotate s (some x)) (fun s' =>
      Rep s' (plug ctx (node y cy ky a (node x cx kx b c)))
      ∧ Keeps s s' (plug ctx (node x cx kx (node y cy ky a b) c))
          (plug ctx (node y cy ky a (node x cx kx b c)))) := by
  refine Ends_mono (right_rotate_spec h) ?_
  rintro s' ⟨h1, h2, h3⟩
  exact ⟨h1, Keeps.of_frame h2 (by simp [RB.addrs]) h3⟩

theorem At.rep {s : State} {ctx : Ctx} {t : RB} {node : Ptr} {det : Bool}
    (h : At s ctx t node det) : Rep s (plug ctx t) := h.1

theorem At.parent {s : State} {ctx : Ctx} {t : RB} {node : Ptr} {det : Bool}
    (h : At s ctx t node det) : getParent s node = .ok (ctxPar ctx) := by
  obtain ⟨hr, h2⟩ := h
  cases det with
  | true =>
    simp only [if_true] at h2
    obtain ⟨-, d, -, -, hp⟩ := h2
    exact hp
  | false =>
    simp only [Bool.false_eq_true, if_false] at h2
    obtain ⟨rfl, hne⟩ := h2
    cases t with
    | nil => exact absurd rfl hne
    | node x cx kx l r => exact getParent_focus hr

theorem Rep.root_mem {s : State} {T : RB} (h : Rep s T) {a : Nat} (ha : s.root = some a) :
    a ∈ T.addrs := by
  rw [h.1] at ha
  cases T with
  | nil => simp at ha
  | node x c k l r =>
    simp only [ptr_node, Option.some.injEq] at ha
    subst ha
    simp [RB.addrs]

theorem At.root_iff {s : State} {ctx : Ctx} {t : RB} {node : Ptr} {det : Bool}
    (h : At s ctx t node det) : node = s.root ↔ (det = false ∧ ctx = []) := by
  obtain ⟨hr, h2⟩ := h
  cases det with
  | true =>
    simp only [if_true] at h2
    obtain ⟨-, d, rfl, hd, -⟩ := h2
    simp only [Bool.true_eq_false, false_and, iff_false]
    intro e
    exact hd (hr.root_mem e.symm)
  | false =>
    simp only [Bool.false_eq_true, if_false] at h2
    obtain ⟨rfl, hne⟩ := h2
    cases t with
    | nil => exact absurd rfl hne
    | node x cx kx l r => simpa using hr.root_eq_iff

theorem At.next {s s' : State} {ctx ctx' : Ctx} {t : RB} {node : Ptr} {det : Bool}
    (h : At s ctx t node det) (hr : Rep s' (plug ctx' t))
    (hk : Keeps s s' (plug ctx t) (plug ctx' t)) (hp : ctxPar ctx' = ctxPar ctx) :
    At s' ctx' t node det := by
  obtain ⟨-, h2⟩ := h
  refine ⟨hr, ?_⟩
  cases det with
  | true =>
    simp only [if_true] at h2 ⊢
    obtain ⟨ht, d, rfl, hd, hpar⟩ := h2
    obtain ⟨e, hd'⟩ := hk.2 d hd
    refine ⟨ht, d, rfl, hd', ?_⟩
    rw [hp, ← hpar]
    simp only [getParent, load, e]
  | false =>
    simp only [Bool.false_eq_true, if_false] at h2 ⊢
    exact h2

theorem At.up {s : State} {f : Frame} {fs : Ctx} {t : RB} {node : Ptr} {det : Bool}
    (h : At s (f :: fs) t node det) : At s fs (f.fill t) (some f.addr) false := by
  refine ⟨h.1, ?_⟩
  simp only [Bool.false_eq_true, if_false]
  cases f <;> simp

theorem At.node_ne_sib {s : State} {f : Frame} {fs : Ctx} {t : RB} {nptr : Ptr} {det : Bool}
    (h : At s (f :: fs) t nptr det) : nptr ≠ f.sib.ptr ∨ (nptr = none ∧ False) := by
  left
  obtain ⟨hr, h2⟩ := h
  cases det with
  | true =>
    simp only [if_true] at h2
    obtain ⟨-, d, rfl, hd, -⟩ := h2
    intro e
    apply hd
    rw [hr.mem_plug]
    right
    have : d ∈ f.sib.addrs := by
      cases hs : f.sib with
      | nil => rw [hs] at e; simp at e
      | node a c k l r =>
        rw [hs] at e
        simp only [ptr_node, Option.some.injEq] at e
        subst e
        simp [RB.addrs]
    simp [ctxAddrs, Frame.addrs_eq, this]
  | false =>
    simp only [Bool.false_eq_true, if_false] at h2
    obtain ⟨rfl, hne⟩ := h2
    cases t with
    | nil => exact absurd rfl hne
    | node x cx kx l r => exact hr.sib_ptr_ne

theorem getsibling_At {s : State} {f : Frame} {fs : Ctx} {t : RB} {nptr : Ptr} {det : Bool}
    (h : At s (f :: fs) t nptr det) : getsibling_node s nptr = .ok (sibOf det f).ptr := by
  have hp := h.parent
  have hne : nptr ≠ f.sib.ptr := h.node_ne_sib.elim id (fun x => x.2.elim)
  obtain ⟨hr, h2⟩ := h
  rcases f with ⟨p, cp, kp, r⟩ | ⟨p, cp, kp, l⟩
  · have hr' : Rep s (plug fs (node p cp kp t r)) := hr
    simp only [getsibling_node, hp, ctxPar_cons, Frame.addr_L, bind_ok, reduceCtorEq, if_false,
      getLeft_focus hr', getRight_focus hr']
    cases det with
    | true =>
      simp only [if_true] at h2
      obtain ⟨rfl, d, rfl, -, -⟩ := h2
      simp [sibOf]
    | false =>
      simp only [Bool.false_eq_true, if_false] at h2
      simp [sibOf, h2.1]
  · have hr' : Rep s (plug fs (node p cp kp l t)) := hr
    simp only [Frame.sib_R] at hne
    simp only [getsibling_node, hp, ctxPar_cons, Frame.addr_R, bind_ok, reduceCtorEq, if_false,
      getLeft_focus hr', hne, sibOf]

theorem sibling_side {s : State} {f : Frame} {fs : Ctx} {t : RB} {nptr : Ptr} {det : Bool}
    {sa : Nat} {sc : Color} {sk : Int} {sl sr : RB}
    (h : At s (f :: fs) t nptr det) (hs : sibOf det f = node sa sc sk sl sr) :
    is_left_child s (some sa) = .ok (match f with
      | .L _ _ _ _ => false
      | .R _ _ _ _ => true) := by
  obtain ⟨hr, h2⟩ := h
  rcases f with ⟨p, cp, kp, r⟩ | ⟨p, cp, kp, l⟩
  · cases det with
    | true => simp [sibOf] at hs
    | false =>
      simp only [sibOf, Bool.false_eq_true, if_false] at hs h2
      subst hs
      have hr' : Rep s (plug (.R p cp kp t :: fs) (node sa sc sk sl sr)) := hr
      refine is_left_child_R hr' ?_ (getParent_focus hr')
      intro e
      exact hr.sib_ptr_ne' e.symm rfl
  · simp only [sibOf] at hs
    subst hs
    have hr' : Rep s (plug (.L p cp kp t :: fs) (node sa sc sk sl sr)) := hr
    exact is_left_child_L hr' rfl (getParent_focus hr')

theorem hasRedChild_spec {s : State} {ctx : Ctx} {sa : Nat} {sc : Color} {sk : Int}
    {sl sr : RB} (h : Rep s (plug ctx (node sa sc sk sl sr))) :
    hasRedChild s (some sa) = .ok (sl.isRed || sr.isRed) := by
  have hl : Rep s (plug (.L sa sc sk sr :: ctx) sl) := h
  have hr : Rep s (plug (.R sa sc sk sl :: ctx) sr) := h
  simp only [hasRedChild, getLeft_focus h, bind_ok, isRedPtr_spec hl, getRight_focus h,
    isRedPtr_spec hr]
  cases sl.isRed <;> simp

theorem Rep.sib_rep {s : State} {f : Frame} {fs : Ctx} {t : RB}
    (h : Rep s (plug (f :: fs) t)) :
    Rep s (plug ((match f with
      | .L p cp kp _ => Frame.R p cp kp t
      | .R p cp kp _ => Frame.L p cp kp t) :: fs) f.sib) := by
  cases f <;> exact h

theorem fdb_rotate_spec {s : State} {f : Frame} {fs : Ctx} {t : RB} {nptr : Ptr} {det : Bool}
    {sa : Nat} {sk : Int} {sl sr : RB}
    (h : At s (f :: fs) t nptr det) (hs : sibOf det f = node sa .black sk sl sr)
    (hred : (sl.isRed || sr.isRed) = true) :
    Ends (do
        let s ← fdb_rotate s nptr (some sa)
        let p ← getParent s nptr
        setColor s p BLACK)
      (fun s' => Rep s' (plug fs (fdbRot f t sa sk sl sr))
        ∧ Keeps s s' (plug (f :: fs) t) (plug fs (fdbRot f t sa sk sl sr))) := by
  have hside := sibling_side h hs
  have hpar := h.parent
  rcases f with ⟨p, cp, kp, r⟩ | ⟨p, cp, kp, l⟩
  · -- the sibling is the right child
    have hdet : det = false := by
      cases det with
      | true => simp [sibOf] at hs
      | false => rfl
    subst hdet
    simp only [sibOf, Bool.false_eq_true, if_false] at hs
    subst hs
    have hS : Rep s (plug (.R p cp kp t :: fs) (node sa .black sk sl sr)) := h.rep
    have hSl : Rep s (plug (.L sa .black sk sr :: .R p cp kp t :: fs) sl) := h.rep
    have hP : Rep s (plug fs (node p cp kp t (node sa .black sk sl sr))) := h.rep
    simp only [ctxPar_cons, Frame.addr_L] at hpar
    simp only [fdb_rotate, getLeft_focus hS, bind_ok, isRedPtr_spec hSl, hside, bind_assoc]
    by_cases hsl : sl.isRed = true
    · obtain ⟨sla, slk, sll, slr, rfl⟩ := RB.isRed_iff.1 hsl
      simp only [isRed_red, if_true, Bool.false_eq_true, if_false, ptr_node, hpar, bind_ok,
        getColor_focus hP, bind_assoc]
      refine Ends_bind (setColor_keeps hSl cp) ?_
      rintro s1 ⟨h1, k1⟩
      have h1S : Rep s1 (plug (.R p cp kp t :: fs)
        (node sa .black sk (node sla cp slk sll slr) sr)) := h1
      refine Ends_bind (right_rotate_keeps h1S) ?_
      rintro s2 ⟨h2, k2⟩
      have k12 : Keeps s s2 (plug (.L p cp kp (node sa .black sk (node sla .red slk sll slr) sr) :: fs) t)
        (plug (.L p cp kp (node sla cp slk sll (node sa .black sk slr sr)) :: fs) t) :=
        Keeps.trans k1 k2
      have a2 := h.next h2 k12 rfl
      have h2P : Rep s2 (plug fs (node p cp kp t (node sla cp slk sll
        (node sa .black sk slr sr)))) := h2
      simp only [a2.parent, ctxPar_cons, Frame.addr_L, bind_ok]
      refine Ends_bind (left_rotate_keeps h2P) ?_
      rintro s3 ⟨h3, k3⟩
      have k23 : Keeps s2 s3 (plug (.L p cp kp (node sla cp slk sll (node sa .black sk slr sr)) :: fs) t)
        (plug (.L p cp kp sll :: .L sla cp slk (node sa .black sk slr sr) :: fs) t) := k3
      have a3 := a2.next h3 k23 rfl
      have h3P : Rep s3 (plug (.L sla cp slk (node sa .black sk slr sr) :: fs)
        (node p cp kp t sll)) := h3
      simp only [a3.parent, ctxPar_cons, Frame.addr_L, bind_ok]
      refine Ends_mono (setColor_keeps h3P .black) ?_
      rintro s4 ⟨h4, k4⟩
      exact ⟨h4, Keeps.trans k12 (Keeps.trans k23 k4)⟩
    · have hsl' := isRed_false_of_ne hsl
      simp only [hsl', Bool.false_or] at hred
      obtain ⟨sra, srk, srl, srr, rfl⟩ := RB.isRed_iff.1 hred
      have hSr : Rep s (plug (.R sa .black sk sl :: .R p cp kp t :: fs)
        (node sra .red srk srl srr)) := h.rep
      simp only [hsl', Bool.false_eq_true, if_false, getRight_focus hS, ptr_node, hpar, bind_ok,
        getColor_focus hP, getColor_focus hS, bind_assoc]
      refine Ends_bind (setColor_keeps hSr .black) ?_
      rintro s1 ⟨h1, k1⟩
      have k01 : Keeps s s1 (plug (.L p cp kp (node sa .black sk sl (node sra .red srk srl srr)) :: fs) t)
        (plug (.L p cp kp (node sa .black sk sl (node sra .black srk srl srr)) :: fs) t) := k1
      have a1 := h.next h1 k01 rfl
      have h1S : Rep s1 (plug (.R p cp kp t :: fs)
        (node sa .black sk sl (node sra .black srk srl srr))) := h1
      have h1P : Rep s1 (plug fs (node p cp kp t
        (node sa .black sk sl (node sra .black srk srl srr)))) := h1
      simp only [a1.parent, ctxPar_cons, Frame.addr_L, bind_ok, getColor_focus h1P]
      refine Ends_bind (setColor_keeps h1S cp) ?_
      rintro s2 ⟨h2, k2⟩
      have k12 : Keeps s1 s2 (plug (.L p cp kp (node sa .black sk sl (node sra .black srk srl srr)) :: fs) t)
        (plug (.L p cp kp (node sa cp sk sl (node sra .black srk srl srr)) :: fs) t) := k2
      have a2 := a1.next h2 k12 rfl
      have h2P : Rep s2 (plug fs (node p cp kp t
        (node sa cp sk sl (node sra .black srk srl srr)))) := h2
      simp only [a2.parent, ctxPar_cons, Frame.addr_L, bind_ok]
      refine Ends_bind (left_rotate_keeps h2P) ?_
      rintro s3 ⟨h3, k3⟩
      have k23 : Keeps s2 s3 (plug (.L p cp kp (node sa cp sk sl (node sra .black srk srl srr)) :: fs) t)
        (plug (.L p cp kp sl :: .L sa cp sk (node sra .black srk srl srr) :: fs) t) := k3
      have a3 := a2.next h3 k23 rfl
      have h3P : Rep s3 (plug (.L sa cp sk (node sra .black srk srl srr) :: fs)
        (node p cp kp t sl)) := h3
      simp only [a3.parent, ctxPar_cons, Frame.addr_L, bind_ok]
      refine Ends_mono (setColor_keeps h3P .black) ?_
      rintro s4 ⟨h4, k4⟩
      have e : fdbRot (.L p cp kp (node sa .black sk sl (node sra .red srk srl srr))) t sa sk sl
          (node sra .red srk srl srr)
          = node sa cp sk (node p .black kp t sl) (node sra .black srk srl srr) := by
        simp [fdbRot, hsl', RB.paint]
      rw [e]
      exact ⟨h4, Keeps.trans k01 (Keeps.trans k12 (Keeps.trans k23 k4))⟩
  · -- the sibling is the left child
    simp only [sibOf] at hs
    subst hs
    have hS : Rep s (plug (.L p cp kp t :: fs) (node sa .black sk sl sr)) := h.rep
    have hSl : Rep s (plug (.L sa .black sk sr :: .L p cp kp t :: fs) sl) := h.rep
    have hP : Rep s (plug fs (node p cp kp (node sa .black sk sl sr) t)) := h.rep
    simp only [ctxPar_cons, Frame.addr_R] at hpar
    simp only [fdb_rotate, getLeft_focus hS, bind_ok, isRedPtr_spec hSl, hside, bind_assoc]
    by_cases hsl : sl.isRed = true
    · obtain ⟨sla, slk, sll, slr, rfl⟩ := RB.isRed_iff.1 hsl
      simp only [isRed_red, if_true, ptr_node, hpar, bind_ok, getColor_focus hP,
        getColor_focus hS, bind_assoc]
      refine Ends_bind (setColor_keeps hSl .black) ?_
      rintro s1 ⟨h1, k1⟩
      have k01 : Keeps s s1 (plug (.R p cp kp (node sa .black sk (node sla .red slk sll slr) sr) :: fs) t)
        (plug (.R p cp kp (node sa .black sk (node sla .black slk sll slr) sr) :: fs) t) := k1
      have a1 := h.next h1 k01 rfl
      have h1S : Rep s1 (plug (.L p cp kp t :: fs)
        (node sa .black sk (node sla .black slk sll slr) sr)) := h1
      have h1P : Rep s1 (plug fs (node p cp kp
        (node sa .black sk (node sla .black slk sll slr) sr) t)) := h1
      simp only [a1.parent, ctxPar_cons, Frame.addr_R, bind_ok, getColor_focus h1P]
      refine Ends_bind (setColor_keeps h1S cp) ?_
      rintro s2 ⟨h2, k2⟩
      have k12 : Keeps s1 s2 (plug (.R p cp kp (node sa .black sk (node sla .black slk sll slr) sr) :: fs) t)
        (plug (.R p cp kp (node sa cp sk (node sla .black slk sll slr) sr) :: fs) t) := k2
      have a2 := a1.next h2 k12 rfl
      have h2P : Rep s2 (plug fs (node p cp kp
        (node sa cp sk (node sla .black slk sll slr) sr) t)) := h2
      simp only [a2.parent, ctxPar_cons, Frame.addr_R, bind_ok]
      refine Ends_bind (right_rotate_keeps h2P) ?_
      rintro s3 ⟨h3, k3⟩
      have k23 : Keeps s2 s3 (plug (.R p cp kp (node sa cp sk (node sla .black slk sll slr) sr) :: fs) t)
        (plug (.R p cp kp sr :: .R sa cp sk (node sla .black slk sll slr) :: fs) t) := k3
      have a3 := a2.next h3 k23 rfl
      have h3P : Rep s3 (plug (.R sa cp sk (node sla .black slk sll slr) :: fs)
        (node p cp kp sr t)) := h3
      simp only [a3.parent, ctxPar_cons, Frame.addr_R, bind_ok]
      refine Ends_mono (setColor_keeps h3P .black) ?_
      rintro s4 ⟨h4, k4⟩
      exact ⟨h4, Keeps.trans k01 (Keeps.trans k12 (Keeps.trans k23 k4))⟩
    · have hsl' := isRed_false_of_ne hsl
      simp only [hsl', Bool.false_or] at hred
      obtain ⟨sra, srk, srl, srr, rfl⟩ := RB.isRed_iff.1 hred
      have hSr : Rep s (plug (.R sa .black sk sl :: .L p cp kp t :: fs)
        (node sra .red srk srl srr)) := h.rep
      simp only [hsl', Bool.false_eq_true, if_false, if_true, getRight_focus hS, ptr_node, hpar,
        bind_ok, getColor_focus hP, bind_assoc]
      refine Ends_bind (setColor_keeps hSr cp) ?_
      rintro s1 ⟨h1, k1⟩
      have h1S : Rep s1 (plug (.L p cp kp t :: fs)
        (node sa .black sk sl (node sra cp srk srl srr))) := h1
      refine Ends_bind (left_rotate_keeps h1S) ?_
      rintro s2 ⟨h2, k2⟩
      have k12 : Keeps s s2 (plug (.R p cp kp (node sa .black sk sl (node sra .red srk srl srr)) :: fs) t)
        (plug (.R p cp kp (node sra cp srk (node sa .black sk sl srl) srr) :: fs) t) :=
        Keeps.trans k1 k2
      have a2 := h.next h2 k12 rfl
      have h2P : Rep s2 (plug fs (node p cp kp
        (node sra cp srk (node sa .black sk sl srl) srr) t)) := h2
      simp only [a2.parent, ctxPar_cons, Frame.addr_R, bind_ok]
      refine Ends_bind (right_rotate_keeps h2P) ?_
      rintro s3 ⟨h3, k3⟩
      have k23 : Keeps s2 s3 (plug (.R p cp kp (node sra cp srk (node sa .black sk sl srl) srr) :: fs) t)
        (plug (.R p cp kp srr :: .R sra cp srk (node sa .black sk sl srl) :: fs) t) := k3
      have a3 := a2.next h3 k23 rfl
      have h3P : Rep s3 (plug (.R sra cp srk (node sa .black sk sl srl) :: fs)
        (node p cp kp srr t)) := h3
      simp only [a3.parent, ctxPar_cons, Frame.addr_R, bind_ok]
      refine Ends_mono (setColor_keeps h3P .black) ?_
      rintro s4 ⟨h4, k4⟩
      have e : fdbRot (.R p cp kp (node sa .black sk sl (node sra .red srk srl srr))) t sa sk sl
          (node sra .red srk srl srr)
          = node sra cp srk (node sa .black sk sl srl) (node p .black kp srr t) := by
        simp [fdbRot, hsl']
      rw [e]
      exact ⟨h4, Keeps.trans k12 (Keeps.trans k23 k4)⟩

theorem sibOf_eq_sib {det : Bool} {f : Frame} {sa : Nat} {sc : Color} {sk : Int} {sl sr : RB}
    (h : sibOf det f = node sa sc sk sl sr) : f.sib = node sa sc sk sl sr := by
  rcases f with ⟨p, cp, kp, r⟩ | ⟨p, cp, kp, l⟩
  · cases det
    · simpa [sibOf] using h
    · simp [sibOf] at h
  · simpa [sibOf] using h

theorem fdb_spec : ∀ (fuel : Nat) (det : Bool) (t : RB) (ctx : Ctx) (s : State) (nptr : Ptr)
    (T : RB), At s ctx t nptr det → fdbT fuel det t ctx = some T →
    Ends (fix_double_black fuel s nptr) (fun s' => Rep s' T ∧ Keeps s s' (plug ctx t) T) := by
  intro fuel
  induction fuel with
  | zero => intro det t ctx s nptr T _ hT; simp [fdbT] at hT
  | succ n ih =>
    intro det t ctx s nptr T h hT
    have hroot := h.root_iff
    have hpar := h.parent
    rcases ctx with _ | ⟨f, fs⟩
    · cases det with
      | true =>
        simp only [fdbT, if_true] at hT
        have hn : n ≠ 0 := by
          intro e; simp [e] at hT
        simp only [hn, if_false, Option.some.injEq] at hT
        subst hT
        obtain ⟨m, rfl⟩ : ∃ m, n = m + 1 := ⟨n - 1, by omega⟩
        have hne : ¬ (nptr = s.root) := by rw [hroot]; simp
        have ht : t = .nil := by
          have := h.2
          simp only [if_true] at this
          exact this.1
        have hr0 : s.root = none := by rw [h.rep.1, ht]; rfl
        simp only [fix_double_black, hne, if_false, getsibling_node, hpar, ctxPar_nil, bind_ok,
          if_true, pure_eq_ok, hr0, ite_self]
        exact ⟨h.rep, Keeps.rfl' _ _⟩
      | false =>
        simp only [fdbT, Bool.false_eq_true, if_false, Option.some.injEq] at hT
        subst hT
        have he : nptr = s.root := by rw [hroot]; simp
        simp only [fix_double_black, he, if_true, pure_eq_ok]
        exact ⟨h.rep, Keeps.rfl' _ _⟩
    · have hne : ¬ (nptr = s.root) := by rw [hroot]; simp
      simp only [ctxPar_cons] at hpar
      rw [fix_double_black]
      simp only [hne, if_false, getsibling_At h, bind_ok]
      cases hsib : sibOf det f with
      | nil =>
        simp only [fdbT, hsib] at hT
        simp only [ptr_nil, if_true, hpar, bind_ok]
        exact ih false (f.fill t) fs s (some f.addr) T h.up hT
      | node sa sc sk sl sr =>
        have hfs := sibOf_eq_sib hsib
        have hS := h.rep.sib_rep
        rw [hfs] at hS
        have hside := sibling_side h hsib
        simp only [ptr_node, reduceCtorEq, if_false, getColor_focus hS, bind_ok, hpar]
        cases sc with
        | red =>
          simp only [toInt_red, if_true]
          simp only [fdbT, hsib, if_true] at hT
          rcases f with ⟨p, cp, kp, r⟩ | ⟨p, cp, kp, l⟩
          · simp only [Frame.sib_L] at hfs
            subst hfs
            simp only [Frame.addr_L] at hpar ⊢
            have hP : Rep s (plug fs (node p cp kp t (node sa .red sk sl sr))) := h.rep
            refine Ends_bind (setColor_keeps hP .red) ?_
            rintro s1 ⟨h1, k1⟩
            have h1S : Rep s1 (plug (.R p .red kp t :: fs) (node sa .red sk sl sr)) := h1
            refine Ends_bind (setColor_keeps h1S .black) ?_
            rintro s2 ⟨h2, k2⟩
            have k02 : Keeps s s2 (plug (.L p cp kp (node sa .red sk sl sr) :: fs) t)
              (plug (.L p .red kp (node sa .black sk sl sr) :: fs) t) := Keeps.trans k1 k2
            have a2 := h.next h2 k02 rfl
            have hside2 := sibling_side a2 (by
              cases det
              · rfl
              · simp [sibOf] at hsib)
            have h2P : Rep s2 (plug fs (node p .red kp t (node sa .black sk sl sr))) := h2
            simp only [hside2, bind_ok, a2.parent, ctxPar_cons, Frame.addr_L, Bool.false_eq_true,
              if_false]
            refine Ends_bind (left_rotate_keeps h2P) ?_
            rintro s3 ⟨h3, k3⟩
            have k23 : Keeps s2 s3 (plug (.L p .red kp (node sa .black sk sl sr) :: fs) t)
              (plug (.L p .red kp sl :: .L sa .black sk sr :: fs) t) := k3
            have a3 := a2.next h3 k23 rfl
            refine Ends_mono (ih det t _ s3 nptr T a3 hT) ?_
            rintro s4 ⟨h4, k4⟩
            exact ⟨h4, Keeps.trans k02 (Keeps.trans k23 k4)⟩
          · simp only [Frame.sib_R] at hfs
            subst hfs
            simp only [Frame.addr_R] at hpar ⊢
            have hP : Rep s (plug fs (node p cp kp (node sa .red sk sl sr) t)) := h.rep
            refine Ends_bind (setColor_keeps hP .red) ?_
            rintro s1 ⟨h1, k1⟩
            have h1S : Rep s1 (plug (.L p .red kp t :: fs) (node sa .red sk sl sr)) := h1
            refine Ends_bind (setColor_keeps h1S .black) ?_
            rintro s2 ⟨h2, k2⟩
            have k02 : Keeps s s2 (plug (.R p cp kp (node sa .red sk sl sr) :: fs) t)
              (plug (.R p .red kp (node sa .black sk sl sr) :: fs) t) := Keeps.trans k1 k2
            have a2 := h.next h2 k02 rfl
            have hside2 := sibling_side a2 (by simp [sibOf] : sibOf det _ = node sa .black sk sl sr)
            have h2P : Rep s2 (plug fs (node p .red kp (node sa .black sk sl sr) t)) := h2
            simp only [hside2, bind_ok, a2.parent, ctxPar_cons, Frame.addr_R, if_true]
            refine Ends_bind (right_rotate_keeps h2P) ?_
            rintro s3 ⟨h3, k3⟩
            have k23 : Keeps s2 s3 (plug (.R p .red kp (node sa .black sk sl sr) :: fs) t)
              (plug (.R p .red kp sr :: .R sa .black sk sl :: fs) t) := k3
            have a3 := a2.next h3 k23 rfl
            refine Ends_mono (ih det t _ s3 nptr T a3 hT) ?_
            rintro s4 ⟨h4, k4⟩
            exact ⟨h4, Keeps.trans k02 (Keeps.trans k23 k4)⟩
        | black =>
          have hnr : ¬ (BLACK = RED) := by decide
          simp only [toInt_black, hnr, if_false, hasRedChild_spec hS, bind_ok]
          simp only [fdbT, hsib, reduceCtorEq, if_false] at hT
          by_cases hred : (sl.isRed || sr.isRed) = true
          · simp only [hred, if_true, Option.some.injEq] at hT ⊢
            subst hT
            exact fdb_rotate_spec h hsib hred
          · simp only [hred, Bool.false_eq_true, if_false] at hT ⊢
            rcases f with ⟨p, cp, kp, r⟩ | ⟨p, cp, kp, l⟩
            · simp only [Frame.sib_L] at hfs
              subst hfs
              simp only [Frame.addr_L] at hpar
              have hS' : Rep s (plug (.R p cp kp t :: fs) (node sa .black sk sl sr)) := h.rep
              refine Ends_bind (setColor_keeps hS' .red) ?_
              rintro s1 ⟨h1, k1⟩
              have k01 : Keeps s s1 (plug (.L p cp kp (node sa .black sk sl sr) :: fs) t)
                (plug (.L p cp kp (node sa .red sk sl sr) :: fs) t) := k1
              have a1 := h.next h1 k01 rfl
              have h1P : Rep s1 (plug fs (node p cp kp t (node sa .red sk sl sr))) := h1
              simp only [a1.parent, ctxPar_cons, Frame.addr_L, bind_ok, getColor_focus h1P]
              cases cp with
              | black =>
                simp only [toInt_black, if_true] at hT ⊢
                refine Ends_mono (ih false _ fs s1 (some p) T a1.up hT) ?_
                rintro s2 ⟨h2, k2⟩
                exact ⟨h2, Keeps.trans k01 k2⟩
              | red =>
                have hrb : ¬ (RED = BLACK) := by decide
                simp only [toInt_red, hrb, reduceCtorEq, if_false, Option.some.injEq] at hT ⊢
                subst hT
                refine Ends_mono (setColor_keeps h1P .black) ?_
                rintro s2 ⟨h2, k2⟩
                exact ⟨h2, Keeps.trans k01 k2⟩
            · simp only [Frame.sib_R] at hfs
              subst hfs
              simp only [Frame.addr_R] at hpar
              have hS' : Rep s (plug (.L p cp kp t :: fs) (node sa .black sk sl sr)) := h.rep
              refine Ends_bind (setColor_keeps hS' .red) ?_
              rintro s1 ⟨h1, k1⟩
              have k01 : Keeps s s1 (plug (.R p cp kp (node sa .black sk sl sr) :: fs) t)
                (plug (.R p cp kp (node sa .red sk sl sr) :: fs) t) := k1
              have a1 := h.next h1 k01 rfl
              have h1P : Rep s1 (plug fs (node p cp kp (node sa .red sk sl sr) t)) := h1
              simp only [a1.parent, ctxPar_cons, Frame.addr_R, bind_ok, getColor_focus h1P]
              cases cp with
              | black =>
                simp only [toInt_black, if_true] at hT ⊢
                refine Ends_mono (ih false _ fs s1 (some p) T a1.up hT) ?_
                rintro s2 ⟨h2, k2⟩
                exact ⟨h2, Keeps.trans k01 k2⟩
              | red =>
                have hrb : ¬ (RED = BLACK) := by decide
                simp only [toInt_red, hrb, reduceCtorEq, if_false, Option.some.injEq] at hT ⊢
                subst hT
                refine Ends_mono (setColor_keeps h1P .black) ?_
                rintro s2 ⟨h2, k2⟩
                exact ⟨h2, Keeps.trans k01 k2⟩

theorem delTarget_shape (a : Nat) (c : Color) (x : Int) (l r : RB) (ctx : Ctx) :
    ∃ d cd kd dl dr, (delTarget (node a c x l r) ctx).2 = node d cd kd dl dr
      ∧ (dl = .nil ∨ dr = .nil) := by
  by_cases hlr : l.ptr ≠ none ∧ r.ptr ≠ none
  · simp only [delTarget, if_pos hlr]
    have hr : r ≠ .nil := by
      rintro rfl; simp at hlr
    obtain ⟨d, cd, kd, dr, hm⟩ := minNode_shape r hr
    exact ⟨d, cd, kd, .nil, dr, hm, Or.inl rfl⟩
  · simp only [delTarget, if_neg hlr]
    refine ⟨a, c, x, l, r, rfl, ?_⟩
    cases l with
    | nil => exact Or.inl rfl
    | node la lc lk ll lr =>
      cases r with
      | nil => exact Or.inr rfl
      | node ra rc rk rl rr => simp at hlr

theorem delete_target_spec {s : State} {ctx : Ctx} {a : Nat} {c : Color} {x : Int} {l r : RB}
    (h : Rep s (plug ctx (node a c x l r))) :
    ∃ s1, delete_target s (some a)
        = .ok (s1, (delTarget (node a c x l r) ctx).2.ptr)
      ∧ Rep s1 (plug (delTarget (node a c x l r) ctx).1 (delTarget (node a c x l r) ctx).2)
      ∧ s1.next = s.next := by
  simp only [delete_target, getLeft_focus h, getRight_focus h, bind_ok]
  by_cases hlr : l.ptr ≠ none ∧ r.ptr ≠ none
  · simp only [delTarget, if_pos hlr]
    have hr : r ≠ .nil := by
      rintro rfl; simp at hlr
    have hR : Rep s (plug (.R a c x l :: ctx) r) := h
    have hfm := findmin_spec r _ s (s.next + 1) hR (by
      have h1 := hR.ctx_length_lt
      have h2 := r.height_le_size
      omega)
    obtain ⟨d, cd, kd, dr, hm⟩ := minNode_shape r hr
    have hM : Rep s (plug (r.minPath ++ (.R a c x l :: ctx)) (node d cd kd .nil dr)) := by
      rw [← hm, plug_append, minNode_plug]; exact hR
    simp only [hfm, bind_ok, hm, ptr_node, getData_focus hM, RB.rootKey, if_pos hlr]
    obtain ⟨s1, he, h1, hn1, -⟩ := Ends_iff.1 (setData_spec h kd)
    refine ⟨s1, by simp [he], ?_, hn1⟩
    have h1R : Rep s1 (plug (.R a c kd l :: ctx) r) := h1
    rw [plug_append, ← hm, minNode_plug]
    exact h1R
  · simp only [delTarget, if_neg hlr]
    exact ⟨s, by simp, h, rfl⟩

theorem delete_child_spec {s : State} {ctx : Ctx} {d : Nat} {cd : Color} {kd : Int}
    {dl dr : RB} (h : Rep s (plug ctx (node d cd kd dl dr))) :
    delete_child s (some d) = .ok (if dl.ptr ≠ none then dl else dr).ptr := by
  simp only [delete_child, getLeft_focus h, bind_ok, getRight_focus h]
  split <;> rfl

theorem delete_db_spec {s : State} {ctx : Ctx} {d : Nat} {cd : Color} {kd : Int}
    {dl dr : RB} (h : Rep s (plug ctx (node d cd kd dl dr))) (child : RB)
    (hch : child = dl ∨ child = dr) :
    delete_db s (some d) child.ptr
      = .ok (decide ((child.ptr = none ∨ child.color = .black) ∧ cd = .black)) := by
  have hc : ∃ ctx', Rep s (plug ctx' child) := by
    rcases hch with rfl | rfl
    · exact ⟨.L d cd kd dr :: ctx, h⟩
    · exact ⟨.R d cd kd dl :: ctx, h⟩
  obtain ⟨ctx', hc⟩ := hc
  simp only [delete_db, getColor_focus h]
  rcases child with _ | ⟨ca, cc, ck, cl, cr⟩
  · cases cd <;> simp [RED, BLACK]
  · simp only [ptr_node, reduceCtorEq, if_false, getColor_focus hc, bind_ok, pure_eq_ok,
      RB.color, false_or]
    cases cc <;> cases cd <;> simp [RED, BLACK]

theorem delete_rebalance_spec {s : State} {ctx : Ctx} {d : Nat} {cd : Color} {child T : RB}
    (h : Rep s (plug ctx child)) (hd : d ∉ (plug ctx child).addrs)
    (hpar : getParent s (some d) = .ok (ctxPar ctx))
    (hT : (if (child.ptr = none ∨ child.color = .black) ∧ cd = .black then
        fdbT (2 * s.next + 2) (decide (child.ptr = none)) child ctx
      else some (plug ctx (child.paint .black))) = some T) :
    Ends (delete_rebalance s (decide ((child.ptr = none ∨ child.color = .black) ∧ cd = .black))
        (some d) child.ptr)
      (fun s' => Rep s' T ∧ s'.next = s.next ∧ d ∉ T.addrs) := by
  by_cases hdb : (child.ptr = none ∨ child.color = .black) ∧ cd = .black
  · simp only [if_pos hdb] at hT
    simp only [delete_rebalance, hdb, and_self, decide_True, if_true]
    rcases child with _ | ⟨ca, cc, ck, cl, cr⟩
    · simp only [ptr_nil, ne_eq, not_true_eq_false, if_false, decide_True] at hT ⊢
      have hat : At s ctx .nil (some d) true := ⟨h, by
        rw [if_pos rfl]
        exact ⟨rfl, d, rfl, hd, hpar⟩⟩
      refine Ends_mono (fdb_spec _ _ _ _ _ _ T hat hT) ?_
      rintro s' ⟨h1, k1⟩
      exact ⟨h1, k1.1, (k1.2 d hd).2⟩
    · simp only [ptr_node, reduceCtorEq, ne_eq, not_false_eq_true, if_true, decide_False] at hT ⊢
      have hat : At s ctx (node ca cc ck cl cr) (some ca) false := ⟨h, by simp⟩
      refine Ends_mono (fdb_spec _ _ _ _ _ _ T hat hT) ?_
      rintro s' ⟨h1, k1⟩
      exact ⟨h1, k1.1, (k1.2 d hd).2⟩
  · simp only [if_neg hdb, Option.some.injEq] at hT
    subst hT
    simp only [delete_rebalance, hdb, decide_False, Bool.false_eq_true, if_false]
    rcases child with _ | ⟨ca, cc, ck, cl, cr⟩
    · simp only [ptr_nil, ne_eq, not_true_eq_false, if_false, pure_eq_ok]
      exact ⟨h, rfl, hd⟩
    · simp only [ptr_node, reduceCtorEq, ne_eq, not_false_eq_true, if_true]
      refine Ends_mono (setColor_keeps h .black) ?_
      rintro s' ⟨h1, k1⟩
      exact ⟨h1, k1.1, (k1.2 d hd).2⟩

theorem zoom_ne_nil_root {k : Int} {t : RB} (hz : (zoom k t []).2 ≠ .nil) : t ≠ .nil := by
  rintro rfl
  exact hz rfl

theorem delete_node_found {s : State} {t T : RB} {k : Int} (h : Rep s t)
    (hz : (zoom k t []).2 ≠ .nil) (hT : deleteT (2 * s.next + 2) k t = some T) :
    Returns (delete_node s k) (fun st s' => st = SUCCESS ∧ Rep s' T ∧ s'.next = s.next) := by
  have htn := zoom_ne_nil_root hz
  have hroot : s.root ≠ none := by
    rw [h.1]
    cases t with
    | nil => exact absurd rfl htn
    | node a c x l r => simp
  have hd := delete_descend_spec k t [] s (s.next + 1) h (by have := h.height_le; omega)
  rw [← h.1] at hd
  have hplug := zoom_plug k t []
  unfold deleteT at hT
  rcases hzz : (zoom k t []).2 with _ | ⟨a, c, x, l, r⟩
  · exact absurd hzz hz
  rw [hzz] at hd hplug hT
  have hf : Rep s (plug (zoom k t []).1 (node a c x l r)) := by rw [hplug]; exact h
  obtain ⟨s1, ht1, h1, hn1⟩ := delete_target_spec hf
  obtain ⟨d, cd, kd, dl, dr, hdt, hdlr⟩ := delTarget_shape a c x l r (zoom k t []).1
  rw [hdt] at ht1 h1 hT
  simp only [delSplice] at hT
  have hch : ((if dl.ptr ≠ none then dl else dr) = dl ∧ dr = .nil)
      ∨ ((if dl.ptr ≠ none then dl else dr) = dr ∧ dl = .nil) := by
    rcases hdlr with rfl | rfl
    · right; simp
    · cases dl with
      | nil => right; simp
      | node la lc lk ll lr => left; simp
  have hch2 : (if dl.ptr ≠ none then dl else dr) = dl ∨ (if dl.ptr ≠ none then dl else dr) = dr :=
    hch.elim (fun x => Or.inl x.1) (fun x => Or.inr x.1)
  simp only [delete_node, hroot, if_false, hd, bind_ok, ptr_node, reduceCtorEq, ht1,
    delete_child_spec h1, delete_db_spec h1 _ hch2]
  refine Ends_bind_returns (delete_splice_spec h1 _ hch) ?_
  rintro s2 ⟨h2, hn2, hm2, hd2⟩
  have hpar : getParent s2 (some d) = .ok (ctxPar (delTarget (node a c x l r) (zoom k t []).1).1) := by
    rw [← getParent_focus h1]
    simp only [getParent, load, hm2]
  rw [← hn1, ← hn2] at hT
  refine Ends_bind_returns (delete_rebalance_spec h2 hd2 hpar hT) ?_
  rintro s3 ⟨h3, hn3, hd3⟩
  refine Ends_bind_returns (free_spec h3 hd3) ?_
  rintro s4 ⟨h4, hn4⟩
  exact ⟨rfl, h4, by rw [hn4, hn3, hn2, hn1]⟩

/-! ### Deletion on the tree: keys, root color, fuel -/

theorem keys_plug_congr (ctx : Ctx) {t t' : RB} (h : t.keys = t'.keys) :
    (plug ctx t).keys = (plug ctx t').keys := by
  rw [keys_plug, keys_plug, h]

theorem rootBlack_plug_congr (ctx : Ctx) {t t' : RB} (h : t.rootBlack → t'.rootBlack)
    (hp : (plug ctx t).rootBlack) : (plug ctx t').rootBlack := by
  rcases ctx with _ | ⟨f, fs⟩
  · exact h hp
  · rw [rootBlack_plug _ _ (by simp)] at hp ⊢
    exact hp

theorem fdbRot_keys (f : Frame) (t : RB) (sa : Nat) (sc : Color) (sk : Int) (sl sr : RB)
    (hf : f.sib = node sa sc sk sl sr) (hred : (sl.isRed || sr.isRed) = true) :
    (fdbRot f t sa sk sl sr).keys = (f.fill t).keys := by
  rcases f with ⟨p, cp, kp, r⟩ | ⟨p, cp, kp, l⟩
  · simp only [Frame.sib_L] at hf
    subst hf
    by_cases hsl : sl.isRed = true
    · obtain ⟨sla, slk, sll, slr, rfl⟩ := RB.isRed_iff.1 hsl
      simp [fdbRot, RB.keys]
    · have hsl' := isRed_false_of_ne hsl
      simp [fdbRot, hsl', RB.keys]
  · simp only [Frame.sib_R] at hf
    subst hf
    by_cases hsl : sl.isRed = true
    · simp [fdbRot, hsl, RB.keys]
    · have hsl' := isRed_false_of_ne hsl
      simp only [hsl', Bool.false_or] at hred
      obtain ⟨sra, srk, srl, srr, rfl⟩ := RB.isRed_iff.1 hred
      simp [fdbRot, hsl', RB.keys]

theorem fdbRot_rootBlack (f : Frame) (t : RB) (sa : Nat) (sk : Int) (sl sr : RB)
    (hred : (sl.isRed || sr.isRed) = true) (hb : (f.fill t).rootBlack) :
    (fdbRot f t sa sk sl sr).rootBlack := by
  rcases f with ⟨p, cp, kp, r⟩ | ⟨p, cp, kp, l⟩
  · have hcp : cp = .black := by
      cases cp
      · simp [RB.rootBlack] at hb
      · rfl
    subst hcp
    by_cases hsl : sl.isRed = true
    · obtain ⟨sla, slk, sll, slr, rfl⟩ := RB.isRed_iff.1 hsl
      simp [fdbRot, RB.rootBlack]
    · have hsl' := isRed_false_of_ne hsl
      simp [fdbRot, hsl', RB.rootBlack]
  · have hcp : cp = .black := by
      cases cp
      · simp [RB.rootBlack] at hb
      · rfl
    subst hcp
    by_cases hsl : sl.isRed = true
    · simp [fdbRot, hsl, RB.rootBlack]
    · have hsl' := isRed_false_of_ne hsl
      simp only [hsl', Bool.false_or] at hred
      obtain ⟨sra, srk, srl, srr, rfl⟩ := RB.isRed_iff.1 hred
      simp [fdbRot, hsl', RB.rootBlack]

theorem fdbT_keys_root : ∀ (fuel : Nat) (det : Bool) (t : RB) (ctx : Ctx) (T : RB),
    fdbT fuel det t ctx = some T →
    T.keys = (plug ctx t).keys ∧ ((plug ctx t).rootBlack → T.rootBlack) := by
  intro fuel
  induction fuel with
  | zero => intro det t ctx T h; simp [fdbT] at h
  | succ n ih =>
    intro det t ctx T h
    rcases ctx with _ | ⟨f, fs⟩
    · simp only [fdbT] at h
      split at h
      · split at h
        · cases h
        · cases h; exact ⟨rfl, id⟩
      · cases h; exact ⟨rfl, id⟩
    · simp only [fdbT] at h
      cases hsib : sibOf det f with
      | nil =>
        simp only [hsib] at h
        exact ih false (f.fill t) fs T h
      | node sa sc sk sl sr =>
        have hfs := sibOf_eq_sib hsib
        simp only [hsib] at h
        cases sc with
        | red =>
          simp only [if_true] at h
          rcases f with ⟨p, cp, kp, r⟩ | ⟨p, cp, kp, l⟩
          · simp only [Frame.sib_L] at hfs
            subst hfs
            obtain ⟨h1, h2⟩ := ih _ _ _ _ h
            refine ⟨h1.trans ?_, fun hb => h2 ?_⟩
            · exact keys_plug_congr fs (by simp [RB.keys])
            · exact rootBlack_plug_congr fs (fun _ => rfl) hb
          · simp only [Frame.sib_R] at hfs
            subst hfs
            obtain ⟨h1, h2⟩ := ih _ _ _ _ h
            refine ⟨h1.trans ?_, fun hb => h2 ?_⟩
            · exact keys_plug_congr fs (by simp [RB.keys])
            · exact rootBlack_plug_congr fs (fun _ => rfl) hb
        | black =>
          simp only [reduceCtorEq, if_false] at h
          by_cases hred : (sl.isRed || sr.isRed) = true
          · simp only [hred, if_true, Option.some.injEq] at h
            subst h
            refine ⟨keys_plug_congr fs (fdbRot_keys f t sa .black sk sl sr hfs hred), fun hb => ?_⟩
            exact rootBlack_plug_congr fs (fdbRot_rootBlack f t sa sk sl sr hred) hb
          · simp only [hred, Bool.false_eq_true, if_false] at h
            rcases f with ⟨p, cp, kp, r⟩ | ⟨p, cp, kp, l⟩
            · simp only [Frame.sib_L] at hfs
              subst hfs
              cases cp with
              | black =>
                simp only [if_true] at h
                obtain ⟨h1, h2⟩ := ih _ _ _ _ h
                exact ⟨h1.trans (keys_plug_congr fs (by simp [RB.keys])),
                  fun hb => h2 (rootBlack_plug_congr fs (fun _ => rfl) hb)⟩
              | red =>
                simp only [reduceCtorEq, if_false, Option.some.injEq] at h
                subst h
                exact ⟨keys_plug_congr fs (by simp [RB.keys]),
                  fun hb => rootBlack_plug_congr fs (fun _ => rfl) hb⟩
            · simp only [Frame.sib_R] at hfs
              subst hfs
              cases cp with
              | black =>
                simp only [if_true] at h
                obtain ⟨h1, h2⟩ := ih _ _ _ _ h
                exact ⟨h1.trans (keys_plug_congr fs (by simp [RB.keys])),
                  fun hb => h2 (rootBlack_plug_congr fs (fun _ => rfl) hb)⟩
              | red =>
                simp only [reduceCtorEq, if_false, Option.some.injEq] at h
                subst h
                exact ⟨keys_plug_congr fs (by simp [RB.keys]),
                  fun hb => rootBlack_plug_congr fs (fun _ => rfl) hb⟩

theorem fdbT_some : ∀ (fuel : Nat) (det : Bool) (t : RB) (ctx : Ctx),
    ctxWeight ctx + 2 ≤ fuel → ∃ T, fdbT fuel det t ctx = some T := by
  intro fuel
  induction fuel with
  | zero => intro det t ctx h; omega
  | succ n ih =>
    intro det t ctx h
    rcases ctx with _ | ⟨f, fs⟩
    · simp only [fdbT]
      have hn : n ≠ 0 := by omega
      cases det <;> simp [hn]
    · simp only [ctxWeight] at h
      simp only [fdbT]
      cases hsib : sibOf det f with
      | nil => exact ih _ _ _ (by omega)
      | node sa sc sk sl sr =>
        have hfs := sibOf_eq_sib hsib
        simp only
        cases sc with
        | red =>
          simp only [if_true]
          rcases f with ⟨p, cp, kp, r⟩ | ⟨p, cp, kp, l⟩
          · simp only [Frame.sib_L] at hfs
            subst hfs
            refine ih _ _ _ ?_
            simp only [ctxWeight, Frame.sib_L, RB.size] at h ⊢
            omega
          · simp only [Frame.sib_R] at hfs
            subst hfs
            refine ih _ _ _ ?_
            simp only [ctxWeight, Frame.sib_R, RB.size] at h ⊢
            omega
        | black =>
          simp only [reduceCtorEq, if_false]
          by_cases hred : (sl.isRed || sr.isRed) = true
          · simp only [hred, if_true]
            exact ⟨_, rfl⟩
          · simp only [hred, Bool.false_eq_true, if_false]
            rcases f with ⟨p, cp, kp, r⟩ | ⟨p, cp, kp, l⟩ <;> cases cp <;>
              simp only [reduceCtorEq, if_false, if_true]
            · exact ⟨_, rfl⟩
            · exact ih _ _ _ (by omega)
            · exact ⟨_, rfl⟩
            · exact ih _ _ _ (by omega)

theorem ctxLeft_append (c1 c2 : Ctx) : ctxLeft (c1 ++ c2) = ctxLeft c2 ++ ctxLeft c1 := by
  induction c1 with
  | nil => simp [ctxLeft]
  | cons f fs ih => cases f <;> simp [ctxLeft, ih]

theorem ctxLeft_minPath (t : RB) : ctxLeft t.minPath = [] := by
  induction t with
  | nil => rfl
  | node a c k l r ihl _ =>
    cases l with
    | nil => rfl
    | node la lc lk ll lr =>
      show ctxLeft ((node la lc lk ll lr).minPath ++ [.L a c k r]) = []
      rw [ctxLeft_append, ihl]
      rfl

theorem ctxWeight_le (ctx : Ctx) : ∀ t : RB,
    ctxWeight ctx + 2 * t.size ≤ 2 * (plug ctx t).size := by
  induction ctx with
  | nil => intro t; simp [ctxWeight]
  | cons f fs ih =>
    intro t
    rw [plug_cons]
    have := ih (f.fill t)
    cases f <;> simp only [ctxWeight, Frame.sib_L, Frame.sib_R, Frame.fill_L, Frame.fill_R,
      RB.size] at this ⊢ <;> omega

theorem size_plug_congr (ctx : Ctx) {t t' : RB} (h : t.addrs = t'.addrs) :
    (plug ctx t).size = (plug ctx t').size := by
  rw [← RB.addrs_length, ← RB.addrs_length, addrs_plug_congr ctx h]

theorem delSplice_ok (fuel : Nat) (d : Nat) (cd : Color) (kd : Int) (dl dr : RB) (ctx : Ctx)
    (hone : dl = .nil ∨ dr = .nil) (hf : ctxWeight ctx + 2 ≤ fuel) :
    ∃ T, delSplice fuel (node d cd kd dl dr) ctx = some T
      ∧ T.keys = ctxLeft ctx ++ (dl.keys ++ dr.keys) ++ ctxRight ctx
      ∧ ((plug ctx (node d cd kd dl dr)).rootBlack → T.rootBlack) := by
  have hkeys : (if dl.ptr ≠ none then dl else dr).keys = dl.keys ++ dr.keys := by
    rcases hone with rfl | rfl
    · simp [RB.keys]
    · cases dl <;> simp [RB.keys]
  simp only [delSplice]
  generalize (if dl.ptr ≠ none then dl else dr) = child at hkeys ⊢
  by_cases hdb : (child.ptr = none ∨ child.color = .black) ∧ cd = .black
  · rw [if_pos hdb]
    obtain ⟨T, hT⟩ := fdbT_some fuel (decide (child.ptr = none)) child ctx hf
    obtain ⟨h1, h2⟩ := fdbT_keys_root _ _ _ _ _ hT
    refine ⟨T, hT, ?_, fun hb => h2 (rootBlack_plug_congr ctx (fun _ => ?_) hb)⟩
    · rw [h1, keys_plug, hkeys]
    · rcases hdb.1 with hn | hc
      · cases child with
        | nil => rfl
        | node _ _ _ _ _ => simp at hn
      · cases child with
        | nil => rfl
        | node _ cc _ _ _ =>
          simp only [RB.color] at hc
          subst hc
          rfl
  · rw [if_neg hdb]
    refine ⟨_, rfl, ?_, fun hb => rootBlack_plug_congr ctx (fun _ => rootBlack_paint _) hb⟩
    rw [keys_plug, keys_paint, hkeys]

theorem deleteT_ok {t : RB} {k : Int} (fuel : Nat) (hb : t.bst) (hr : t.rootBlack)
    (hk : k ∈ t.keys) (hf : 2 * t.size + 2 ≤ fuel) :
    (zoom k t []).2 ≠ .nil ∧ ∃ T, deleteT fuel k t = some T ∧ T.rootBlack ∧ T.bst
      ∧ ∃ L R, t.keys = L ++ k :: R ∧ T.keys = L ++ R := by
  obtain ⟨a, c, l, r, hz⟩ := zoom_mem k t [] hb hk
  have hplug := zoom_plug k t []
  rw [hz, plug_nil] at hplug
  refine ⟨by rw [hz]; simp, ?_⟩
  have hbst : ∀ {T : RB} {L R : List Int}, t.keys = L ++ k :: R → T.keys = L ++ R → T.bst := by
    intro T L R h1 h2
    rw [bst_iff_pairwise] at hb ⊢
    rw [h1] at hb
    rw [h2]
    exact hb.sublist (List.Sublist.append_left (List.sublist_cons_self _ _) _)
  unfold deleteT
  rw [hz]
  generalize (zoom k t []).1 = ctx at hplug
  by_cases hlr : l.ptr ≠ none ∧ r.ptr ≠ none
  · simp only [delTarget, if_pos hlr]
    have hrn : r ≠ .nil := by
      rintro rfl; simp at hlr
    obtain ⟨d, cd, kd, dr, hm⟩ := minNode_shape r hrn
    have hmp := minNode_plug r
    rw [hm] at hmp
    simp only [hm, RB.rootKey]
    have hwhole : plug (r.minPath ++ (.R a c kd l :: ctx)) (node d cd kd .nil dr)
        = plug ctx (node a c kd l r) := by
      rw [plug_append, hmp]; rfl
    have hsz : (plug ctx (node a c kd l r)).size = t.size := by
      rw [← hplug]
      exact size_plug_congr ctx rfl
    have hw := ctxWeight_le (r.minPath ++ (.R a c kd l :: ctx)) (node d cd kd .nil dr)
    rw [hwhole, hsz] at hw
    simp only [RB.size] at hw
    obtain ⟨T, hT, hkeys, hroot⟩ := delSplice_ok fuel d cd kd .nil dr
      (r.minPath ++ (.R a c kd l :: ctx)) (Or.inl rfl) (by omega)
    have hrk : r.keys = kd :: (dr.keys ++ ctxRight r.minPath) := by
      have h1 := congrArg RB.keys hmp
      rw [keys_plug, ctxLeft_minPath] at h1
      rw [← h1]
      simp [RB.keys]
    have htk : t.keys = (ctxLeft ctx ++ l.keys) ++ k :: (r.keys ++ ctxRight ctx) := by
      rw [← hplug, keys_plug]
      simp [RB.keys]
    have hTk : T.keys = (ctxLeft ctx ++ l.keys) ++ (r.keys ++ ctxRight ctx) := by
      rw [hkeys, hrk, ctxLeft_append, ctxLeft_minPath]
      have : ctxRight (r.minPath ++ (.R a c kd l :: ctx)) = ctxRight r.minPath ++ ctxRight ctx := by
        have h1 := keys_plug (r.minPath ++ (.R a c kd l :: ctx)) .nil
        rw [plug_append, keys_plug, keys_plug, ctxLeft_append, ctxLeft_minPath] at h1
        simpa [RB.keys, ctxLeft, ctxRight] using h1.symm
      rw [this]
      simp [RB.keys, ctxLeft]
    refine ⟨T, hT, hroot ?_, hbst htk hTk, _, _, htk, hTk⟩
    rw [hwhole]
    have h0 : (plug ctx (node a c k l r)).rootBlack := by
      rw [hplug]; exact hr
    exact @rootBlack_plug_congr ctx (node a c k l r) (node a c kd l r)
      (fun h => by cases c <;> exact h) h0
  · simp only [delTarget, if_neg hlr]
    have hone : l = .nil ∨ r = .nil := by
      cases l with
      | nil => exact Or.inl rfl
      | node la lc lk ll lr =>
        cases r with
        | nil => exact Or.inr rfl
        | node ra rc rk rl rr => simp at hlr
    have hw := ctxWeight_le ctx (node a c k l r)
    rw [hplug] at hw
    simp only [RB.size] at hw
    obtain ⟨T, hT, hkeys, hroot⟩ := delSplice_ok fuel a c k l r ctx hone (by omega)
    have htk : t.keys = (ctxLeft ctx ++ l.keys) ++ k :: (r.keys ++ ctxRight ctx) := by
      rw [← hplug, keys_plug]
      simp [RB.keys]
    have hTk : T.keys = (ctxLeft ctx ++ l.keys) ++ (r.keys ++ ctxRight ctx) := by
      rw [hkeys]; simp
    exact ⟨T, hT, hroot (by rw [hplug]; exact hr), hbst htk hTk, _, _, htk, hTk⟩

/-! ### Search, and what every reachable state satisfies -/

theorem search_loop_spec (k : Int) (t : RB) :
    ∀ (ctx : Ctx) (s : State) (fuel : Nat), Rep s (plug ctx t) → t.height < fuel →
      search_loop fuel s t.ptr k
        = .ok (if (zoom k t ctx).2 = .nil then DATA_NOT_FOUND else SUCCESS) := by
  induction t with
  | nil =>
    intro ctx s fuel _ hf
    cases fuel with
    | zero => simp at hf
    | succ fuel => simp [search_loop, zoom]
  | node a c x l r ihl ihr =>
    intro ctx s fuel h hf
    cases fuel with
    | zero => simp at hf
    | succ fuel =>
      simp only [RB.height] at hf
      simp only [search_loop, ptr_node, reduceCtorEq, if_false, getData_focus h, bind_ok,
        getLeft_focus h, getRight_focus h]
      unfold zoom
      by_cases h0 : x = k
      · subst h0
        simp
      · simp only [h0, if_false]
        by_cases h1 : k < x
        · simp only [h1, if_true, bind_ok]
          exact ihl (.L a c x r :: ctx) s fuel h (by omega)
        · have h2 : x < k := by omega
          simp only [h1, if_false, h2, if_true, bind_ok]
          exact ihr (.R a c x l :: ctx) s fuel h (by omega)

theorem search_node_spec {s : State} {t : RB} (k : Int) (h : Rep s t) (hb : t.bst) :
    search_node s k = .ok (if k ∈ t.keys then SUCCESS else DATA_NOT_FOUND) := by
  have hs := search_loop_spec k t [] s (s.next + 1) h (by have := h.height_le; omega)
  rw [← h.1] at hs
  unfold search_node
  rw [hs]
  by_cases hk : k ∈ t.keys
  · obtain ⟨a, c, l, r, hz⟩ := zoom_mem k t [] hb hk
    simp [hz, hk]
  · simp [zoom_not_mem k t [] hk, hk]

theorem orderedInsert_mid (k : Int) : ∀ (L R : List Int), (∀ x ∈ L, x < k) →
    (∀ x ∈ R, k < x) → (L ++ R).orderedInsert (· ≤ ·) k = L ++ k :: R := by
  intro L
  induction L with
  | nil =>
    intro R _ hR
    cases R with
    | nil => rfl
    | cons y R =>
      have := hR y (by simp)
      simp only [List.nil_append, List.orderedInsert]
      rw [if_pos (by omega)]
  | cons x L ih =>
    intro R hL hR
    have hx := hL x (by simp)
    simp only [List.cons_append, List.orderedInsert]
    rw [if_neg (by omega)]
    exact congrArg (List.cons x) (ih R (fun y hy => hL y (by simp [hy])) hR)

theorem erase_mid (k : Int) (L R : List Int) (hk : k ∉ L) : (L ++ k :: R).erase k = L ++ R := by
  rw [List.erase_append_right _ hk, List.erase_cons_head]

theorem insert_node_absent_spec {s : State} {t : RB} {k : Int} (h : Rep s t) (hb : t.bst)
    (hr : t.rootBlack) (hk : k ∉ t.keys) :
    Returns (insert_node s k) (fun st s' => st = SUCCESS ∧ ∃ t', Rep s' t' ∧ t'.bst
      ∧ t'.rootBlack ∧ t'.keys = t.keys.orderedInsert (· ≤ ·) k
      ∧ (t = .nil → t' = node s.next .black k .nil .nil)) := by
  have hz := zoom_not_mem k t [] hk
  obtain ⟨T, hT, hroot, hbst, ⟨L, R, h1, h2, hL, hR⟩, hnil⟩ := insertT_ok s.next hb hr hz
  refine Returns_mono (insert_node_new h hz hT) ?_
  rintro st s' ⟨hst, hrep, -⟩
  refine ⟨hst, T, hrep, hbst, hroot, ?_, hnil⟩
  rw [h1, h2, orderedInsert_mid k L R hL hR]

theorem delete_node_present_spec {s : State} {t : RB} {k : Int} (h : Rep s t) (hb : t.bst)
    (hr : t.rootBlack) (hk : k ∈ t.keys) :
    Returns (delete_node s k) (fun st s' => st = SUCCESS ∧ ∃ t', Rep s' t' ∧ t'.bst
      ∧ t'.rootBlack ∧ t'.keys = t.keys.erase k) := by
  obtain ⟨hz, T, hT, hroot, hbst, L, R, h1, h2⟩ :=
    deleteT_ok (2 * s.next + 2) hb hr hk (by have := h.size_le; omega)
  refine Returns_mono (delete_node_found h hz hT) ?_
  rintro st s' ⟨hst, hrep, -⟩
  refine ⟨hst, T, hrep, hbst, hroot, ?_⟩
  have hp := (bst_iff_pairwise t).1 hb
  rw [h1] at hp
  have hkL : k ∉ L := by
    intro hm
    have := (List.pairwise_append.1 hp).2.2 k hm k (by simp)
    omega
  rw [h1, h2, erase_mid k L R hkL]

theorem Inv_empty : Inv State.empty :=
  ⟨.nil, ⟨rfl, trivial, List.nodup_nil, by simp [RB.addrs]⟩, trivial, rfl⟩

theorem step_inv {s : State} {t : RB} (o : Op) (h : Rep s t) (hb : t.bst)
    (hr : t.rootBlack) :
    Ends (step s o) (fun s' => ∃ t', Rep s' t' ∧ t'.bst ∧ t'.rootBlack
      ∧ ∀ k, (k ∈ t'.keys ↔ liveFrom (decide (k ∈ t.keys)) k [o] = true)) := by
  cases o with
  | ins j =>
    by_cases hj : j ∈ t.keys
    · have hz : (zoom j t []).2 ≠ .nil := by
        obtain ⟨a, c, l, r, hz⟩ := zoom_mem j t [] hb hj
        rw [hz]; simp
      simp only [step, insert_node_dup h hz, Except.map]
      refine ⟨t, h, hb, hr, fun k => ?_⟩
      simp only [liveFrom]
      by_cases hjk : j = k
      · subst hjk; simp [hj]
      · simp [hjk]
    · obtain ⟨st, s', he, -, t', hrep, hb', hr', hkeys, -⟩ :=
        Returns_iff.1 (insert_node_absent_spec h hb hr hj)
      simp only [step, he, Except.map]
      refine ⟨t', hrep, hb', hr', fun k => ?_⟩
      simp only [liveFrom, hkeys, List.mem_orderedInsert]
      by_cases hjk : j = k
      · subst hjk; simp
      · have hkj : k ≠ j := fun e => hjk e.symm
        simp [hjk, hkj]
  | del j =>
    by_cases hj : j ∈ t.keys
    · obtain ⟨st, s', he, -, t', hrep, hb', hr', hkeys⟩ :=
        Returns_iff.1 (delete_node_present_spec h hb hr hj)
      simp only [step, he, Except.map]
      refine ⟨t', hrep, hb', hr', fun k => ?_⟩
      have hnd : t.keys.Nodup := ((bst_iff_pairwise t).1 hb).imp (fun h => ne_of_lt h)
      simp only [liveFrom, hkeys, hnd.mem_erase_iff]
      by_cases hjk : j = k
      · subst hjk; simp
      · have hkj : k ≠ j := fun e => hjk e.symm
        simp [hjk, hkj]
    · simp only [step, delete_node_absent h hj, Except.map]
      refine ⟨t, h, hb, hr, fun k => ?_⟩
      simp only [liveFrom]
      by_cases hjk : j = k
      · subst hjk; simp [hj]
      · simp [hjk]

theorem run_inv : ∀ (ops : List Op) (s : State) (t : RB), Rep s t → t.bst → t.rootBlack →
    Ends (run ops s) (fun s' => ∃ t', Rep s' t' ∧ t'.bst ∧ t'.rootBlack
      ∧ ∀ k, (k ∈ t'.keys ↔ liveFrom (decide (k ∈ t.keys)) k ops = true)) := by
  intro ops
  induction ops with
  | nil =>
    intro s t h hb hr
    exact ⟨t, h, hb, hr, fun k => by simp [liveFrom]⟩
  | cons o os ih =>
    intro s t h hb hr
    obtain ⟨s1, he, t1, h1, hb1, hr1, hk1⟩ := Ends_iff.1 (step_inv o h hb hr)
    simp only [run, he, bind_ok]
    refine Ends_mono (ih s1 t1 h1 hb1 hr1) ?_
    rintro s' ⟨t', h', hb', hr', hk'⟩
    refine ⟨t', h', hb', hr', fun k => ?_⟩
    rw [hk' k]
    have hd : decide (k ∈ t1.keys) = liveFrom (decide (k ∈ t.keys)) k [o] := by
      rw [Bool.eq_iff_iff]
      simp only [decide_eq_true_eq]
      exact hk1 k
    rw [hd]
    cases o <;> rfl

theorem run_reach (ops : List Op) :
    Ends (run ops State.empty) (fun s => ∃ t, Rep s t ∧ t.bst ∧ t.rootBlack
      ∧ ∀ k, (k ∈ t.keys ↔ live ops k = true)) := by
  obtain ⟨t0, h0, hb0, hr0⟩ := Inv_empty
  have ht0 : t0 = .nil := h0.unique ⟨rfl, trivial, List.nodup_nil, by simp [RB.addrs]⟩
  subst ht0
  refine Ends_mono (run_inv ops State.empty .nil h0 hb0 hr0) ?_
  rintro s ⟨t, h, hb, hr, hk⟩
  refine ⟨t, h, hb, hr, fun k => ?_⟩
  rw [hk k]
  simp [live, RB.keys]

/-! ### Rotations keep keys and colors -/

theorem KeepsFields.same (s : State) : KeepsFields s s := fun _ n h => ⟨n, h, rfl, rfl⟩

theorem KeepsFields.chain {s1 s2 s3 : State} (h1 : KeepsFields s1 s2) (h2 : KeepsFields s2 s3) :
    KeepsFields s1 s3 := by
  intro d n h
  obtain ⟨n', h', hc, hd⟩ := h1 d n h
  obtain ⟨n'', h'', hc', hd'⟩ := h2 d n' h'
  exact ⟨n'', h'', hc'.trans hc, hd'.trans hd⟩

theorem modify_fields {s s' : State} {p : Ptr} {f : Tree → Tree}
    (hf : ∀ n, (f n).color = n.color ∧ (f n).data = n.data) (h : modify s p f = .ok s') :
    KeepsFields s s' := by
  rcases p with _ | a
  · simp [modify] at h
  · simp only [modify] at h
    cases hm : s.mem a with
    | none => simp [hm] at h
    | some n0 =>
      simp only [hm, Except.ok.injEq] at h
      subst h
      intro d n hd
      by_cases hda : d = a
      · subst hda
        rw [hm] at hd
        cases hd
        exact ⟨f n0, by simp [store], (hf n0).1, (hf n0).2⟩
      · exact ⟨n, by simp [store, Function.update_apply, hda, hd], rfl, rfl⟩

theorem setLeft_fields {s s' : State} {p v : Ptr} (h : setLeft s p v = .ok s') :
    KeepsFields s s' :=
  @modify_fields s s' p (fun n => { n with left := v }) (fun _ => ⟨rfl, rfl⟩) h

theorem setRight_fields {s s' : State} {p v : Ptr} (h : setRight s p v = .ok s') :
    KeepsFields s s' :=
  @modify_fields s s' p (fun n => { n with right := v }) (fun _ => ⟨rfl, rfl⟩) h

theorem setParent_fields {s s' : State} {p v : Ptr} (h : setParent s p v = .ok s') :
    KeepsFields s s' :=
  @modify_fields s s' p (fun n => { n with parent := v }) (fun _ => ⟨rfl, rfl⟩) h

theorem left_rotate_fields {s s' : State} {node : Ptr} (h : left_rotate s node = .ok s') :
    KeepsFields s s' := by
  unfold left_rotate at h
  obtain ⟨temp, -, h⟩ := bind_eq_ok.1 h
  have tail2 : ∀ s0 : State, (do
      let s ← setLeft s0 temp node
      setParent s node temp) = .ok s' → KeepsFields s0 s' := by
    intro s0 h0
    obtain ⟨s5, h5, h0⟩ := bind_eq_ok.1 h0
    exact (setLeft_fields h5).chain (setParent_fields h0)
  have tail1 : ∀ s0 : State, (do
      let np ← getParent s0 node
      let s ← setParent s0 temp np
      let np ← getParent s node
      let s ←
        if np = none then pure (setRoot s temp)
        else do
          let npl ← getLeft s np
          if node = npl then setLeft s np temp else setRight s np temp
      let s ← setLeft s temp node
      setParent s node temp) = .ok s' → KeepsFields s0 s' := by
    intro s0 h0
    obtain ⟨np, -, h0⟩ := bind_eq_ok.1 h0
    obtain ⟨s3, h3, h0⟩ := bind_eq_ok.1 h0
    obtain ⟨np2, -, h0⟩ := bind_eq_ok.1 h0
    refine (setParent_fields h3).chain ?_
    dsimp only at h0
    split at h0
    · exact tail2 (setRoot s3 temp) h0
    · obtain ⟨npl, -, h0⟩ := bind_eq_ok.1 h0
      split at h0
      · obtain ⟨s4, h4, h0⟩ := bind_eq_ok.1 h0
        exact (setLeft_fields h4).chain (tail2 _ h0)
      · obtain ⟨s4, h4, h0⟩ := bind_eq_ok.1 h0
        exact (setRight_fields h4).chain (tail2 _ h0)
  obtain ⟨tl, -, h⟩ := bind_eq_ok.1 h
  obtain ⟨s1, h1, h⟩ := bind_eq_ok.1 h
  obtain ⟨tl2, -, h⟩ := bind_eq_ok.1 h
  refine (setRight_fields h1).chain ?_
  dsimp only at h
  split at h
  · obtain ⟨s2, h2, h⟩ := bind_eq_ok.1 h
    exact (setParent_fields h2).chain (tail1 _ h)
  · exact tail1 _ h

theorem right_rotate_fields {s s' : State} {node : Ptr} (h : right_rotate s node = .ok s') :
    KeepsFields s s' := by
  unfold right_rotate at h
  obtain ⟨temp, -, h⟩ := bind_eq_ok.1 h
  have tail2 : ∀ s0 : State, (do
      let s ← setRight s0 temp node
      setParent s node temp) = .ok s' → KeepsFields s0 s' := by
    intro s0 h0
    obtain ⟨s5, h5, h0⟩ := bind_eq_ok.1 h0
    exact (setRight_fields h5).chain (setParent_fields h0)
  have tail1 : ∀ s0 : State, (do
      let np ← getParent s0 node
      let s ← setParent s0 temp np
      let np ← getParent s node
      let s ←
        if np = none then pure (setRoot s temp)
        else do
          let npr ← getRight s np
          if node = npr then setRight s np temp else setLeft s np temp
      let s ← setRight s temp node
      setParent s node temp) = .ok s' → KeepsFields s0 s' := by
    intro s0 h0
    obtain ⟨np, -, h0⟩ := bind_eq_ok.1 h0
    obtain ⟨s3, h3, h0⟩ := bind_eq_ok.1 h0
    obtain ⟨np2, -, h0⟩ := bind_eq_ok.1 h0
    refine (setParent_fields h3).chain ?_
    dsimp only at h0
    split at h0
    · exact tail2 (setRoot s3 temp) h0
    · obtain ⟨npl, -, h0⟩ := bind_eq_ok.1 h0
      split at h0
      · obtain ⟨s4, h4, h0⟩ := bind_eq_ok.1 h0
        exact (setRight_fields h4).chain (tail2 _ h0)
      · obtain ⟨s4, h4, h0⟩ := bind_eq_ok.1 h0
        exact (setLeft_fields h4).chain (tail2 _ h0)
  obtain ⟨tl, -, h⟩ := bind_eq_ok.1 h
  obtain ⟨s1, h1, h⟩ := bind_eq_ok.1 h
  obtain ⟨tl2, -, h⟩ := bind_eq_ok.1 h
  refine (setLeft_fields h1).chain ?_
  dsimp only at h
  split at h
  · obtain ⟨s2, h2, h⟩ := bind_eq_ok.1 h
    exact (setParent_fields h2).chain (tail1 _ h)
  · exact tail1 _ h

theorem focus_of_mem (x : Nat) : ∀ t : RB, x ∈ t.addrs →
    ∃ ctx c k l r, t = plug ctx (node x c k l r) := by
  intro t
  induction t with
  | nil => intro h; simp [RB.addrs] at h
  | node a c k l r ihl ihr =>
    intro h
    simp only [RB.addrs, List.mem_cons, List.mem_append] at h
    rcases h with h | rfl | h
    · obtain ⟨ctx, c', k', l', r', e⟩ := ihl h
      refine ⟨ctx ++ [.L a c k r], c', k', l', r', ?_⟩
      rw [plug_append, ← e]; rfl
    · exact ⟨[], c, k, l, r, rfl⟩
    · obtain ⟨ctx, c', k', l', r', e⟩ := ihr h
      refine ⟨ctx ++ [.R a c k l], c', k', l', r', ?_⟩
      rw [plug_append, ← e]; rfl

theorem Gives_iff {α : Type} {r : Except Fault α} {P : α → Prop} :
    Gives r P ↔ ∃ a, r = .ok a ∧ P a := by
  cases r <;> simp [Gives]

theorem Gives_eq {α : Type} {r : Except Fault α} {a : α} (h : Gives r (fun x => x = a)) :
    r = .ok a := by
  obtain ⟨b, hb, rfl⟩ := Gives_iff.1 h
  exact hb

theorem left_rotate_at {s : State} {t : RB} {x y : Nat} (h : Rep s t) (hx : x ∈ t.addrs)
    (hr : getRight s (some x) = .ok (some y)) :
    Ends (left_rotate s (some x)) (fun s' => ∃ t', Rep s' t' ∧ t'.keys = t.keys
      ∧ KeepsFields s s'
      ∧ getParent s' (some y) = getParent s (some x)
      ∧ getLeft s' (some y) = .ok (some x)
      ∧ getParent s' (some x) = .ok (some y)
      ∧ (s.root = some x → s'.root = some y)
      ∧ (∀ p, getParent s (some x) = .ok (some p) →
          (getLeft s (some p) = .ok (some x) → getLeft s' (some p) = .ok (some y))
          ∧ (getRight s (some p) = .ok (some x) → getRight s' (some p) = .ok (some y)))) := by
  obtain ⟨ctx, c, k, l, r, rfl⟩ := focus_of_mem x t hx
  rw [getRight_focus h] at hr
  rcases r with _ | ⟨y', cy, ky, b, c'⟩
  · simp at hr
  simp only [ptr_node, Except.ok.injEq, Option.some.injEq] at hr
  subst hr
  obtain ⟨s', he, h', -, -⟩ := Ends_iff.1 (left_rotate_spec h)
  rw [he]
  refine ⟨_, h', keys_plug_congr ctx (by simp [RB.keys]), left_rotate_fields he, ?_, ?_, ?_, ?_, ?_⟩
  · rw [getParent_focus h', getParent_focus h]
  · exact getLeft_focus h'
  · have h2 : Rep s' (plug (.L y' cy ky c' :: ctx) (node x c k l b)) := h'
    exact getParent_focus h2
  · intro hroot
    have hctx := (Rep.root_eq_iff h).1 hroot.symm
    subst hctx
    exact h'.1
  · intro p hp
    rw [getParent_focus h] at hp
    rcases ctx with _ | ⟨f, fs⟩
    · simp [ctxPar] at hp
    simp only [ctxPar_cons, Except.ok.injEq, Option.some.injEq] at hp
    subst hp
    have hne := Rep.sib_ptr_ne h
    rcases f with ⟨p, cp, kp, rr⟩ | ⟨p, cp, kp, ll⟩
    · have h1 : Rep s (plug fs (node p cp kp (node x c k l (node y' cy ky b c')) rr)) := h
      have h2 : Rep s' (plug fs (node p cp kp (node y' cy ky (node x c k l b) c') rr)) := h'
      simp only [Frame.addr_L, Frame.sib_L] at hne ⊢
      refine ⟨fun _ => getLeft_focus h2, fun e => ?_⟩
      rw [getRight_focus h1] at e
      simp only [Except.ok.injEq] at e
      exact absurd e.symm hne
    · have h1 : Rep s (plug fs (node p cp kp ll (node x c k l (node y' cy ky b c')))) := h
      have h2 : Rep s' (plug fs (node p cp kp ll (node y' cy ky (node x c k l b) c'))) := h'
      simp only [Frame.addr_R, Frame.sib_R] at hne ⊢
      refine ⟨fun e => ?_, fun _ => getRight_focus h2⟩
      rw [getLeft_focus h1] at e
      simp only [Except.ok.injEq] at e
      exact absurd e.symm hne

theorem right_rotate_at {s : State} {t : RB} {x y : Nat} (h : Rep s t) (hx : x ∈ t.addrs)
    (hr : getLeft s (some x) = .ok (some y)) :
    Ends (right_rotate s (some x)) (fun s' => ∃ t', Rep s' t' ∧ t'.keys = t.keys
      ∧ KeepsFields s s'
      ∧ getParent s' (some y) = getParent s (some x)
      ∧ getRight s' (some y) = .ok (some x)
      ∧ getParent s' (some x) = .ok (some y)
      ∧ (s.root = some x → s'.root = some y)
      ∧ (∀ p, getParent s (some x) = .ok (some p) →
          (getLeft s (some p) = .ok (some x) → getLeft s' (some p) = .ok (some y))
          ∧ (getRight s (some p) = .ok (some x) → getRight s' (some p) = .ok (some y)))) := by
  obtain ⟨ctx, c, k, l, r, rfl⟩ := focus_of_mem x t hx
  rw [getLeft_focus h] at hr
  rcases l with _ | ⟨y', cy, ky, a, b⟩
  · simp at hr
  simp only [ptr_node, Except.ok.injEq, Option.some.injEq] at hr
  subst hr
  obtain ⟨s', he, h', -, -⟩ := Ends_iff.1 (right_rotate_spec h)
  rw [he]
  refine ⟨_, h', keys_plug_congr ctx (by simp [RB.keys]), right_rotate_fields he, ?_, ?_, ?_, ?_, ?_⟩
  · rw [getParent_focus h', getParent_focus h]
  · exact getRight_focus h'
  · have h2 : Rep s' (plug (.R y' cy ky a :: ctx) (node x c k b r)) := h'
    exact getParent_focus h2
  · intro hroot
    have hctx := (Rep.root_eq_iff h).1 hroot.symm
    subst hctx
    exact h'.1
  · intro p hp
    rw [getParent_focus h] at hp
    rcases ctx with _ | ⟨f, fs⟩
    · simp [ctxPar] at hp
    simp only [ctxPar_cons, Except.ok.injEq, Option.some.injEq] at hp
    subst hp
    have hne := Rep.sib_ptr_ne h
    rcases f with ⟨p, cp, kp, rr⟩ | ⟨p, cp, kp, ll⟩
    · have h1 : Rep s (plug fs (node p cp kp (node x c k (node y' cy ky a b) r) rr)) := h
      have h2 : Rep s' (plug fs (node p cp kp (node y' cy ky a (node x c k b r)) rr)) := h'
      simp only [Frame.addr_L, Frame.sib_L] at hne ⊢
      refine ⟨fun _ => getLeft_focus h2, fun e => ?_⟩
      rw [getRight_focus h1] at e
      simp only [Except.ok.injEq] at e
      exact absurd e.symm hne
    · have h1 : Rep s (plug fs (node p cp kp ll (node x c k (node y' cy ky a b) r))) := h
      have h2 : Rep s' (plug fs (node p cp kp ll (node y' cy ky a (node x c k b r)))) := h'
      simp only [Frame.addr_R, Frame.sib_R] at hne ⊢
      refine ⟨fun e => ?_, fun _ => getRight_focus h2⟩
      rw [getLeft_focus h1] at e
      simp only [Except.ok.injEq] at e
      exact absurd e.symm hne

/-! ### Teardown -/

theorem readLoc_congr {s s' : State} {loc : Loc} (hr : s'.root = s.root)
    (hm : ∀ a, loc.cell = some a → s'.mem a = s.mem a) : readLoc s' loc = readLoc s loc := by
  rcases loc with _ | p | p
  · simp [readLoc, hr]
  · rcases p with _ | a
    · rfl
    · simp [readLoc, getLeft, load, hm a rfl]
  · rcases p with _ | a
    · rfl
    · simp [readLoc, getRight, load, hm a rfl]

theorem readLoc_ok_cell {s : State} {loc : Loc} {q : Ptr} (h : readLoc s loc = .ok q) :
    loc = .handle ∨ ∃ a n, loc.cell = some a ∧ s.mem a = some n := by
  rcases loc with _ | p | p
  · exact Or.inl rfl
  · rcases p with _ | a
    · simp [readLoc, getLeft, load, Except.map] at h
    · cases hm : s.mem a with
      | none => simp [readLoc, getLeft, load, Except.map, hm] at h
      | some n => exact Or.inr ⟨a, n, rfl, hm⟩
  · rcases p with _ | a
    · simp [readLoc, getRight, load, Except.map] at h
    · cases hm : s.mem a with
      | none => simp [readLoc, getRight, load, Except.map, hm] at h
      | some n => exact Or.inr ⟨a, n, rfl, hm⟩

theorem writeLoc_spec {s : State} {loc : Loc}
    (h : loc = .handle ∨ ∃ a n, loc.cell = some a ∧ s.mem a = some n) :
    ∃ s', writeLoc s none loc = .ok s' ∧ s'.next = s.next ∧ readLoc s' loc = .ok none
      ∧ (∀ d, loc.cell ≠ some d → s'.mem d = s.mem d)
      ∧ (loc ≠ .handle → s'.root = s.root)
      ∧ (∀ a n, loc.cell = some a → s.mem a = some n →
          ∃ n', s'.mem a = some n' ∧ n'.data = n.data ∧ n'.color = n.color
            ∧ n'.parent = n.parent
            ∧ (loc = .left (some a) → n'.right = n.right)
            ∧ (loc = .right (some a) → n'.left = n.left)) := by
  rcases loc with _ | p | p
  · refine ⟨setRoot s none, rfl, rfl, rfl, fun _ _ => rfl, fun hne => absurd rfl hne, ?_⟩
    intro a n ha
    simp [Loc.cell] at ha
  · rcases h with h | ⟨a, n, ha, hn⟩
    · cases h
    simp only [Loc.cell] at ha
    subst ha
    refine ⟨store s a { n with left := none }, ?_, rfl, ?_, ?_, fun _ => rfl, ?_⟩
    · simp [writeLoc, setLeft, modify, hn]
    · simp [readLoc, getLeft, load, store, Except.map]
    · intro d hd
      simp only [Loc.cell, ne_eq, Option.some.injEq] at hd
      have hda : d ≠ a := fun e => hd e.symm
      simp [store, Function.update_apply, hda]
    · intro a' n' ha' hn'
      simp only [Loc.cell, Option.some.injEq] at ha'
      subst ha'
      rw [hn] at hn'
      cases hn'
      exact ⟨{ n with left := none }, by simp [store], rfl, rfl, rfl, fun _ => rfl,
        fun e => by cases e⟩
  · rcases h with h | ⟨a, n, ha, hn⟩
    · cases h
    simp only [Loc.cell] at ha
    subst ha
    refine ⟨store s a { n with right := none }, ?_, rfl, ?_, ?_, fun _ => rfl, ?_⟩
    · simp [writeLoc, setRight, modify, hn]
    · simp [readLoc, getRight, load, store, Except.map]
    · intro d hd
      simp only [Loc.cell, ne_eq, Option.some.injEq] at hd
      have hda : d ≠ a := fun e => hd e.symm
      simp [store, Function.update_apply, hda]
    · intro a' n' ha' hn'
      simp only [Loc.cell, Option.some.injEq] at ha'
      subst ha'
      rw [hn] at hn'
      cases hn'
      exact ⟨{ n with right := none }, by simp [store], rfl, rfl, rfl, fun e => (by cases e),
        fun _ => rfl⟩

theorem delete_tree_spec (t : RB) : ∀ (fuel : Nat) (s : State) (loc : Loc) (par : Ptr),
    t.height < fuel → readLoc s loc = .ok t.ptr → Shape s.mem par t → t.addrs.Nodup →
    (∀ a, loc.cell = some a → a ∉ t.addrs) →
    Returns (delete_tree fuel s loc) (fun st s' => st = SUCCESS ∧ Torn s loc t s') := by
  induction t with
  | nil =>
    intro fuel s loc par hf hread _ _ _
    cases fuel with
    | zero => simp at hf
    | succ fuel =>
      simp only [ptr_nil] at hread
      simp only [delete_tree, hread, bind_ok, if_true]
      refine ⟨rfl, rfl, hread, fun d hd => by simp [RB.addrs] at hd, fun _ _ _ => rfl,
        fun _ => rfl, fun a n _ hn => ⟨n, hn, rfl, rfl, rfl, fun _ => rfl, fun _ => rfl⟩⟩
  | node x c k l r ihl ihr =>
    intro fuel s loc par hf hread hsh hnd hout
    cases fuel with
    | zero => simp at hf
    | succ fuel =>
      simp only [RB.height] at hf
      obtain ⟨hx, hl, hr⟩ := hsh
      simp only [RB.addrs, List.nodup_append, List.nodup_cons, List.mem_cons] at hnd
      obtain ⟨hndl, ⟨hxr, hndr⟩, hdisj⟩ := hnd
      have hxl : x ∉ l.addrs := fun hm => hdisj hm (by simp)
      have hlr : ∀ d ∈ l.addrs, d ∉ r.addrs := fun d hd hd2 => hdisj hd (by simp [hd2])
      have hout' : ∀ a, loc.cell = some a → a ∉ l.addrs ∧ a ≠ x ∧ a ∉ r.addrs := by
        intro a ha
        have := hout a ha
        simp only [RB.addrs, List.mem_append, List.mem_cons, not_or] at this
        exact ⟨this.1, this.2.1, this.2.2⟩
      simp only [ptr_node] at hread
      simp only [delete_tree, hread, bind_ok, reduceCtorEq, if_false]
      -- the left subtree
      have hrl : readLoc s (.left (some x)) = .ok l.ptr := by
        simp [readLoc, getLeft, load, hx, Except.map]
      obtain ⟨st1, s1, e1, -, n1, r1, f1, k1, q1, c1⟩ := Returns_iff.1
        (ihl fuel s (.left (some x)) (some x) (by omega) hrl hl hndl
          (fun a ha => by simp only [Loc.cell, Option.some.injEq] at ha; subst ha; exact hxl))
      have q1' := q1 (by simp)
      obtain ⟨nx1, hx1, -, -, -, hx1r, -⟩ := c1 x _ rfl hx
      have hx1r' := hx1r rfl
      simp only at hx1r'
      have hread1 : readLoc s1 loc = .ok (some x) := by
        rw [← hread]
        refine readLoc_congr q1' (fun a ha => ?_)
        obtain ⟨h1, h2, -⟩ := hout' a ha
        exact k1 a h1 (by simp only [Loc.cell, ne_eq, Option.some.injEq]; exact fun e => h2 e.symm)
      simp only [e1, bind_ok, hread1]
      -- the right subtree
      have hrr : readLoc s1 (.right (some x)) = .ok r.ptr := by
        simp [readLoc, getRight, load, hx1, Except.map, hx1r']
      have hr1 : Shape s1.mem (some x) r := by
        refine Shape_congr (fun b hb => ?_) hr
        refine k1 b (fun hb2 => hlr b hb2 hb) ?_
        simp only [Loc.cell, ne_eq, Option.some.injEq]
        rintro rfl
        exact hxr hb
      obtain ⟨st2, s2, e2, -, n2, r2, f2, k2, q2, c2⟩ := Returns_iff.1
        (ihr fuel s1 (.right (some x)) (some x) (by omega) hrr hr1 hndr
          (fun a ha => by simp only [Loc.cell, Option.some.injEq] at ha; subst ha; exact hxr))
      have q2' := q2 (by simp)
      have hread2 : readLoc s2 loc = .ok (some x) := by
        rw [← hread1]
        refine readLoc_congr q2' (fun a ha => ?_)
        obtain ⟨-, h2, h3⟩ := hout' a ha
        exact k2 a h3 (by simp only [Loc.cell, ne_eq, Option.some.injEq]; exact fun e => h2 e.symm)
      simp only [e2, bind_ok, hread2, free]
      -- the node itself
      have hcell3 : loc = .handle ∨ ∃ a n, loc.cell = some a
          ∧ ({ s2 with mem := Function.update s2.mem x none } : State).mem a = some n := by
        rcases readLoc_ok_cell hread with h | ⟨a, n, ha, hn⟩
        · exact Or.inl h
        · obtain ⟨h1, h2, h3⟩ := hout' a ha
          refine Or.inr ⟨a, n, ha, ?_⟩
          simp only [Function.update_apply, h2, if_false]
          rw [k2 a h3 (by simp only [Loc.cell, ne_eq, Option.some.injEq]; exact fun e => h2 e.symm),
            k1 a h1 (by simp only [Loc.cell, ne_eq, Option.some.injEq]; exact fun e => h2 e.symm)]
          exact hn
      obtain ⟨s4, e4, n4, r4, k4, q4, c4⟩ := writeLoc_spec hcell3
      simp only [e4, bind_ok, pure_eq_ok]
      refine ⟨rfl, ?_, r4, ?_, ?_, ?_, ?_⟩
      · rw [n4]; show s2.next = s.next; rw [n2, n1]
      · intro d hd
        simp only [RB.addrs, List.mem_append, List.mem_cons] at hd
        have hdc : loc.cell ≠ some d := by
          intro e
          obtain ⟨h1, h2, h3⟩ := hout' d e
          rcases hd with hd | hd | hd
          · exact h1 hd
          · exact h2 hd
          · exact h3 hd
        rw [k4 d hdc]
        show Function.update s2.mem x none d = none
        by_cases hdx : d = x
        · rw [hdx]; exact Function.update_same _ _ _
        · simp only [Function.update_apply, hdx, if_false]
          rcases hd with hd | hd | hd
          · rw [k2 d (hlr d hd) (by simp only [Loc.cell, ne_eq, Option.some.injEq]; exact fun e => hdx e.symm)]
            exact f1 d hd
          · exact absurd hd hdx
          · exact f2 d hd
      · intro d hd hdc
        simp only [RB.addrs, List.mem_append, List.mem_cons, not_or] at hd
        rw [k4 d hdc]
        show Function.update s2.mem x none d = s.mem d
        simp only [Function.update_apply, hd.2.1, if_false]
        rw [k2 d hd.2.2 (by simp only [Loc.cell, ne_eq, Option.some.injEq]; exact fun e => hd.2.1 e.symm),
          k1 d hd.1 (by simp only [Loc.cell, ne_eq, Option.some.injEq]; exact fun e => hd.2.1 e.symm)]
      · intro hne
        rw [q4 hne]
        show s2.root = s.root
        rw [q2', q1']
      · intro a n ha hn
        obtain ⟨h1, h2, h3⟩ := hout' a ha
        refine c4 a n ha ?_
        show Function.update s2.mem x none a = some n
        simp only [Function.update_apply, h2, if_false]
        rw [k2 a h3 (by simp only [Loc.cell, ne_eq, Option.some.injEq]; exact fun e => h2 e.symm),
          k1 a h1 (by simp only [Loc.cell, ne_eq, Option.some.injEq]; exact fun e => h2 e.symm)]
        exact hn

theorem delete_tree_empty (fuel : Nat) {s : State} (h : s.root = none) :
    delete_tree (fuel + 1) s .handle = .ok (SUCCESS, s) := by
  simp [delete_tree, readLoc, h]

theorem delete_tree_status : ∀ (fuel : Nat) (s : State) (loc : Loc) (st : Int) (s' : State),
    delete_tree fuel s loc = .ok (st, s') → st = SUCCESS := by
  intro fuel s loc st s' h
  cases fuel with
  | zero => simp [delete_tree] at h
  | succ fuel =>
    unfold delete_tree at h
    obtain ⟨r, -, h⟩ := bind_eq_ok.1 h
    split at h
    · simp only [pure_eq_ok, Except.ok.injEq, Prod.mk.injEq] at h
      exact h.1.symm
    · simp only [bind_eq_ok] at h
      obtain ⟨_, -, _, -, _, -, _, -, _, -, _, -, _, -, h⟩ := h
      simp only [pure_eq_ok, Except.ok.injEq, Prod.mk.injEq] at h
      exact h.1.symm

theorem delete_tree_root {s : State} {t : RB} (h : Rep s t) :
    Returns (delete_tree (s.next + 1) s .handle) (fun st s' =>
      st = SUCCESS ∧ s'.root = none ∧ Rep s' nil ∧ s'.next = s.next
      ∧ (∀ d ∈ t.addrs, s'.mem d = none) ∧ (∀ d, d ∉ t.addrs → s'.mem d = s.mem d)
      ∧ delete_tree (s'.next + 1) s' .handle = .ok (SUCCESS, s')) := by
  have hs := delete_tree_spec t (s.next + 1) s .handle none
    (by have := h.height_le; omega) (by simp [readLoc, h.1]) h.2.1 h.2.2.1
    (fun a ha => by simp [Loc.cell] at ha)
  refine Returns_mono hs ?_
  rintro st s' ⟨hst, hn, hr, hf, hk, -, -⟩
  have hroot : s'.root = none := by
    simpa [readLoc] using hr
  exact ⟨hst, hroot, ⟨hroot, trivial, List.nodup_nil, by simp [RB.addrs]⟩, hn, hf,
    fun d hd => hk d hd (by simp [Loc.cell]), delete_tree_empty _ hroot⟩

/-! ### The logged fixups compute what the fixups compute -/

theorem map_bind_except {α β γ : Type} (x : Except Fault α) (f : α → Except Fault β)
    (g : β → γ) : (x >>= f).map g = x >>= fun a => (f a).map g := by
  cases x <;> rfl

theorem map_pure_except {α β : Type} (a : α) (g : α → β) :
    (pure a : Except Fault α).map g = pure (g a) := rfl

theorem map_ite_except {α β : Type} (c : Prop) [Decidable c] (x y : Except Fault α)
    (g : α → β) : (if c then x else y).map g = if c then x.map g else y.map g := by
  split <;> rfl

theorem bind_pure_fst {α β : Type} (x : Except Fault (α × β)) :
    (x >>= fun a => pure a.1) = x.map Prod.fst := by
  cases x <;> rfl

theorem bind_pure_except {α : Type} (x : Except Fault α) : (x >>= fun a => pure a) = x := by
  cases x <;> rfl

theorem ite_bind_except {α β : Type} (c : Prop) [Decidable c] (x y : Except Fault α)
    (f : α → Except Fault β) :
    ((if c then x else y) >>= f) = if c then x >>= f else y >>= f := by
  split <;> rfl

theorem fix_double_black_log_fst : ∀ (fuel : Nat) (s : State) (node : Ptr),
    (fix_double_black_log fuel s node).map Prod.fst = fix_double_black fuel s node := by
  intro fuel
  induction fuel with
  | zero => intro s node; rfl
  | succ n ih =>
    intro s node
    simp only [fix_double_black_log, fix_double_black, map_ite_except, map_bind_except,
      map_pure_except, bind_pure_fst, bind_pure_except, ite_bind_except, ih]

theorem insert_fixup_log_fst : ∀ (fuel : Nat) (s : State) (node : Ptr),
    (insert_fixup_log fuel s node).map Prod.fst = insert_fixup fuel s node := by
  intro fuel
  induction fuel with
  | zero => intro s node; rfl
  | succ n ih =>
    intro s node
    simp only [insert_fixup_log, insert_fixup, map_ite_except, map_bind_except,
      map_pure_except, bind_pure_fst, bind_pure_except, ite_bind_except, ih, bind_assoc,
      pure_bind]

/-! ### The RED sibling case of `fix_double_black` -/

theorem fdb_red_sibling_spec {s : State} {f : Frame} {fs : Ctx} {t : RB} {nptr : Ptr}
    {det : Bool} {sa : Nat} {sk : Int} {sl sr : RB}
    (h : At s (f :: fs) t nptr det) (hsib : sibOf det f = node sa .red sk sl sr) :
    Ends (fdb_red_sibling s nptr (some sa)) (fun s' =>
      At s' (redSibCtx f sa sk sl sr fs) t nptr det
      ∧ Keeps s s' (plug (f :: fs) t) (plug (redSibCtx f sa sk sl sr fs) t)) := by
  have hpar := h.parent
  have hfs := sibOf_eq_sib hsib
  simp only [ctxPar_cons] at hpar
  unfold fdb_red_sibling
  simp only [hpar, bind_ok]
  rcases f with ⟨p, cp, kp, r⟩ | ⟨p, cp, kp, l⟩
  · simp only [Frame.sib_L] at hfs
    subst hfs
    simp only [Frame.addr_L] at hpar ⊢
    have hP : Rep s (plug fs (node p cp kp t (node sa .red sk sl sr))) := h.rep
    refine Ends_bind (setColor_keeps hP .red) ?_
    rintro s1 ⟨h1, k1⟩
    have h1S : Rep s1 (plug (.R p .red kp t :: fs) (node sa .red sk sl sr)) := h1
    refine Ends_bind (setColor_keeps h1S .black) ?_
    rintro s2 ⟨h2, k2⟩
    have k02 : Keeps s s2 (plug (.L p cp kp (node sa .red sk sl sr) :: fs) t)
      (plug (.L p .red kp (node sa .black sk sl sr) :: fs) t) := Keeps.trans k1 k2
    have a2 := h.next h2 k02 rfl
    have hside2 := sibling_side a2 (by
      cases det
      · rfl
      · simp [sibOf] at hsib)
    have h2P : Rep s2 (plug fs (node p .red kp t (node sa .black sk sl sr))) := h2
    simp only [hside2, bind_ok, a2.parent, ctxPar_cons, Frame.addr_L, Bool.false_eq_true,
      if_false]
    refine Ends_mono (left_rotate_keeps h2P) ?_
    rintro s3 ⟨h3, k3⟩
    have k23 : Keeps s2 s3 (plug (.L p .red kp (node sa .black sk sl sr) :: fs) t)
      (plug (.L p .red kp sl :: .L sa .black sk sr :: fs) t) := k3
    exact ⟨a2.next h3 k23 rfl, Keeps.trans k02 k23⟩
  · simp only [Frame.sib_R] at hfs
    subst hfs
    simp only [Frame.addr_R] at hpar ⊢
    have hP : Rep s (plug fs (node p cp kp (node sa .red sk sl sr) t)) := h.rep
    refine Ends_bind (setColor_keeps hP .red) ?_
    rintro s1 ⟨h1, k1⟩
    have h1S : Rep s1 (plug (.L p .red kp t :: fs) (node sa .red sk sl sr)) := h1
    refine Ends_bind (setColor_keeps h1S .black) ?_
    rintro s2 ⟨h2, k2⟩
    have k02 : Keeps s s2 (plug (.R p cp kp (node sa .red sk sl sr) :: fs) t)
      (plug (.R p .red kp (node sa .black sk sl sr) :: fs) t) := Keeps.trans k1 k2
    have a2 := h.next h2 k02 rfl
    have hside2 := sibling_side a2 (by simp [sibOf] : sibOf det _ = node sa .black sk sl sr)
    have h2P : Rep s2 (plug fs (node p .red kp (node sa .black sk sl sr) t)) := h2
    simp only [hside2, bind_ok, a2.parent, ctxPar_cons, Frame.addr_R, if_true]
    refine Ends_mono (right_rotate_keeps h2P) ?_
    rintro s3 ⟨h3, k3⟩
    have k23 : Keeps s2 s3 (plug (.R p .red kp (node sa .black sk sl sr) :: fs) t)
      (plug (.R p .red kp sr :: .R sa .black sk sl :: fs) t) := k3
    exact ⟨a2.next h3 k23 rfl, Keeps.trans k02 k23⟩

theorem fdb_red_sibling_unfold {s : State} {f : Frame} {fs : Ctx} {t : RB} {nptr : Ptr}
    {det : Bool} {sa : Nat} {sk : Int} {sl sr : RB} (fuel : Nat)
    (h : At s (f :: fs) t nptr det) (hsib : sibOf det f = node sa .red sk sl sr) :
    fix_double_black (fuel + 1) s nptr
      = (fdb_red_sibling s nptr (some sa) >>= fun s' => fix_double_black fuel s' nptr) := by
  have hne : ¬ (nptr = s.root) := by rw [h.root_iff]; simp
  have hS := h.rep.sib_rep
  rw [sibOf_eq_sib hsib] at hS
  rw [fix_double_black]
  simp only [hne, if_false, getsibling_At h, bind_ok, hsib, ptr_node, reduceCtorEq,
    getColor_focus hS, toInt_red, if_true, fdb_red_sibling, bind_assoc, ite_bind_except]

theorem noRedRed_of_plug (ctx : Ctx) : ∀ t : RB, (plug ctx t).noRedRed → t.noRedRed := by
  induction ctx with
  | nil => intro t h; exact h
  | cons f fs ih =>
    intro t h
    have h1 := ih (f.fill t) h
    cases f with
    | L p cp kp r => exact h1.2.1
    | R p cp kp l => exact h1.2.2

theorem color_of_not_red {a : Nat} {c : Color} {k : Int} {l r : RB}
    (h : (node a c k l r).isRed = false) : c = .black := by
  cases c
  · simp at h
  · rfl

theorem fdb_red_sibling_after {s : State} {f : Frame} {fs : Ctx} {t : RB} {nptr : Ptr}
    {det : Bool} {sa : Nat} {sk : Int} {sl sr : RB}
    (h : At s (f :: fs) t nptr det) (hsib : sibOf det f = node sa .red sk sl sr)
    (hrr : (plug (f :: fs) t).noRedRed) :
    Ends (fdb_red_sibling s nptr (some sa)) (fun s' =>
      Rep s' (plug (redSibCtx f sa sk sl sr fs) t)
      ∧ getColor s' (some f.addr) = .ok RED ∧ getColor s' (some sa) = .ok BLACK
      ∧ getParent s' (some sa) = getParent s (some f.addr)
      ∧ (s.root = some f.addr → s'.root = some sa)
      ∧ getParent s' (some f.addr) = .ok (some sa)
      ∧ getParent s' nptr = getParent s nptr
      ∧ nptr ≠ s'.root
      ∧ Gives (getsibling_node s' nptr) (fun q => q = none ∨ getColor s' q = .ok BLACK)) := by
  have hfs := sibOf_eq_sib hsib
  have hrr1 : (f.fill t).noRedRed := noRedRed_of_plug fs (f.fill t) hrr
  refine Ends_mono (fdb_red_sibling_spec h hsib) ?_
  rintro s' ⟨a3, -⟩
  have hnr : nptr ≠ s'.root := by
    rw [ne_eq, a3.root_iff]
    cases f <;> simp [redSibCtx]
  rcases f with ⟨p, cp, kp, r⟩ | ⟨p, cp, kp, l⟩
  · simp only [Frame.sib_L] at hfs
    subst hfs
    have hdet : det = false := by
      cases det
      · rfl
      · simp [sibOf] at hsib
    subst hdet
    have hch : sl.isRed = false ∧ sr.isRed = false := hrr1.2.2.1 rfl
    have h3 : Rep s' (plug (.L p .red kp sl :: .L sa .black sk sr :: fs) t) := a3.rep
    have h3' : Rep s' (plug (.L sa .black sk sr :: fs) ((Frame.L p .red kp sl).fill t)) := h3
    have hP : Rep s (plug fs (node p cp kp t (node sa .red sk sl sr))) := h.rep
    refine ⟨h3, ?_, ?_, ?_, ?_, ?_, ?_, hnr, ?_⟩
    · simpa using getColor_frame h3
    · simpa using getColor_frame h3'
    · have e1 := getParent_frame h3'
      simp only [Frame.addr_L] at e1 ⊢
      rw [e1, getParent_focus hP]
    · intro hroot
      have hctx := (Rep.root_eq_iff hP).1 hroot.symm
      subst hctx
      have := h3.1
      simpa [plug_ptr, ctxRoot] using this
    · simpa using getParent_frame h3
    · rw [a3.parent, h.parent]; rfl
    · have hg := getsibling_At a3
      simp only [redSibCtx, sibOf, Bool.false_eq_true, if_false] at hg
      rw [hg]
      rcases sl with _ | ⟨a', c', k', l', r'⟩
      · exact Or.inl rfl
      · have hc := color_of_not_red hch.1
        subst hc
        have hs3 := h3.sib_rep
        simp only [Frame.sib_L] at hs3
        exact Or.inr (by simpa using getColor_focus hs3)
  · simp only [Frame.sib_R] at hfs
    subst hfs
    have hch : sl.isRed = false ∧ sr.isRed = false := hrr1.2.1.1 rfl
    have h3 : Rep s' (plug (.R p .red kp sr :: .R sa .black sk sl :: fs) t) := a3.rep
    have h3' : Rep s' (plug (.R sa .black sk sl :: fs) ((Frame.R p .red kp sr).fill t)) := h3
    have hP : Rep s (plug fs (node p cp kp (node sa .red sk sl sr) t)) := h.rep
    refine ⟨h3, ?_, ?_, ?_, ?_, ?_, ?_, hnr, ?_⟩
    · simpa using getColor_frame h3
    · simpa using getColor_frame h3'
    · have e1 := getParent_frame h3'
      simp only [Frame.addr_R] at e1 ⊢
      rw [e1, getParent_focus hP]
    · intro hroot
      have hctx := (Rep.root_eq_iff hP).1 hroot.symm
      subst hctx
      have := h3.1
      simpa [plug_ptr, ctxRoot] using this
    · simpa using getParent_frame h3
    · rw [a3.parent, h.parent]; rfl
    · have hg := getsibling_At a3
      simp only [redSibCtx, sibOf] at hg
      rw [hg]
      rcases sr with _ | ⟨a', c', k', l', r'⟩
      · exact Or.inl rfl
      · have hc := color_of_not_red hch.2
        subst hc
        have hs3 := h3.sib_rep
        simp only [Frame.sib_R] at hs3
        exact Or.inr (by simpa using getColor_focus hs3)

/-! ### The BLACK sibling with a RED child case of `fix_double_black` -/

theorem fdbRot_shape (f : Frame) (t : RB) (sa : Nat) (sk : Int) (sl sr : RB)
    (hred : (sl.isRed || sr.isRed) = true) :
    ∃ top k tl tr, fdbRot f t sa sk sl sr = node top f.color k tl tr
      ∧ tl.color = .black ∧ tr.color = .black
      ∧ (tl.ptr = some f.addr ∨ tr.ptr = some f.addr) := by
  rcases f with ⟨p, cp, kp, r⟩ | ⟨p, cp, kp, l⟩
  · by_cases hsl : sl.isRed = true
    · obtain ⟨sla, slk, sll, slr, rfl⟩ := RB.isRed_iff.1 hsl
      exact ⟨sla, slk, node p .black kp t sll, node sa .black sk slr sr, by simp [fdbRot],
        rfl, rfl, Or.inl rfl⟩
    · have hsl' := isRed_false_of_ne hsl
      simp only [hsl', Bool.false_or] at hred
      obtain ⟨sra, srk, srl, srr, rfl⟩ := RB.isRed_iff.1 hred
      exact ⟨sa, sk, node p .black kp t sl, node sra .black srk srl srr,
        by simp [fdbRot, hsl', RB.paint], rfl, rfl, Or.inl rfl⟩
  · by_cases hsl : sl.isRed = true
    · obtain ⟨sla, slk, sll, slr, rfl⟩ := RB.isRed_iff.1 hsl
      exact ⟨sa, sk, node sla .black slk sll slr, node p .black kp sr t,
        by simp [fdbRot, RB.paint], rfl, rfl, Or.inr rfl⟩
    · have hsl' := isRed_false_of_ne hsl
      simp only [hsl', Bool.false_or] at hred
      obtain ⟨sra, srk, srl, srr, rfl⟩ := RB.isRed_iff.1 hred
      exact ⟨sra, srk, node sa .black sk sl srl, node p .black kp srr t,
        by simp [fdbRot, hsl'], rfl, rfl, Or.inr rfl⟩

theorem fdb_red_child_unfold {s : State} {f : Frame} {fs : Ctx} {t : RB} {nptr : Ptr}
    {det : Bool} {sa : Nat} {sk : Int} {sl sr : RB} (fuel : Nat)
    (h : At s (f :: fs) t nptr det) (hsib : sibOf det f = node sa .black sk sl sr)
    (hred : (sl.isRed || sr.isRed) = true) :
    fix_double_black (fuel + 1) s nptr = (do
      let s ← fdb_rotate s nptr (some sa)
      let p ← getParent s nptr
      setColor s p BLACK) := by
  have hne : ¬ (nptr = s.root) := by rw [h.root_iff]; simp
  have hS := h.rep.sib_rep
  rw [sibOf_eq_sib hsib] at hS
  have hnr : ¬ (BLACK = RED) := by decide
  rw [fix_double_black]
  simp only [hne, if_false, getsibling_At h, bind_ok, hsib, ptr_node, reduceCtorEq,
    getColor_focus hS, toInt_black, hnr, hasRedChild_spec hS, hred, if_true]

theorem fdb_red_child_after {s : State} {f : Frame} {fs : Ctx} {t : RB} {nptr : Ptr}
    {det : Bool} {sa : Nat} {sk : Int} {sl sr : RB} (fuel : Nat)
    (h : At s (f :: fs) t nptr det) (hsib : sibOf det f = node sa .black sk sl sr)
    (hred : (sl.isRed || sr.isRed) = true) :
    Ends (fix_double_black (fuel + 1) s nptr) (fun s' => ∃ top k tl tr,
      Rep s' (plug fs (node top f.color k tl tr))
      ∧ tl.color = .black ∧ tr.color = .black
      ∧ getColor s' (some top) = .ok f.color.toInt
      ∧ getParent s' (some top) = getParent s (some f.addr)
      ∧ (s.root = some f.addr → s'.root = some top)
      ∧ getColor s' (some f.addr) = .ok BLACK
      ∧ getParent s' (some f.addr) = .ok (some top)) := by
  rw [fdb_red_child_unfold fuel h hsib hred]
  refine Ends_mono (fdb_rotate_spec h hsib hred) ?_
  rintro s' ⟨h', -⟩
  obtain ⟨top, k, tl, tr, e, hl, hr, hp⟩ := fdbRot_shape f t sa sk sl sr hred
  rw [e] at h'
  refine ⟨top, k, tl, tr, h', hl, hr, by simpa using getColor_focus h', ?_, ?_, ?_⟩
  · rw [getParent_focus h', getParent_frame h.rep]
  · intro hroot
    have hctx : fs = [] := by
      rcases f with ⟨p, cp, kp, r⟩ | ⟨p, cp, kp, l⟩
      · have hP : Rep s (plug fs (node p cp kp t r)) := h.rep
        exact (Rep.root_eq_iff hP).1 hroot.symm
      · have hP : Rep s (plug fs (node p cp kp l t)) := h.rep
        exact (Rep.root_eq_iff hP).1 hroot.symm
    subst hctx
    exact h'.1
  · rcases hp with hp | hp
    · rcases tl with _ | ⟨a, c, x, l, r⟩
      · simp at hp
      · simp only [ptr_node, Option.some.injEq] at hp
        subst hp
        simp only [RB.color] at hl
        subst hl
        have h2 : Rep s' (plug (.L top f.color k tr :: fs) (node f.addr .black x l r)) := h'
        exact ⟨by simpa using getColor_focus h2, by simpa using getParent_focus h2⟩
    · rcases tr with _ | ⟨a, c, x, l, r⟩
      · simp at hp
      · simp only [ptr_node, Option.some.injEq] at hp
        subst hp
        simp only [RB.color] at hr
        subst hr
        have h2 : Rep s' (plug (.R top f.color k tl :: fs) (node f.addr .black x l r)) := h'
        exact ⟨by simpa using getColor_focus h2, by simpa using getParent_focus h2⟩

/-! ### Every call returns -/

theorem insert_node_returns {s : State} {t : RB} (k : Int) (h : Rep s t) (hb : t.bst)
    (hr : t.rootBlack) : ∃ st s', insert_node s k = .ok (st, s') := by
  by_cases hk : k ∈ t.keys
  · obtain ⟨a, c, l, r, hz⟩ := zoom_mem k t [] hb hk
    exact ⟨_, _, insert_node_dup h (by rw [hz]; simp)⟩
  · obtain ⟨st, s', he, -⟩ := Returns_iff.1 (insert_node_absent_spec h hb hr hk)
    exact ⟨st, s', he⟩

theorem delete_node_returns {s : State} {t : RB} (k : Int) (h : Rep s t) (hb : t.bst)
    (hr : t.rootBlack) : ∃ st s', delete_node s k = .ok (st, s') := by
  by_cases hk : k ∈ t.keys
  · obtain ⟨st, s', he, -⟩ := Returns_iff.1 (delete_node_present_spec h hb hr hk)
    exact ⟨st, s', he⟩
  · exact ⟨_, _, delete_node_absent h hk⟩

theorem fix_double_black_log_length : ∀ (fuel : Nat) (s : State) (node : Ptr)
    (r : State × List FdbCase), fix_double_black_log fuel s node = .ok r →
    r.2.length ≤ fuel := by
  intro fuel
  induction fuel with
  | zero => intro s node r h; simp [fix_double_black_log] at h
  | succ n ih =>
    intro s node r h
    unfold fix_double_black_log at h
    split at h
    · cases h; simp
    · obtain ⟨sib, -, h⟩ := bind_eq_ok.1 h
      split at h
      · obtain ⟨p, -, h⟩ := bind_eq_ok.1 h
        obtain ⟨r1, h1, h⟩ := bind_eq_ok.1 h
        cases h
        have := ih _ _ _ h1
        simp only [List.length_cons]; omega
      · obtain ⟨sc, -, h⟩ := bind_eq_ok.1 h
        split at h
        · obtain ⟨p, -, h⟩ := bind_eq_ok.1 h
          obtain ⟨s1, -, h⟩ := bind_eq_ok.1 h
          obtain ⟨s2, -, h⟩ := bind_eq_ok.1 h
          obtain ⟨isl, -, h⟩ := bind_eq_ok.1 h
          obtain ⟨p2, -, h⟩ := bind_eq_ok.1 h
          dsimp only at h
          split at h
          · obtain ⟨s3, -, h⟩ := bind_eq_ok.1 h
            obtain ⟨r1, h1, h⟩ := bind_eq_ok.1 h
            cases h
            have := ih _ _ _ h1
            simp only [List.length_cons]; omega
          · obtain ⟨s3, -, h⟩ := bind_eq_ok.1 h
            obtain ⟨r1, h1, h⟩ := bind_eq_ok.1 h
            cases h
            have := ih _ _ _ h1
            simp only [List.length_cons]; omega
        · obtain ⟨ar, -, h⟩ := bind_eq_ok.1 h
          split at h
          · simp only [bind_eq_ok] at h
            obtain ⟨_, -, _, -, _, -, h⟩ := h
            cases h
            simp
          · obtain ⟨s1, -, h⟩ := bind_eq_ok.1 h
            obtain ⟨p, -, h⟩ := bind_eq_ok.1 h
            obtain ⟨pc, -, h⟩ := bind_eq_ok.1 h
            split at h
            · obtain ⟨p2, -, h⟩ := bind_eq_ok.1 h
              obtain ⟨r1, h1, h⟩ := bind_eq_ok.1 h
              cases h
              have := ih _ _ _ h1
              simp only [List.length_cons]; omega
            · simp only [bind_eq_ok] at h
              obtain ⟨_, -, _, -, h⟩ := h
              cases h
              simp

theorem insert_fixup_log_length : ∀ (fuel : Nat) (s : State) (node : Ptr)
    (r : State × List InsCase), insert_fixup_log fuel s node = .ok r →
    r.2.length < fuel := by
  intro fuel
  induction fuel with
  | zero => intro s node r h; simp [insert_fixup_log] at h
  | succ n ih =>
    intro s node r h
    unfold insert_fixup_log at h
    split at h
    · cases h; simp
    obtain ⟨p, -, h⟩ := bind_eq_ok.1 h
    obtain ⟨pc, -, h⟩ := bind_eq_ok.1 h
    split at h
    · cases h; simp
    obtain ⟨g, -, h⟩ := bind_eq_ok.1 h
    obtain ⟨gl, -, h⟩ := bind_eq_ok.1 h
    split at h
    · obtain ⟨uncle, -, h⟩ := bind_eq_ok.1 h
      obtain ⟨ured, -, h⟩ := bind_eq_ok.1 h
      split at h
      · simp only [bind_eq_ok] at h
        obtain ⟨_, -, _, -, _, -, _, -, _, -, _, -, _, -, _, -, r1, h1, h⟩ := h
        cases h
        have := ih _ _ _ h1
        simp only [List.length_cons]; omega
      · obtain ⟨p2, -, h⟩ := bind_eq_ok.1 h
        obtain ⟨pr, -, h⟩ := bind_eq_ok.1 h
        dsimp only at h
        split at h
        · obtain ⟨s1, -, h⟩ := bind_eq_ok.1 h
          simp only [pure_bind, bind_eq_ok] at h
          obtain ⟨_, -, _, -, _, -, _, -, _, -, _, -, _, -, _, -, r1, h1, h⟩ := h
          cases h
          have := ih _ _ _ h1
          simp only [List.length_cons]; omega
        · simp only [pure_bind, bind_eq_ok] at h
          obtain ⟨_, -, _, -, _, -, _, -, _, -, _, -, _, -, _, -, r1, h1, h⟩ := h
          cases h
          have := ih _ _ _ h1
          simp only [List.length_cons]; omega
    · obtain ⟨uncle, -, h⟩ := bind_eq_ok.1 h
      obtain ⟨ured, -, h⟩ := bind_eq_ok.1 h
      split at h
      · simp only [bind_eq_ok] at h
        obtain ⟨_, -, _, -, _, -, _, -, _, -, _, -, _, -, _, -, r1, h1, h⟩ := h
        cases h
        have := ih _ _ _ h1
        simp only [List.length_cons]; omega
      · obtain ⟨p2, -, h⟩ := bind_eq_ok.1 h
        obtain ⟨pr, -, h⟩ := bind_eq_ok.1 h
        dsimp only at h
        split at h
        · obtain ⟨s1, -, h⟩ := bind_eq_ok.1 h
          simp only [pure_bind, bind_eq_ok] at h
          obtain ⟨_, -, _, -, _, -, _, -, _, -, _, -, _, -, _, -, r1, h1, h⟩ := h
          cases h
          have := ih _ _ _ h1
          simp only [List.length_cons]; omega
        · simp only [pure_bind, bind_eq_ok] at h
          obtain ⟨_, -, _, -, _, -, _, -, _, -, _, -, _, -, _, -, r1, h1, h⟩ := h
          cases h
          have := ih _ _ _ h1
          simp only [List.length_cons]; omega

theorem modify_next {s s' : State} {p : Ptr} {f : Tree → Tree} (h : modify s p f = .ok s') :
    s'.next = s.next := by
  rcases p with _ | a
  · simp [modify] at h
  · simp only [modify] at h
    cases hm : s.mem a with
    | none => simp [hm] at h
    | some n0 =>
      simp only [hm, Except.ok.injEq] at h
      subst h
      rfl

theorem map_fst_ok {α β : Type} {x : Except Fault (α × β)} {a : α}
    (h : x.map Prod.fst = .ok a) : ∃ b, x = .ok (a, b) := by
  rcases x with e | ⟨a', b⟩
  · simp [Except.map] at h
  · simp only [Except.map, Except.ok.injEq] at h
    subst h
    exact ⟨b, rfl⟩

theorem insert_node_log_of_ok {s : State} {k : Int} {r : Int × State}
    (h : insert_node s k = .ok r) :
    Gives (insert_node_log s k) (fun log => log.length ≤ s.next + 1) := by
  unfold insert_node at h
  obtain ⟨d, hd, h⟩ := bind_eq_ok.1 h
  unfold insert_node_log
  simp only [hd, bind_ok]
  cases d with
  | none => exact Nat.zero_le _
  | some prev =>
    dsimp only [create_node] at h ⊢
    split at h
    · rename_i hr
      rw [if_pos hr]
      exact Nat.zero_le _
    · rename_i hr
      rw [if_neg hr]
      obtain ⟨s1, h1, h⟩ := bind_eq_ok.1 h
      obtain ⟨pd, hpd, h⟩ := bind_eq_ok.1 h
      simp only [h1, hpd, bind_ok]
      have hn1 : s1.next = s.next + 1 := modify_next h1
      have key : ∀ y : State, y.next = s.next + 1 →
          (do
            let s ← insert_fixup (y.next + 1) y (some s.next)
            let s ← setColor s s.root BLACK
            pure (SUCCESS, s)) = .ok r →
          Gives (do
            let r ← insert_fixup_log (y.next + 1) y (some s.next)
            pure r.2) (fun log => log.length ≤ s.next + 1) := by
        intro y hy h0
        obtain ⟨s3, h3, -⟩ := bind_eq_ok.1 h0
        rw [← insert_fixup_log_fst] at h3
        obtain ⟨log, hlog⟩ := map_fst_ok h3
        simp only [hlog, bind_ok]
        have hlen := insert_fixup_log_length _ _ _ _ hlog
        show log.length ≤ s.next + 1
        simp only at hlen
        omega
      by_cases hlt : k < pd
      · simp only [hlt, if_true] at h ⊢
        obtain ⟨y, hy, h⟩ := bind_eq_ok.1 h
        simp only [hy, bind_ok]
        exact key y (by rw [modify_next hy, hn1]) h
      · simp only [hlt, if_false] at h ⊢
        obtain ⟨y, hy, h⟩ := bind_eq_ok.1 h
        simp only [hy, bind_ok]
        exact key y (by rw [modify_next hy, hn1]) h

theorem delete_target_next {s s1 : State} {temp td : Ptr}
    (h : delete_target s temp = .ok (s1, td)) : s1.next = s.next := by
  unfold delete_target at h
  obtain ⟨tl, -, h⟩ := bind_eq_ok.1 h
  obtain ⟨tr, -, h⟩ := bind_eq_ok.1 h
  split at h
  · obtain ⟨succ, -, h⟩ := bind_eq_ok.1 h
    obtain ⟨sd, -, h⟩ := bind_eq_ok.1 h
    obtain ⟨s2, h2, h⟩ := bind_eq_ok.1 h
    cases h
    exact modify_next h2
  · cases h
    rfl

theorem delete_splice_next {s s1 : State} {td child : Ptr}
    (h : delete_splice s td child = .ok s1) : s1.next = s.next := by
  unfold delete_splice at h
  have tail : ∀ y : State, (do
      let dp ← getParent y td
      if dp = none then pure (setRoot y child)
      else do
        let isl ← is_left_child y td
        let dp ← getParent y td
        if isl then setLeft y dp child else setRight y dp child) = .ok s1 →
      s1.next = y.next := by
    intro y h0
    obtain ⟨dp, -, h0⟩ := bind_eq_ok.1 h0
    split at h0
    · cases h0; rfl
    · obtain ⟨isl, -, h0⟩ := bind_eq_ok.1 h0
      obtain ⟨dp2, -, h0⟩ := bind_eq_ok.1 h0
      split at h0
      · exact modify_next h0
      · exact modify_next h0
  dsimp only at h
  split at h
  · obtain ⟨dp, -, h⟩ := bind_eq_ok.1 h
    obtain ⟨y, hy, h⟩ := bind_eq_ok.1 h
    rw [tail y h, modify_next hy]
  · exact tail s h

theorem delete_node_log_of_ok {s : State} {k : Int} {r : Int × State}
    (h : delete_node s k = .ok r) :
    Gives (delete_node_log s k) (fun log => log.length ≤ 2 * s.next + 2) := by
  unfold delete_node at h
  unfold delete_node_log
  split at h
  · rename_i hr
    rw [if_pos hr]
    exact Nat.zero_le _
  · rename_i hr
    rw [if_neg hr]
    obtain ⟨temp, htemp, h⟩ := bind_eq_ok.1 h
    simp only [htemp, bind_ok]
    split at h
    · rename_i ht
      rw [if_pos ht]
      exact Nat.zero_le _
    · rename_i ht
      rw [if_neg ht]
      obtain ⟨⟨s1, td⟩, h1, h⟩ := bind_eq_ok.1 h
      obtain ⟨child, h2, h⟩ := bind_eq_ok.1 h
      obtain ⟨db, h3, h⟩ := bind_eq_ok.1 h
      obtain ⟨s2, h4, h⟩ := bind_eq_ok.1 h
      obtain ⟨s3, h5, h⟩ := bind_eq_ok.1 h
      simp only [h1, h2, h3, h4, bind_ok]
      have hn : s2.next = s.next := by
        rw [delete_splice_next h4, delete_target_next h1]
      cases db with
      | false => exact Nat.zero_le _
      | true =>
        simp only [delete_rebalance, if_true] at h5
        simp only [if_true]
        by_cases hc : child ≠ none
        · rw [if_pos hc] at h5 ⊢
          rw [← fix_double_black_log_fst] at h5
          obtain ⟨log, hlog⟩ := map_fst_ok h5
          simp only [hlog, bind_ok]
          have := fix_double_black_log_length _ _ _ _ hlog
          show log.length ≤ 2 * s.next + 2
          simp only at this
          omega
        · rw [if_neg hc] at h5 ⊢
          rw [← fix_double_black_log_fst] at h5
          obtain ⟨log, hlog⟩ := map_fst_ok h5
          simp only [hlog, bind_ok]
          have := fix_double_black_log_length _ _ _ _ hlog
          show log.length ≤ 2 * s.next + 2
          simp only at this
          omega

theorem left_rotate_null {s : State} {node : Ptr} (h : getRight s node = .ok none) :
    left_rotate s node = .error .nullDeref := by
  simp [left_rotate, h, getLeft, load, Except.map]

theorem right_rotate_null {s : State} {node : Ptr} (h : getLeft s node = .ok none) :
    right_rotate s node = .error .nullDeref := by
  simp [right_rotate, h, getRight, load, Except.map]

theorem insert_fixup_null (fuel : Nat) {s : State} {node p : Ptr} (hn : node ≠ s.root)
    (hp : getParent s node = .ok p) (hc : getColor s p = .ok RED)
    (hg : getParent s p = .ok none) : insert_fixup (fuel + 1) s node = .error .nullDeref := by
  simp [insert_fixup, hn, hp, hc, hg, getLeft, load, Except.map]

theorem run_returns (ops : List Op) (k : Int) :
    Ends (run ops State.empty) (fun s =>
      (∃ st s', insert_node s k = .ok (st, s'))
      ∧ (∃ st s', delete_node s k = .ok (st, s'))) := by
  refine Ends_mono (run_reach ops) ?_
  rintro s ⟨t, h, hb, hr, -⟩
  exact ⟨insert_node_returns k h hb hr, delete_node_returns k h hb hr⟩

/-! ### Parent links and paths -/

theorem walk_spec (s : State) : ∀ (ds : List Dir) (t : RB) (ctx : Ctx),
    Rep s (plug ctx t) →
    walk s t.ptr ds = (match t.descend ds with
      | some u => .ok u.ptr
      | none => .error .nullDeref) := by
  intro ds
  induction ds with
  | nil => intro t ctx _; cases t <;> rfl
  | cons d ds ih =>
    intro t ctx h
    rcases t with _ | ⟨a, c, k, l, r⟩
    · cases d <;> rfl
    · cases d with
      | goLeft =>
        simp only [walk, ptr_node, getLeft_focus h, bind_ok, RB.descend]
        exact ih l (.L a c k r :: ctx) h
      | goRight =>
        simp only [walk, ptr_node, getRight_focus h, bind_ok, RB.descend]
        exact ih r (.R a c k l :: ctx) h

theorem descend_mem : ∀ (ds : List Dir) (t u : RB) (a : Nat),
    t.descend ds = some u → u.ptr = some a → a ∈ t.addrs := by
  intro ds
  induction ds with
  | nil =>
    intro t u a h hu
    simp only [RB.descend, Option.some.injEq] at h
    subst h
    rcases t with _ | ⟨x, c, k, l, r⟩
    · simp at hu
    · simp only [ptr_node, Option.some.injEq] at hu
      subst hu
      simp [RB.addrs]
  | cons d ds ih =>
    intro t u a h hu
    rcases t with _ | ⟨x, c, k, l, r⟩
    · simp [RB.descend] at h
    · cases d with
      | goLeft =>
        have := ih l u a h hu
        simp [RB.addrs, this]
      | goRight =>
        have := ih r u a h hu
        simp [RB.addrs, this]

theorem descend_of_mem (a : Nat) : ∀ t : RB, a ∈ t.addrs →
    ∃ ds u, t.descend ds = some u ∧ u.ptr = some a := by
  intro t
  induction t with
  | nil => intro h; simp [RB.addrs] at h
  | node x c k l r ihl ihr =>
    intro h
    simp only [RB.addrs, List.mem_append, List.mem_cons] at h
    rcases h with h | rfl | h
    · obtain ⟨ds, u, h1, h2⟩ := ihl h
      exact ⟨.goLeft :: ds, u, h1, h2⟩
    · exact ⟨[], _, rfl, rfl⟩
    · obtain ⟨ds, u, h1, h2⟩ := ihr h
      exact ⟨.goRight :: ds, u, h1, h2⟩

theorem descend_unique (a : Nat) : ∀ (t : RB), t.addrs.Nodup → ∀ (ds1 ds2 : List Dir)
    (u1 u2 : RB), t.descend ds1 = some u1 → u1.ptr = some a →
    t.descend ds2 = some u2 → u2.ptr = some a → ds1 = ds2 := by
  intro t
  induction t with
  | nil =>
    intro _ ds1 ds2 u1 u2 h1 p1 h2 p2
    cases ds1 with
    | nil =>
      simp only [RB.descend, Option.some.injEq] at h1
      subst h1
      simp at p1
    | cons d ds => simp [RB.descend] at h1
  | node x c k l r ihl ihr =>
    intro hnd ds1 ds2 u1 u2 h1 p1 h2 p2
    simp only [RB.addrs, List.nodup_append, List.nodup_cons, List.mem_cons] at hnd
    obtain ⟨hndl, ⟨hxr, hndr⟩, hdisj⟩ := hnd
    have hxl : x ∉ l.addrs := fun hm => hdisj hm (by simp)
    have hlr : ∀ d ∈ l.addrs, d ∉ r.addrs := fun d hd hd2 => hdisj hd (by simp [hd2])
    have top : ∀ (ds : List Dir) (u : RB), (node x c k l r).descend ds = some u →
        u.ptr = some x → ds = [] := by
      intro ds u h p
      cases ds with
      | nil => rfl
      | cons d ds =>
        cases d with
        | goLeft => exact absurd (descend_mem ds l u x h p) hxl
        | goRight => exact absurd (descend_mem ds r u x h p) hxr
    cases ds1 with
    | nil =>
      simp only [RB.descend, Option.some.injEq] at h1
      subst h1
      simp only [ptr_node, Option.some.injEq] at p1
      subst p1
      exact (top ds2 u2 h2 p2).symm
    | cons d1 ds1 =>
      cases ds2 with
      | nil =>
        simp only [RB.descend, Option.some.injEq] at h2
        subst h2
        simp only [ptr_node, Option.some.injEq] at p2
        subst p2
        exact top _ u1 h1 p1
      | cons d2 ds2 =>
        cases d1 <;> cases d2
        · rw [ihl hndl ds1 ds2 u1 u2 h1 p1 h2 p2]
        · exact absurd (descend_mem ds2 r u2 a h2 p2) (hlr a (descend_mem ds1 l u1 a h1 p1))
        · exact absurd (descend_mem ds1 r u1 a h1 p1) (hlr a (descend_mem ds2 l u2 a h2 p2))
        · rw [ihr hndr ds1 ds2 u1 u2 h1 p1 h2 p2]

theorem walk_ok_iff {s : State} {t : RB} (h : Rep s t) (ds : List Dir) (a : Nat) :
    walk s s.root ds = .ok (some a) ↔ ∃ u, t.descend ds = some u ∧ u.ptr = some a := by
  have h0 : Rep s (plug [] t) := h
  rw [h.1, walk_spec s ds t [] h0]
  cases t.descend ds with
  | none => simp
  | some u => simp

theorem Rep.links {s : State} {t : RB} (h : Rep s t) :
    (s.root = none ∨ getParent s s.root = .ok none)
    ∧ (∀ a ∈ t.addrs, ∀ c,
        (getLeft s (some a) = .ok (some c) → getParent s (some c) = .ok (some a))
        ∧ (getRight s (some a) = .ok (some c) → getParent s (some c) = .ok (some a)))
    ∧ (∀ a, a ∈ t.addrs ↔ ∃ ds, walk s s.root ds = .ok (some a))
    ∧ (∀ a ds1 ds2, walk s s.root ds1 = .ok (some a) → walk s s.root ds2 = .ok (some a) →
        ds1 = ds2) := by
  refine ⟨?_, ?_, ?_, ?_⟩
  · rcases t with _ | ⟨a, c, k, l, r⟩
    · exact Or.inl h.1
    · have h0 : Rep s (plug [] (node a c k l r)) := h
      right
      rw [h.1]
      simpa using getParent_focus h0
  · intro a ha c'
    obtain ⟨ctx, c, k, l, r, rfl⟩ := focus_of_mem a t ha
    constructor
    · intro e
      rw [getLeft_focus h] at e
      rcases l with _ | ⟨la, lc, lk, ll, lr⟩
      · simp at e
      · simp only [ptr_node, Except.ok.injEq, Option.some.injEq] at e
        subst e
        have h2 : Rep s (plug (.L a c k r :: ctx) (node la lc lk ll lr)) := h
        simpa using getParent_focus h2
    · intro e
      rw [getRight_focus h] at e
      rcases r with _ | ⟨ra, rc, rk, rl, rr⟩
      · simp at e
      · simp only [ptr_node, Except.ok.injEq, Option.some.injEq] at e
        subst e
        have h2 : Rep s (plug (.R a c k l :: ctx) (node ra rc rk rl rr)) := h
        simpa using getParent_focus h2
  · intro a
    constructor
    · intro ha
      obtain ⟨ds, u, h1, h2⟩ := descend_of_mem a t ha
      exact ⟨ds, (walk_ok_iff h ds a).2 ⟨u, h1, h2⟩⟩
    · rintro ⟨ds, hw⟩
      obtain ⟨u, h1, h2⟩ := (walk_ok_iff h ds a).1 hw
      exact descend_mem ds t u a h1 h2
  · intro a ds1 ds2 w1 w2
    obtain ⟨u1, h1, p1⟩ := (walk_ok_iff h ds1 a).1 w1
    obtain ⟨u2, h2, p2⟩ := (walk_ok_iff h ds2 a).1 w2
    exact descend_unique a t h.2.2.1 ds1 ds2 u1 u2 h1 p1 h2 p2

/-! ## The claims -/

/-- Claim C1 (refuted by the code): the calls insert 10, 20, 30, 40 leave a valid
red-black tree, and the next call `delete_node(10)`, which removes a BLACK leaf
that is a left child, returns SUCCESS and leaves the tree 20(BLACK) with no left
child and the right child 30(BLACK) -> 40(RED): the paths from the root to its
null links pass through different numbers of BLACK nodes, so the state no
longer holds a red-black tree. -/
theorem C1_delete_left_black_leaf_breaks_black_height :
    Ends (run [.ins 10, .ins 20, .ins 30, .ins 40] State.empty) (fun s =>
      RBValid s ∧ Returns (delete_node s 10) (fun st s' =>
        st = SUCCESS
        ∧ Rep s' (node 1 .black 20 nil (node 2 .black 30 nil (node 3 .red 40 nil nil)))
        ∧ ¬ (node 1 .black 20 nil (node 2 .black 30 nil (node 3 .red 40 nil nil))).balanced
        ∧ ¬ RBValid s')) := by
  have h : Ends (run [.ins 10, .ins 20, .ins 30, .ins 40] State.empty) (fun s =>
      (Rep s (treeOf s) ∧ (treeOf s).isRB) ∧ Returns (delete_node s 10) (fun st s' =>
        st = SUCCESS
        ∧ Rep s' (node 1 .black 20 nil (node 2 .black 30 nil (node 3 .red 40 nil nil)))
        ∧ ¬ (node 1 .black 20 nil (node 2 .black 30 nil (node 3 .red 40 nil nil))).balanced
        ∧ ¬ (treeOf s').isRB)) := by decide
  refine Ends_mono h ?_
  rintro s ⟨h1, h2⟩
  refine ⟨(RBValid_iff s).2 h1, Returns_mono h2 ?_⟩
  rintro st s' ⟨h3, h4, h5, h6⟩
  exact ⟨h3, h4, h5, not_valid_of_treeOf h6⟩

/-- Claim C6: in a state that holds a BST-ordered tree, `insert_node` of a key
that is in the tree returns DUPLICATE and the state after the call is the state
before it (same cells, same root, hence same shape, keys and colors). -/
theorem C6_insert_duplicate_unchanged (s : State) (t : RB) (k : Int)
    (h : Rep s t) (hb : t.bst) (hk : k ∈ t.keys) :
    insert_node s k = .ok (DUPLICATE, s) := by
  obtain ⟨a, c, l, r, hz⟩ := zoom_mem k t [] hb hk
  exact insert_node_dup h (by rw [hz]; simp)

/-- Witness for C6: inserting 20 again into the tree built from 10, 20, 30. -/
theorem C6_insert_duplicate_unchanged_witness :
    Ends (run [.ins 10, .ins 20, .ins 30] State.empty) (fun s =>
      Rep s (treeOf s) ∧ (treeOf s).bst ∧ (20 : Int) ∈ (treeOf s).keys
      ∧ insert_node s 20 = .ok (DUPLICATE, s)) := by
  have h : Ends (run [.ins 10, .ins 20, .ins 30] State.empty) (fun s =>
      Rep s (treeOf s) ∧ (treeOf s).bst ∧ (20 : Int) ∈ (treeOf s).keys) := by decide
  refine Ends_mono h ?_
  rintro s ⟨h1, h2, h3⟩
  exact ⟨h1, h2, h3, C6_insert_duplicate_unchanged s _ 20 h1 h2 h3⟩

/-- Counterexample to C7 as stated: `delete_node` on the empty tree returns
FAILURE (-1), which is not DATA_NOT_FOUND (-4). -/
theorem C7_empty_delete_returns_failure :
    Returns (delete_node State.empty 7) (fun st s' =>
      st = FAILURE ∧ st ≠ DATA_NOT_FOUND ∧ s'.root = none) := by
  decide

/-- Claim C7, amended: `delete_node` on the empty tree returns FAILURE and
leaves the state as it was; FAILURE differs from DATA_NOT_FOUND, the status
returned for a key absent from a non-empty tree; and the only statuses
`delete_node` can return are SUCCESS, FAILURE and DATA_NOT_FOUND. -/
theorem C7_delete_statuses :
    (∀ (s : State) (k : Int), s.root = none → delete_node s k = .ok (FAILURE, s))
    ∧ FAILURE ≠ DATA_NOT_FOUND
    ∧ (∀ (s : State) (t : RB) (k : Int), Rep s t → t ≠ nil → k ∉ t.keys →
        delete_node s k = .ok (DATA_NOT_FOUND, s))
    ∧ (∀ (s s' : State) (k st : Int), delete_node s k = .ok (st, s') →
        st = SUCCESS ∨ st = FAILURE ∨ st = DATA_NOT_FOUND) := by
  refine ⟨?_, by decide, ?_, ?_⟩
  · intro s k h
    simp [delete_node, h]
  · intro s t k h hne hk
    rw [delete_node_absent h hk, if_neg hne]
  · intro s s' k st h
    exact delete_node_status h

/-- Witness for C7: the empty state, and the tree built from 10, 20, 30 with
the absent key 15. -/
theorem C7_delete_statuses_witness :
    delete_node State.empty 7 = .ok (FAILURE, State.empty)
    ∧ Ends (run [.ins 10, .ins 20, .ins 30] State.empty) (fun s =>
        Rep s (treeOf s) ∧ treeOf s ≠ nil ∧ (15 : Int) ∉ (treeOf s).keys
        ∧ delete_node s 15 = .ok (DATA_NOT_FOUND, s)
        ∧ (DATA_NOT_FOUND = SUCCESS ∨ DATA_NOT_FOUND = FAILURE
            ∨ DATA_NOT_FOUND = DATA_NOT_FOUND)) := by
  refine ⟨C7_delete_statuses.1 State.empty 7 rfl, ?_⟩
  have h : Ends (run [.ins 10, .ins 20, .ins 30] State.empty) (fun s =>
      Rep s (treeOf s) ∧ treeOf s ≠ nil ∧ (15 : Int) ∉ (treeOf s).keys) := by decide
  refine Ends_mono h ?_
  rintro s ⟨h1, h2, h3⟩
  have h4 := C7_delete_statuses.2.2.1 s _ 15 h1 h2 h3
  exact ⟨h1, h2, h3, h4, C7_delete_statuses.2.2.2 s s 15 _ h4⟩

/-- Claim C8: in a state that holds a tree (empty or not), `delete_node` of a
key that is not in the tree does not return SUCCESS and the state after the
call is the state before it: nothing of the tree is changed. -/
theorem C8_delete_absent_unchanged (s : State) (t : RB) (k : Int)
    (h : Rep s t) (hk : k ∉ t.keys) :
    Returns (delete_node s k) (fun st s' => st ≠ SUCCESS ∧ s' = s) := by
  rw [delete_node_absent h hk]
  refine ⟨?_, rfl⟩
  split <;> decide

/-- Witness for C8: deleting the absent key 15 from the tree built from 10, 20, 30. -/
theorem C8_delete_absent_unchanged_witness :
    Ends (run [.ins 10, .ins 20, .ins 30] State.empty) (fun s =>
      Rep s (treeOf s) ∧ (15 : Int) ∉ (treeOf s).keys
      ∧ Returns (delete_node s 15) (fun st s' => st ≠ SUCCESS ∧ s' = s)) := by
  have h : Ends (run [.ins 10, .ins 20, .ins 30] State.empty) (fun s =>
      Rep s (treeOf s) ∧ (15 : Int) ∉ (treeOf s).keys) := by decide
  refine Ends_mono h ?_
  rintro s ⟨h1, h2⟩
  exact ⟨h1, h2, C8_delete_absent_unchanged s _ 15 h1 h2⟩

/-- Claim C9 (refuted by the code): after the twelve calls below the tree is the
chain 1 -> 2 -> 3 -> 5 -> 6 -> 7 of right children, of height 6 with 6 nodes, and
`2 ^ 6 = 64` exceeds `(6 + 1) ^ 2 = 49`. -/
theorem C9_height_bound_broken :
    Ends (run [.ins 1, .ins 3, .ins 4, .ins 5, .ins 6, .del 1, .ins 1, .ins 2, .ins 7,
               .del 1, .ins 1, .del 4] State.empty) (fun s =>
      Rep s (node 8 .black 1 nil (node 6 .red 2 nil (node 1 .black 3 nil
        (node 3 .red 5 nil (node 4 .black 6 nil (node 7 .red 7 nil nil))))))
      ∧ (treeOf s).height = 6 ∧ (treeOf s).size = 6
      ∧ ((treeOf s).size + 1) ^ 2 < 2 ^ (treeOf s).height) := by
  decide

/-- Claim C10: inserting 10, 20, 30 into the empty tree gives exactly the tree
with BLACK root 20 and the RED leaves 10 and 30; inserting 5 next returns
SUCCESS and gives a valid red-black tree whose root still holds 20. -/
theorem C10_scenario_insert_10_20_30_5 :
    Ends (run [.ins 10, .ins 20, .ins 30] State.empty) (fun s =>
      Rep s (node 1 .black 20 (node 0 .red 10 nil nil) (node 2 .red 30 nil nil))
      ∧ Returns (insert_node s 5) (fun st s' =>
          st = SUCCESS ∧ RBValid s'
          ∧ ∃ a c l r, Rep s' (node a c 20 l r))) := by
  have h : Ends (run [.ins 10, .ins 20, .ins 30] State.empty) (fun s =>
      Rep s (node 1 .black 20 (node 0 .red 10 nil nil) (node 2 .red 30 nil nil))
      ∧ Returns (insert_node s 5) (fun st s' =>
          st = SUCCESS ∧ (Rep s' (treeOf s') ∧ (treeOf s').isRB)
          ∧ Rep s' (node 1 .black 20 (node 0 .black 10 (node 3 .red 5 nil nil) nil)
              (node 2 .black 30 nil nil)))) := by decide
  refine Ends_mono h ?_
  rintro s ⟨h1, h2⟩
  refine ⟨h1, Returns_mono h2 ?_⟩
  rintro st s' ⟨h3, h4, h5⟩
  exact ⟨h3, (RBValid_iff s').2 h4, _, _, _, _, h5⟩

/-- Claim C2: in every state that holds a valid red-black tree (consistent links,
the five invariants), `insert_node` of any key returns SUCCESS or DUPLICATE and
leaves a state that again holds a valid red-black tree; hence every sequence of
insertions into the empty tree ends in a valid red-black tree. -/
theorem C2_insert_preserves_invariants :
    (∀ (s : State) (k : Int), RBValid s →
      Returns (insert_node s k) (fun st s' => (st = SUCCESS ∨ st = DUPLICATE) ∧ RBValid s'))
    ∧ (∀ ks : List Int, Ends (run (ks.map Op.ins) State.empty) RBValid) :=
  ⟨fun _ k h => insert_node_valid k h, fun ks => run_ins_valid ks State.empty RBValid_empty⟩

/-- Witness for C2: the tree built from 10, 20, 30 is valid and stays valid when
5 is inserted. -/
theorem C2_insert_preserves_invariants_witness :
    Ends (run ([10, 20, 30].map Op.ins) State.empty) (fun s =>
      RBValid s ∧ Returns (insert_node s 5) (fun st s' =>
        (st = SUCCESS ∨ st = DUPLICATE) ∧ RBValid s')) :=
  Ends_mono (C2_insert_preserves_invariants.2 [10, 20, 30])
    (fun s hv => ⟨hv, C2_insert_preserves_invariants.1 s 5 hv⟩)

/-- Claim C3: every finite sequence of `insert_node` / `delete_node` calls on the
empty tree runs to the end, and in the state it leaves `search_node` of a key
`k` returns SUCCESS exactly when `k` was inserted and not deleted afterwards,
and DATA_NOT_FOUND exactly when it was not. `search_node` only reads the state:
it returns a status and nothing else. -/
theorem C3_search_finds_live_keys (ops : List Op) (k : Int) :
    Ends (run ops State.empty) (fun s =>
      (search_node s k = .ok SUCCESS ↔ live ops k = true)
      ∧ (search_node s k = .ok DATA_NOT_FOUND ↔ live ops k = false)) := by
  refine Ends_mono (run_reach ops) ?_
  rintro s ⟨t, h, hb, -, hk⟩
  rw [search_node_spec k h hb]
  by_cases hm : k ∈ t.keys
  · have hl := (hk k).1 hm
    simp [hm, hl, SUCCESS, DATA_NOT_FOUND]
  · have hl : live ops k = false := by
      cases hlv : live ops k with
      | false => rfl
      | true => exact absurd ((hk k).2 hlv) hm
    simp [hm, hl, SUCCESS, DATA_NOT_FOUND]

/-- Claim C4: every finite sequence of `insert_node` / `delete_node` calls on the
empty tree ends in a state that holds a tree whose keys are the keys inserted
and not deleted afterwards; for every key `k` in that tree `delete_node(k)`
returns SUCCESS and leaves a tree whose in-order key sequence is the previous
one with `k` erased: still strictly increasing, `k` gone, every other key kept,
one node fewer, and `search_node(k)` then returns DATA_NOT_FOUND. -/
theorem C4_delete_present_removes_key (ops : List Op) (k : Int) :
    Ends (run ops State.empty) (fun s => ∃ t, Rep s t
      ∧ (∀ j, j ∈ t.keys ↔ live ops j = true)
      ∧ (k ∈ t.keys → Returns (delete_node s k) (fun st s' => st = SUCCESS
          ∧ ∃ t', Rep s' t'
            ∧ t'.keys = t.keys.erase k
            ∧ t'.keys.Pairwise (· < ·)
            ∧ k ∉ t'.keys
            ∧ (∀ j, j ≠ k → (j ∈ t'.keys ↔ j ∈ t.keys))
            ∧ t'.size + 1 = t.size
            ∧ search_node s' k = .ok DATA_NOT_FOUND))) := by
  refine Ends_mono (run_reach ops) ?_
  rintro s ⟨t, h, hb, hr, hk⟩
  refine ⟨t, h, hk, fun hm => ?_⟩
  refine Returns_mono (delete_node_present_spec h hb hr hm) ?_
  rintro st s' ⟨hst, t', h', hb', -, hkeys⟩
  have hnd : t.keys.Nodup := ((bst_iff_pairwise t).1 hb).imp (fun h => ne_of_lt h)
  have hnot : k ∉ t'.keys := by
    rw [hkeys, hnd.mem_erase_iff]; simp
  refine ⟨hst, t', h', hkeys, (bst_iff_pairwise t').1 hb', hnot, fun j hj => ?_, ?_, ?_⟩
  · rw [hkeys, hnd.mem_erase_iff]; simp [hj]
  · have hlen := congrArg List.length hkeys
    rw [List.length_erase_of_mem hm, RB.keys_length, RB.keys_length] at hlen
    have hpos : 0 < t.size := by
      rw [← RB.keys_length]; exact List.length_pos_of_mem hm
    omega
  · rw [search_node_spec k h' hb', if_neg hnot]

/-- Witness for C4: the two-children case, deleting the root key 20 of the tree
built from 10, 20, 30. -/
theorem C4_delete_present_removes_key_witness :
    Ends (run [.ins 10, .ins 20, .ins 30] State.empty) (fun s =>
      Returns (delete_node s 20) (fun st s' => st = SUCCESS
        ∧ search_node s' 20 = .ok DATA_NOT_FOUND)) :=
  Ends_mono (C4_delete_present_removes_key [.ins 10, .ins 20, .ins 30] 20)
    (fun _ ⟨_, _, hlive, h⟩ => Returns_mono (h ((hlive 20).2 (by decide)))
      (fun _ _ ⟨h1, _, _, _, _, _, _, _, h2⟩ => ⟨h1, h2⟩))

/-- Claim C5: every finite sequence of `insert_node` / `delete_node` calls on the
empty tree ends in a state that holds a tree whose keys are the keys inserted
and not deleted afterwards; for every key `k` not in that tree `insert_node(k)`
returns SUCCESS and leaves a tree whose in-order key sequence is the previous
one with `k` inserted at its sorted position: strictly increasing, one node
more, the keys are `k` and the previous keys, and when the tree was empty the
result is the single BLACK node holding `k`. -/
theorem C5_insert_absent_adds_key (ops : List Op) (k : Int) :
    Ends (run ops State.empty) (fun s => ∃ t, Rep s t
      ∧ (∀ j, j ∈ t.keys ↔ live ops j = true)
      ∧ (k ∉ t.keys → Returns (insert_node s k) (fun st s' => st = SUCCESS
          ∧ ∃ t', Rep s' t'
            ∧ t'.keys = t.keys.orderedInsert (· ≤ ·) k
            ∧ t'.keys.Pairwise (· < ·)
            ∧ (∀ j, j ∈ t'.keys ↔ j = k ∨ j ∈ t.keys)
            ∧ t'.size = t.size + 1
            ∧ (t = nil → t' = node s.next .black k nil nil)))) := by
  refine Ends_mono (run_reach ops) ?_
  rintro s ⟨t, h, hb, hr, hk⟩
  refine ⟨t, h, hk, fun hm => ?_⟩
  refine Returns_mono (insert_node_absent_spec h hb hr hm) ?_
  rintro st s' ⟨hst, t', h', hb', -, hkeys, hnil⟩
  refine ⟨hst, t', h', hkeys, (bst_iff_pairwise t').1 hb', fun j => ?_, ?_, hnil⟩
  · rw [hkeys, List.mem_orderedInsert]
  · have hlen := congrArg List.length hkeys
    rw [List.orderedInsert_length, RB.keys_length, RB.keys_length] at hlen
    exact hlen

/-- Witness for C5: inserting the absent key 25 into the tree left by the calls
insert 10, 20, 30, delete 20. -/
theorem C5_insert_absent_adds_key_witness :
    Ends (run [.ins 10, .ins 20, .ins 30, .del 20] State.empty) (fun s =>
      Returns (insert_node s 25) (fun st s' => st = SUCCESS
        ∧ ∃ t', Rep s' t' ∧ ∀ j, j ∈ t'.keys ↔ j = 25 ∨ j = 10 ∨ j = 30)) :=
  Ends_mono (C5_insert_absent_adds_key [.ins 10, .ins 20, .ins 30, .del 20] 25)
    (fun _ ⟨_, _, hlive, h⟩ =>
      Returns_mono (h (fun hm => absurd ((hlive 25).1 hm) (by decide)))
        (fun _ _ ⟨h1, t', h2, _, _, h3, _, _⟩ => ⟨h1, t', h2, fun j => by
          rw [h3 j, hlive j]
          by_cases h10 : j = 10
          · subst h10; decide
          · by_cases h30 : j = 30
            · subst h30; decide
            · by_cases h20 : j = 20
              · subst h20; decide
              · have e10 : ¬ (10 : Int) = j := fun e => h10 e.symm
                have e20 : ¬ (20 : Int) = j := fun e => h20 e.symm
                have e30 : ¬ (30 : Int) = j := fun e => h30 e.symm
                simp [live, liveFrom, h10, h30, e10, e20, e30]⟩))

/-- Claim C11: the calls insert 10, 20, 30, 5 leave 20(BLACK) over 10(BLACK), which has
the RED left child 5, and 30(BLACK). In `delete_node(20)` the node found is the root,
it has two children, `findmin` of its right subtree is the node holding 30, whose key
is copied into the root, and that node is the one unlinked. The call returns SUCCESS
and leaves 10(BLACK) over 5(BLACK) and 30(BLACK): the keys are exactly 5, 10, 30 and
the state holds a valid red-black tree. -/
theorem C11_scenario_delete_root_20 :
    Ends (run [.ins 10, .ins 20, .ins 30, .ins 5] State.empty) (fun s =>
      Rep s (node 1 .black 20 (node 0 .black 10 (node 3 .red 5 nil nil) nil)
        (node 2 .black 30 nil nil))
      ∧ Gives (delete_descend (s.next + 1) s 20 s.root) (fun temp => temp = some 1)
      ∧ Gives (findmin (s.next + 1) s (some 2)) (fun succ => succ = some 2)
      ∧ Gives (delete_target s (some 1)) (fun r =>
          Gives (getData r.1 (some 1)) (fun d => d = 30) ∧ r.2 = some 2)
      ∧ Returns (delete_node s 20) (fun st s' =>
          st = SUCCESS
          ∧ Rep s' (node 0 .black 10 (node 3 .black 5 nil nil) (node 1 .black 30 nil nil))
          ∧ (treeOf s').keys = [5, 10, 30]
          ∧ RBValid s')) := by
  have h : Ends (run [.ins 10, .ins 20, .ins 30, .ins 5] State.empty) (fun s =>
      Rep s (node 1 .black 20 (node 0 .black 10 (node 3 .red 5 nil nil) nil)
        (node 2 .black 30 nil nil))
      ∧ Gives (delete_descend (s.next + 1) s 20 s.root) (fun temp => temp = some 1)
      ∧ Gives (findmin (s.next + 1) s (some 2)) (fun succ => succ = some 2)
      ∧ Gives (delete_target s (some 1)) (fun r =>
          Gives (getData r.1 (some 1)) (fun d => d = 30) ∧ r.2 = some 2)
      ∧ Returns (delete_node s 20) (fun st s' =>
          st = SUCCESS
          ∧ Rep s' (node 0 .black 10 (node 3 .black 5 nil nil) (node 1 .black 30 nil nil))
          ∧ (treeOf s').keys = [5, 10, 30]
          ∧ (Rep s' (treeOf s') ∧ (treeOf s').isRB))) := by decide
  refine Ends_mono h ?_
  rintro s ⟨h1, h2, h2', h3, h4⟩
  refine ⟨h1, h2, h2', h3, Returns_mono h4 ?_⟩
  rintro st s' ⟨h5, h6, h7, h8⟩
  exact ⟨h5, h6, h7, (RBValid_iff s').2 h8⟩

/-- Claim C12: in every state that holds a tree with consistent links, and for
every node `x` of it whose right child `y` is not null, `left_rotate(root, x)`
returns, leaves a tree with consistent links and the same in-order key
sequence, changes the key and the color of no cell, and puts `y` in the place
of `x`: `y` has the parent `x` had, `x` is the left child of `y`, the child link
of that parent which held `x` holds `y`, and `y` is the root when `x` was.
The same holds for `right_rotate` and a node whose left child is not null,
`x` becoming the right child of `y`. -/
theorem C12_rotations_keep_keys_and_colors :
    (∀ (s : State) (t : RB) (x y : Nat), Rep s t → x ∈ t.addrs →
      getRight s (some x) = .ok (some y) →
      Ends (left_rotate s (some x)) (fun s' => ∃ t', Rep s' t' ∧ t'.keys = t.keys
        ∧ KeepsFields s s'
        ∧ getParent s' (some y) = getParent s (some x)
        ∧ getLeft s' (some y) = .ok (some x)
        ∧ getParent s' (some x) = .ok (some y)
        ∧ (s.root = some x → s'.root = some y)
        ∧ (∀ p, getParent s (some x) = .ok (some p) →
            (getLeft s (some p) = .ok (some x) → getLeft s' (some p) = .ok (some y))
            ∧ (getRight s (some p) = .ok (some x) → getRight s' (some p) = .ok (some y)))))
    ∧ (∀ (s : State) (t : RB) (x y : Nat), Rep s t → x ∈ t.addrs →
      getLeft s (some x) = .ok (some y) →
      Ends (right_rotate s (some x)) (fun s' => ∃ t', Rep s' t' ∧ t'.keys = t.keys
        ∧ KeepsFields s s'
        ∧ getParent s' (some y) = getParent s (some x)
        ∧ getRight s' (some y) = .ok (some x)
        ∧ getParent s' (some x) = .ok (some y)
        ∧ (s.root = some x → s'.root = some y)
        ∧ (∀ p, getParent s (some x) = .ok (some p) →
            (getLeft s (some p) = .ok (some x) → getLeft s' (some p) = .ok (some y))
            ∧ (getRight s (some p) = .ok (some x) → getRight s' (some p) = .ok (some y))))) :=
  ⟨fun _ _ _ _ h hx hr => left_rotate_at h hx hr,
   fun _ _ _ _ h hx hr => right_rotate_at h hx hr⟩

/-- Witness for C12: in the tree built from 10, 20, 30, 5 the root (cell 1, key 20)
has the right child cell 2, and cell 0 (key 10) has the left child cell 3: a
left rotation at the root and a right rotation below it. -/
theorem C12_rotations_keep_keys_and_colors_witness :
    Ends (run [.ins 10, .ins 20, .ins 30, .ins 5] State.empty) (fun s =>
      Ends (left_rotate s (some 1)) (fun s' => ∃ t', Rep s' t'
        ∧ t'.keys = (treeOf s).keys ∧ KeepsFields s s' ∧ s'.root = some 2)
      ∧ Ends (right_rotate s (some 0)) (fun s' => ∃ t', Rep s' t'
        ∧ t'.keys = (treeOf s).keys ∧ KeepsFields s s'
        ∧ getLeft s' (some 1) = .ok (some 3))) := by
  have h : Ends (run [.ins 10, .ins 20, .ins 30, .ins 5] State.empty) (fun s =>
      Rep s (treeOf s) ∧ 1 ∈ (treeOf s).addrs ∧ 0 ∈ (treeOf s).addrs
      ∧ Gives (getRight s (some 1)) (fun q => q = some 2)
      ∧ Gives (getLeft s (some 0)) (fun q => q = some 3)
      ∧ s.root = some 1
      ∧ Gives (getParent s (some 0)) (fun q => q = some 1)
      ∧ Gives (getLeft s (some 1)) (fun q => q = some 0)) := by decide
  refine Ends_mono h ?_
  rintro s ⟨h1, h2, h3, h4, h5, h6, h7, h8⟩
  constructor
  · refine Ends_mono
      (C12_rotations_keep_keys_and_colors.1 s (treeOf s) 1 2 h1 h2 (Gives_eq h4)) ?_
    rintro s' ⟨t', r1, r2, r3, -, -, -, r4, -⟩
    exact ⟨t', r1, r2, r3, r4 h6⟩
  · refine Ends_mono
      (C12_rotations_keep_keys_and_colors.2 s (treeOf s) 0 3 h1 h3 (Gives_eq h5)) ?_
    rintro s' ⟨t', r1, r2, r3, -, -, -, -, r4⟩
    exact ⟨t', r1, r2, r3, (r4 1 (Gives_eq h7)).1 (Gives_eq h8)⟩

/-- Claim C13: in every state that holds a tree, `delete_tree(&root)` returns
SUCCESS and leaves the root handle `NULL`, that is the empty tree, with every
cell of the tree freed and nothing else touched, and a second call returns
SUCCESS and changes nothing; on a state whose root handle is `NULL` the call
returns SUCCESS and the state is unchanged; and SUCCESS is the only status
`delete_tree` ever returns. -/
theorem C13_delete_tree_empties_tree :
    (∀ (s : State) (t : RB), Rep s t →
      Returns (delete_tree (s.next + 1) s .handle) (fun st s' =>
        st = SUCCESS ∧ s'.root = none ∧ Rep s' nil ∧ s'.next = s.next
        ∧ (∀ d ∈ t.addrs, s'.mem d = none) ∧ (∀ d, d ∉ t.addrs → s'.mem d = s.mem d)
        ∧ delete_tree (s'.next + 1) s' .handle = .ok (SUCCESS, s')))
    ∧ (∀ (fuel : Nat) (s : State), s.root = none →
        delete_tree (fuel + 1) s .handle = .ok (SUCCESS, s))
    ∧ (∀ (fuel : Nat) (s : State) (loc : Loc) (st : Int) (s' : State),
        delete_tree fuel s loc = .ok (st, s') → st = SUCCESS) :=
  ⟨fun _ _ h => delete_tree_root h, fun fuel _ h => delete_tree_empty fuel h,
    delete_tree_status⟩

/-- Witness for C13: the tree built from 10, 20, 30, 5 is torn down, and the
empty state is left as it is. -/
theorem C13_delete_tree_empties_tree_witness :
    Ends (run [.ins 10, .ins 20, .ins 30, .ins 5] State.empty) (fun s =>
      Returns (delete_tree (s.next + 1) s .handle) (fun st s' =>
        st = SUCCESS ∧ s'.root = none
        ∧ delete_tree (s'.next + 1) s' .handle = .ok (SUCCESS, s')))
    ∧ delete_tree 1 State.empty .handle = .ok (SUCCESS, State.empty) := by
  have h : Ends (run [.ins 10, .ins 20, .ins 30, .ins 5] State.empty) (fun s =>
      Rep s (treeOf s)) := by decide
  refine ⟨Ends_mono h ?_, C13_delete_tree_empties_tree.2.1 0 State.empty rfl⟩
  intro s h1
  refine Returns_mono (C13_delete_tree_empties_tree.1 s _ h1) ?_
  rintro st s' ⟨r1, r2, -, -, -, -, r3⟩
  exact ⟨r1, r2, r3⟩

/-- Claim C14 (refuted by the code): the calls insert 10, 20, 30, 40 leave a valid
red-black tree that holds the key 10, and `delete_node(10)`, which unlinks a
BLACK leaf that is a left child, calls `fix_double_black` on the unlinked node:
the first call takes the `sibling == NULL` branch and moves to the parent, the
root, where the second call returns. The same branch is taken when the only
node of a tree is deleted. -/
theorem C14_no_sibling_branch_taken :
    Ends (run [.ins 10, .ins 20, .ins 30, .ins 40] State.empty) (fun s =>
      RBValid s ∧ (10 : Int) ∈ (treeOf s).keys
      ∧ Gives (delete_node_log s 10) (fun log => log = [.noSibling, .atRoot]))
    ∧ Ends (run [.ins 10] State.empty) (fun s =>
      RBValid s ∧ (10 : Int) ∈ (treeOf s).keys
      ∧ Gives (delete_node_log s 10) (fun log => log = [.noSibling, .atRoot])) := by
  have h1 : Ends (run [.ins 10, .ins 20, .ins 30, .ins 40] State.empty) (fun s =>
      (Rep s (treeOf s) ∧ (treeOf s).isRB) ∧ (10 : Int) ∈ (treeOf s).keys
      ∧ Gives (delete_node_log s 10) (fun log => log = [.noSibling, .atRoot])) := by decide
  have h2 : Ends (run [.ins 10] State.empty) (fun s =>
      (Rep s (treeOf s) ∧ (treeOf s).isRB) ∧ (10 : Int) ∈ (treeOf s).keys
      ∧ Gives (delete_node_log s 10) (fun log => log = [.noSibling, .atRoot])) := by decide
  exact ⟨Ends_mono h1 (fun s h => ⟨(RBValid_iff s).2 h.1, h.2⟩),
    Ends_mono h2 (fun s h => ⟨(RBValid_iff s).2 h.1, h.2⟩)⟩

/-- Claim C16: let `fix_double_black` be called on a node `n` (a node of the tree
below the path `f :: fs`, or the node `delete_node` has unlinked from there) in a
tree without RED-RED edge, and let the sibling `getsibling_node` finds be RED.
Then the call paints the parent RED and the sibling BLACK, rotates the parent to
the side of `n` and calls itself on `n` again; before that second call the
former sibling is in the parent's place (same parent link, root if the parent
was), the parent hangs below it and is still the parent of `n`, `n` is not the
root, and the sibling of `n` is `NULL` or BLACK: the second call does not take
the RED sibling case. -/
theorem C16_red_sibling_case (s : State) (f : Frame) (fs : Ctx) (t : RB) (nptr : Ptr)
    (det : Bool) (sa : Nat) (sk : Int) (sl sr : RB) (fuel : Nat)
    (h : At s (f :: fs) t nptr det) (hsib : sibOf det f = node sa .red sk sl sr)
    (hrr : (plug (f :: fs) t).noRedRed) :
    getsibling_node s nptr = .ok (some sa) ∧ getColor s (some sa) = .ok RED
    ∧ fix_double_black (fuel + 1) s nptr
        = (fdb_red_sibling s nptr (some sa) >>= fun s' => fix_double_black fuel s' nptr)
    ∧ Ends (fdb_red_sibling s nptr (some sa)) (fun s' =>
        Rep s' (plug (redSibCtx f sa sk sl sr fs) t)
        ∧ getColor s' (some f.addr) = .ok RED ∧ getColor s' (some sa) = .ok BLACK
        ∧ getParent s' (some sa) = getParent s (some f.addr)
        ∧ (s.root = some f.addr → s'.root = some sa)
        ∧ getParent s' (some f.addr) = .ok (some sa)
        ∧ getParent s' nptr = getParent s nptr
        ∧ nptr ≠ s'.root
        ∧ Gives (getsibling_node s' nptr) (fun q =>
            q = none ∨ getColor s' q = .ok BLACK)) := by
  have hS := h.rep.sib_rep
  rw [sibOf_eq_sib hsib] at hS
  refine ⟨?_, ?_, fdb_red_sibling_unfold fuel h hsib, fdb_red_sibling_after h hsib hrr⟩
  · rw [getsibling_At h, hsib]; rfl
  · simpa using getColor_focus hS

/-- Witness for C16: in the tree built from 1, 5, 6, 2, 3, 4 the node holding 6
(cell 2) is the right child of the root 5 and its sibling, the node holding 2
(cell 3), is RED. -/
theorem C16_red_sibling_case_witness :
    Ends (run [.ins 1, .ins 5, .ins 6, .ins 2, .ins 3, .ins 4] State.empty) (fun s =>
      Ends (fdb_red_sibling s (some 2) (some 3)) (fun s' =>
        s'.root = some 3 ∧ getColor s' (some 3) = .ok BLACK
        ∧ getColor s' (some 1) = .ok RED
        ∧ Gives (getsibling_node s' (some 2)) (fun q =>
            q = none ∨ getColor s' q = .ok BLACK))) := by
  have h : Ends (run [.ins 1, .ins 5, .ins 6, .ins 2, .ins 3, .ins 4] State.empty) (fun s =>
      Rep s (node 1 .black 5 (node 3 .red 2 (node 0 .black 1 nil nil)
        (node 4 .black 3 nil (node 5 .red 4 nil nil))) (node 2 .black 6 nil nil))) := by
    decide
  refine Ends_mono h ?_
  intro s hrep
  have hat : At s [.R 1 .black 5 (node 3 .red 2 (node 0 .black 1 nil nil)
      (node 4 .black 3 nil (node 5 .red 4 nil nil)))] (node 2 .black 6 nil nil)
      (some 2) false := ⟨hrep, by simp⟩
  refine Ends_mono (C16_red_sibling_case s _ [] _ (some 2) false 3 2 _ _ 0 hat rfl
    (by decide)).2.2.2 ?_
  rintro s' ⟨-, r1, r2, -, r3, -, -, -, r4⟩
  exact ⟨r3 hrep.1, r2, r1, r4⟩

/-- Counterexample to C17 as stated: the calls insert 1, 2, 3, 5, 6, 4 leave the
tree 2(BLACK) over 1(BLACK) and 5(RED), the latter over 3(BLACK), which has the
RED right child 4, and 6(BLACK). In `delete_node(5)` the key 6 is copied into
the RED node (cell 3) and the node that held 6 is unlinked; its sibling 3 is
BLACK with a RED child, so `fix_double_black` takes that case, once. Afterwards
the place of the RED parent is taken by the node holding 4 (cell 5), which is
RED, not BLACK. -/
theorem C17_red_parent_leaves_red_subtree_root :
    Ends (run [.ins 1, .ins 2, .ins 3, .ins 5, .ins 6, .ins 4] State.empty) (fun s =>
      Rep s (node 1 .black 2 (node 0 .black 1 nil nil)
        (node 3 .red 5 (node 2 .black 3 nil (node 5 .red 4 nil nil))
          (node 4 .black 6 nil nil)))
      ∧ Gives (delete_node_log s 5) (fun log => log = [.redChild])
      ∧ Returns (delete_node s 5) (fun st s' => st = SUCCESS
          ∧ Rep s' (node 1 .black 2 (node 0 .black 1 nil nil)
              (node 5 .red 4 (node 2 .black 3 nil nil) (node 3 .black 6 nil nil)))
          ∧ Gives (getColor s' (some 5)) (fun c => c = RED ∧ c ≠ BLACK))) := by
  decide

/-- Claim C17, amended: let `fix_double_black` be called on a node `n` (a node of
the tree below the path `f :: fs`, or the node `delete_node` has unlinked from
there) whose sibling is BLACK and has a RED child. Then the call is the
rotations and recolorings of lines 263-293 and nothing more (no further call
of `fix_double_black`), and afterwards the node in the parent's former place has
the color the parent had (BLACK if the parent was BLACK, RED if it was RED), its
two children are BLACK, and the former parent is one of them. -/
theorem C17_red_child_case (s : State) (f : Frame) (fs : Ctx) (t : RB) (nptr : Ptr)
    (det : Bool) (sa : Nat) (sk : Int) (sl sr : RB) (fuel : Nat)
    (h : At s (f :: fs) t nptr det) (hsib : sibOf det f = node sa .black sk sl sr)
    (hred : (sl.isRed || sr.isRed) = true) :
    getsibling_node s nptr = .ok (some sa) ∧ getColor s (some sa) = .ok BLACK
    ∧ hasRedChild s (some sa) = .ok true
    ∧ getColor s (some f.addr) = .ok f.color.toInt
    ∧ fix_double_black (fuel + 1) s nptr = (do
        let s ← fdb_rotate s nptr (some sa)
        let p ← getParent s nptr
        setColor s p BLACK)
    ∧ Ends (fix_double_black (fuel + 1) s nptr) (fun s' => ∃ top k tl tr,
        Rep s' (plug fs (node top f.color k tl tr))
        ∧ tl.color = .black ∧ tr.color = .black
        ∧ getColor s' (some top) = .ok f.color.toInt
        ∧ getParent s' (some top) = getParent s (some f.addr)
        ∧ (s.root = some f.addr → s'.root = some top)
        ∧ getColor s' (some f.addr) = .ok BLACK
        ∧ getParent s' (some f.addr) = .ok (some top)) := by
  have hS := h.rep.sib_rep
  rw [sibOf_eq_sib hsib] at hS
  refine ⟨?_, ?_, ?_, getColor_frame h.rep, fdb_red_child_unfold fuel h hsib hred,
    fdb_red_child_after fuel h hsib hred⟩
  · rw [getsibling_At h, hsib]; rfl
  · simpa using getColor_focus hS
  · rw [hasRedChild_spec hS, hred]

/-- Witness for C17: in the tree built from 1, 2, 3, 5, 6, 4 the node holding 6
(cell 4) has the RED parent 5 (cell 3) and the BLACK sibling 3 (cell 2), whose
right child 4 is RED. -/
theorem C17_red_child_case_witness :
    Ends (run [.ins 1, .ins 2, .ins 3, .ins 5, .ins 6, .ins 4] State.empty) (fun s =>
      Ends (fix_double_black 1 s (some 4)) (fun s' => ∃ top,
        getColor s' (some top) = .ok RED
        ∧ getColor s' (some 3) = .ok BLACK
        ∧ getParent s' (some 3) = .ok (some top))) := by
  have h : Ends (run [.ins 1, .ins 2, .ins 3, .ins 5, .ins 6, .ins 4] State.empty) (fun s =>
      Rep s (node 1 .black 2 (node 0 .black 1 nil nil)
        (node 3 .red 5 (node 2 .black 3 nil (node 5 .red 4 nil nil))
          (node 4 .black 6 nil nil)))) := by
    decide
  refine Ends_mono h ?_
  intro s hrep
  have hat : At s [.R 3 .red 5 (node 2 .black 3 nil (node 5 .red 4 nil nil)),
      .R 1 .black 2 (node 0 .black 1 nil nil)] (node 4 .black 6 nil nil)
      (some 4) false := ⟨hrep, by simp⟩
  refine Ends_mono (C17_red_child_case s _ _ _ (some 4) false 2 3 _ _ 0 hat rfl
    (by decide)).2.2.2.2.2 ?_
  rintro s' ⟨top, k, tl, tr, -, -, -, r1, -, -, r2, r3⟩
  exact ⟨top, r1, r2, r3⟩

/-- Counterexample to C18 as stated: after the insertions of 10 and 20, the
insertion of 30 takes no recolor case; its fixup loop takes one rotate case, with
one rotation. -/
theorem C18_insert_30_takes_rotate_case :
    Ends (run [.ins 10, .ins 20] State.empty) (fun s =>
      Gives (insert_node_log s 30) (fun log =>
        InsCase.recolor ∉ log ∧ InsCase.rotate 1 ∈ log)) := by
  decide

/-- Claim C18, amended: starting from the empty tree, the insertion of 30 after 10
and 20 finds the parent 20 RED and no uncle, and is resolved by one rotate case
with a single rotation (the left rotation at the root 10) and no recolor round;
the following insertion of 5 finds the uncle 30 RED and is resolved by the
recolor case alone, with no rotation. The trees are 20(BLACK) over 10(RED) and
30(RED) after the first, and 20(BLACK) over 10(BLACK), with the RED left child 5,
and 30(BLACK) after the second. -/
theorem C18_scenario_fixup_cases :
    Ends (run [.ins 10, .ins 20] State.empty) (fun s =>
      Rep s (node 0 .black 10 nil (node 1 .red 20 nil nil))
      ∧ Gives (insert_node_log s 30) (fun log => log = [.rotate 1])
      ∧ Returns (insert_node s 30) (fun st s' => st = SUCCESS
          ∧ Rep s' (node 1 .black 20 (node 0 .red 10 nil nil) (node 2 .red 30 nil nil))
          ∧ Gives (insert_node_log s' 5) (fun log => log = [.recolor])
          ∧ Returns (insert_node s' 5) (fun st2 s2 => st2 = SUCCESS
              ∧ Rep s2 (node 1 .black 20 (node 0 .black 10 (node 3 .red 5 nil nil) nil)
                  (node 2 .black 30 nil nil))))) := by
  decide

/-- Claim C15: the model stops with the fault `nullDeref` whenever a `NULL` (or
freed) pointer is followed, and a fault anywhere inside a call is the result of
the call. For every sequence of `insert_node` / `delete_node` calls from the
empty tree and every key, the next `insert_node` and the next `delete_node` do
not end in that fault. A `left_rotate` on a node without right child, a
`right_rotate` on a node without left child, and a round of the insertion fixup
on a node whose RED parent has no parent would each end in it: none of them
happens during these calls. -/
theorem C15_no_null_dereference :
    (∀ (ops : List Op) (k : Int), Ends (run ops State.empty) (fun s =>
      insert_node s k ≠ .error .nullDeref ∧ delete_node s k ≠ .error .nullDeref))
    ∧ (∀ (s : State) (node : Ptr), getRight s node = .ok none →
        left_rotate s node = .error .nullDeref)
    ∧ (∀ (s : State) (node : Ptr), getLeft s node = .ok none →
        right_rotate s node = .error .nullDeref)
    ∧ (∀ (fuel : Nat) (s : State) (node p : Ptr), node ≠ s.root →
        getParent s node = .ok p → getColor s p = .ok RED → getParent s p = .ok none →
        insert_fixup (fuel + 1) s node = .error .nullDeref) := by
  refine ⟨fun ops k => Ends_mono (run_returns ops k) ?_, fun _ _ h => left_rotate_null h,
    fun _ _ h => right_rotate_null h, fun fuel _ _ _ h1 h2 h3 h4 =>
      insert_fixup_null fuel h1 h2 h3 h4⟩
  rintro s ⟨⟨st, s', h1⟩, ⟨st2, s2, h2⟩⟩
  rw [h1, h2]
  exact ⟨by simp, by simp⟩

/-- Witness for C15: after insert 10 the root (cell 0) has no child, so both
rotations at it would fault; and in a heap where a RED node (cell 0) without
parent has the RED right child cell 1, a fixup round at cell 1 would fault. -/
theorem C15_no_null_dereference_witness :
    Ends (run [.ins 10] State.empty) (fun s =>
      left_rotate s (some 0) = .error .nullDeref
      ∧ right_rotate s (some 0) = .error .nullDeref)
    ∧ insert_fixup 1
        ⟨fun a => if a = 0 then some ⟨10, RED, none, some 1, none⟩
          else if a = 1 then some ⟨20, RED, none, none, some 0⟩ else none, some 0, 2⟩
        (some 1) = .error .nullDeref := by
  have h : Ends (run [.ins 10] State.empty) (fun s =>
      Gives (getRight s (some 0)) (fun q => q = none)
      ∧ Gives (getLeft s (some 0)) (fun q => q = none)) := by decide
  refine ⟨Ends_mono h ?_, ?_⟩
  · rintro s ⟨h1, h2⟩
    exact ⟨C15_no_null_dereference.2.1 s (some 0) (Gives_eq h1),
      C15_no_null_dereference.2.2.1 s (some 0) (Gives_eq h2)⟩
  · exact C15_no_null_dereference.2.2.2 0 _ (some 1) (some 0) (by decide) rfl rfl rfl

/-- Claim C19: for every sequence of `insert_node` / `delete_node` calls from the
empty tree and every key, the next `insert_node` and the next `delete_node`
return: neither the descent, nor the fixup loop of `insert_node`, nor `findmin`,
nor the recursion of `fix_double_black` (upward moves and retries after a RED
sibling rotation) runs out of the fuel it is given. With `n` cells allocated so
far, the fixup loop of `insert_node` takes at most `n + 1` rounds that change
the tree, and `fix_double_black` is entered at most `2 * n + 2` times. -/
theorem C19_calls_terminate (ops : List Op) (k : Int) :
    Ends (run ops State.empty) (fun s =>
      (∃ st s', insert_node s k = .ok (st, s'))
      ∧ (∃ st s', delete_node s k = .ok (st, s'))
      ∧ Gives (insert_node_log s k) (fun log => log.length ≤ s.next + 1)
      ∧ Gives (delete_node_log s k) (fun log => log.length ≤ 2 * s.next + 2)) := by
  refine Ends_mono (run_returns ops k) ?_
  rintro s ⟨⟨st, s', h1⟩, ⟨st2, s2, h2⟩⟩
  exact ⟨⟨st, s', h1⟩, ⟨st2, s2, h2⟩, insert_node_log_of_ok h1, delete_node_log_of_ok h2⟩

/-- Claim C20: every sequence of `insert_node` / `delete_node` calls from the empty
tree ends in a state whose root handle is `NULL` or points to a BLACK node. As
the sequence is arbitrary, this holds after each completed call. -/
theorem C20_root_is_black (ops : List Op) :
    Ends (run ops State.empty) (fun s =>
      s.root = none ∨ getColor s s.root = .ok BLACK) := by
  refine Ends_mono (run_reach ops) ?_
  rintro s ⟨t, h, -, hr, -⟩
  rcases t with _ | ⟨a, c, k, l, r⟩
  · exact Or.inl h.1
  · have hc := color_of_not_red hr
    subst hc
    have h0 : Rep s (plug [] (node a .black k l r)) := h
    right
    rw [h.1]
    simpa using getColor_focus h0

/-- Claim C21: every sequence of `insert_node` / `delete_node` calls from the empty
tree ends in a state that holds a tree `t` with consistent links: the root
handle is `NULL` or points to a node whose parent link is `NULL`; for every
node of `t`, its left child and its right child, when not `NULL`, have that
node as their parent; the nodes of `t` are exactly the cells reached from the
root handle by following child links; and each of them is reached along
exactly one path. As the sequence is arbitrary, this holds after each
completed call. -/
theorem C21_parent_links_consistent (ops : List Op) :
    Ends (run ops State.empty) (fun s => ∃ t, Rep s t
      ∧ (s.root = none ∨ getParent s s.root = .ok none)
      ∧ (∀ a ∈ t.addrs, ∀ c,
          (getLeft s (some a) = .ok (some c) → getParent s (some c) = .ok (some a))
          ∧ (getRight s (some a) = .ok (some c) → getParent s (some c) = .ok (some a)))
      ∧ (∀ a, a ∈ t.addrs ↔ ∃ ds, walk s s.root ds = .ok (some a))
      ∧ (∀ a ds1 ds2, walk s s.root ds1 = .ok (some a) →
          walk s s.root ds2 = .ok (some a) → ds1 = ds2)) := by
  refine Ends_mono (run_reach ops) ?_
  rintro s ⟨t, h, -, -, -⟩
  exact ⟨t, h, h.links⟩

end RBT
